import Mathlib

/-!
# Per-IP rate limiting middleware (web/middleware/rate-limit.go) and its neighbours

A shallow embedding of the keyed limiter store of the welcome-note generator:
`ipRateLimitStore` with `getLimiter`, `cleanup`, `getStats`, and the body of the
`RateLimit` handler. After it come the pure helpers around it: the output of the safe
and smart flows (internal/flows), `filterHeaders` (logging.go), `getTabNameFromPath`,
the trusted origins of `CsrfMiddlware` and `containsPort` (csrf.go), `getEnvSlice` with
`splitAndTrim`, `splitString` and `trimSpace` (config.go), and `normalizeLength` and
`normalizeTone` (utils.go).

Conventions of the embedding.

* `time.Time` and `time.Duration` are rational numbers of seconds. Every
  nanosecond reading of the Go clock is such a number, comparisons and
  differences are the ones of the source.
  `Time.Sub` saturates for differences beyond about 292 years; such differences
  are outside the model.
* A `float64` value is the rational number it stands for. `float64 q` is the
  value nearest to `q`, which is what the conversion of an integer and the
  division of line 80 of rate-limit.go give. The token arithmetic inside the
  bucket, which is modelled from the spec, is exact.
* A Go pointer `*rate.Limiter` is an address in a heap of limiters, the index
  of the limiter in `State.heap`. A limiter is allocated by appending it to
  the heap, so an address is never reused.
* `map[string]*ipLimiterEntry` is an association list with unique keys
  (`AList`); entries are read with `lookup`, written with `insert`, removed
  with `erase`, and `len` is the number of entries.
* Each `time.Now()` of the source is an explicit argument.
* The sections of `getLimiter` and `cleanup` that run under `s.mu`, and `Allow`
  under the limiter's own lock, are indivisible steps. The sequential functions
  run these steps back to back; `Concurrent` interleaves the steps of several
  goroutines and of the cleanup goroutine under an arbitrary schedule.
* The package variables `ipStore` and `ipStoreOnce` are the record `Globals`.
* A Go string that is only compared, concatenated or searched for ASCII characters is
  a `String`. The strings of config.go, which are indexed byte by byte, are lists of
  bytes. Calls to a language model and the standard functions `strings.ToLower` and
  `strings.TrimSpace` are arguments of the functions that use them.
-/

namespace Middleware

/-- An instant, in seconds. -/
abbrev Time := ℚ

/-- A length of time, in seconds. -/
abbrev Duration := ℚ

/-! ## Floating point -/

/-- The quotient `n / d` of natural numbers rounded to the nearest natural number, a
tie going to the even one. -/
def roundHalfEven (n d : Nat) : Nat :=
  if 2 * (n % d) < d then n / d
  else if d < 2 * (n % d) then n / d + 1
  else if (n / d) % 2 = 0 then n / d
  else n / d + 1

/-- The `float64` nearest to the positive rational `n / d` (IEEE 754 binary64, round to
nearest, ties to even): with `f` the integer part of the binary logarithm of `n / d`,
which is the difference `k` of the binary logarithms of `n` and `d` or one less, the
value is scaled by `2 ^ (52 - f)` into the range of the 53-bit significands, rounded to
an integer and scaled back. Values beyond the exponent range of `float64`, which no
quotient of a 64-bit integer by 60 reaches, are not treated. -/
def float64OfRatio (n d : Nat) : ℚ :=
  let k : Int := (Nat.log2 n : Int) - (Nat.log2 d : Int)
  let f : Int := if d * 2 ^ k.toNat ≤ n * 2 ^ (-k).toNat then k else k - 1
  let e : Int := f - 52
  let m := roundHalfEven (n * 2 ^ (-e).toNat) (d * 2 ^ e.toNat)
  ((m * 2 ^ e.toNat : Nat) : ℚ) / ((2 ^ (-e).toNat : Nat) : ℚ)

/-- The `float64` nearest to the rational `q`: the value of the conversion
`float64(n)` at `q = n` and, for `float64` values `x` and `y`, of the division `x / y`
at the exact quotient `q`. -/
def float64 (q : ℚ) : ℚ :=
  if 0 < q then float64OfRatio q.num.toNat q.den
  else if q < 0 then -float64OfRatio (-q.num).toNat q.den
  else 0

/-! ## Token bucket -/

/-- Modelled from the spec: the token bucket `rate.Limiter` of the imported package
golang.org/x/time/rate is not part of the source files. Per spec section 3 a bucket
holds a refill `rate` (`limit`, tokens per second), a `capacity` (`burst`) and the
current `tokens`; `last` is the instant of the last refill, `none` for a bucket that
has not been checked yet. -/
structure Limiter where
  limit : ℚ
  burst : Int
  tokens : ℚ
  last : Option Time
  deriving DecidableEq

/-- Modelled from the spec: `rate.NewLimiter(r, b)`, absent from the source files. A fresh
bucket has the configured rate and capacity and is full (spec 4.3: recreation resets
the bucket to full capacity). -/
def NewLimiter (r : ℚ) (b : Int) : Limiter :=
  { limit := r, burst := b, tokens := (b : ℚ), last := none }

/-- Modelled from the spec: the time elapsed since the last refill of the bucket
(spec 4.1, `elapsed_since_last_refill`); nothing has elapsed for a bucket that was
never checked. -/
def Limiter.elapsed (lim : Limiter) (now : Time) : ℚ :=
  match lim.last with
  | none => 0
  | some t => now - t

/-- Modelled from the spec: the token count at decision time (spec 4.1): `tokens` refilled
by `rate * elapsed_since_last_refill`, capped at `capacity`. -/
def Limiter.refill (lim : Limiter) (now : Time) : ℚ :=
  min (lim.burst : ℚ) (lim.tokens + lim.limit * lim.elapsed now)

/-- Modelled from the spec: `(*rate.Limiter).Allow`, the `tryConsume(now)` of spec 4.1,
absent from the source files. If the refilled token count is at least 1, one token is
subtracted and the check is allowed; otherwise the check is denied and the bucket is left
as it was. -/
def Limiter.Allow (lim : Limiter) (now : Time) : Limiter × Bool :=
  if 1 ≤ lim.refill now then
    ({ lim with tokens := lim.refill now - 1, last := some now }, true)
  else
    (lim, false)

/-! ## Store -/

/-- The struct `ipLimiterEntry`: the address of the limiter and the last activity
timestamp. -/
structure ipLimiterEntry where
  limiter : Nat
  lastSeen : Time
  deriving DecidableEq

/-- The struct `config.RateLimitConfig`. -/
structure RateLimitConfig where
  RequestsPerMinute : Int
  BurstSize : Int
  CleanupInterval : Duration
  LimiterTTL : Duration

/-- The struct `ipRateLimitStore` (without its mutex). -/
structure ipRateLimitStore where
  limiters : AList (fun _ : String => ipLimiterEntry)
  requestsPerMinute : Int
  burstSize : Int
  cleanupInterval : Duration
  limiterTTL : Duration

/-- The store together with the heap its limiter pointers point into. -/
structure State where
  store : ipRateLimitStore
  heap : List Limiter

/-- The function `newIPRateLimitStore`: an empty entry map and the four
configured constants. The cleanup goroutine it starts is modelled by explicit
calls of `cleanup`. -/
def newIPRateLimitStore (cfg : RateLimitConfig) : ipRateLimitStore :=
  { limiters := ∅
    requestsPerMinute := cfg.RequestsPerMinute
    burstSize := cfg.BurstSize
    cleanupInterval := cfg.CleanupInterval
    limiterTTL := cfg.LimiterTTL }

/-- The state right after `newIPRateLimitStore`: no entry, no limiter allocated. -/
def initState (cfg : RateLimitConfig) : State :=
  { store := newIPRateLimitStore cfg, heap := [] }

/-- Lines 67-88 of `getLimiter`, the part run under the write lock: the entry
map is looked up (again); an existing entry has its `lastSeen` set to `now` and
its limiter is returned; otherwise a limiter with limit
`float64(requestsPerMinute) / 60.0`, a division of `float64` values (line 80), and
burst `burstSize` is allocated, stored in a new entry with `lastSeen = now`,
and returned. -/
def getLimiterLocked (w : State) (ip : String) (now : Time) : State × Nat :=
  match w.store.limiters.lookup ip with
  | some entry =>
    ({ w with store := { w.store with
          limiters := w.store.limiters.insert ip { entry with lastSeen := now } } },
      entry.limiter)
  | none =>
    let limit : ℚ := float64 (float64 (w.store.requestsPerMinute : ℚ) / 60)
    let newLimiter := NewLimiter limit w.store.burstSize
    ({ store := { w.store with
          limiters := w.store.limiters.insert ip
            { limiter := w.heap.length, lastSeen := now } }
       heap := w.heap ++ [newLimiter] },
      w.heap.length)

/-- The method `getLimiter`, run without interference from other goroutines:
the lookup under the read lock (lines 55-57); on a hit `lastSeen` is set to
`now` and the entry's limiter is returned (lines 59-65); on a miss the locked
part runs on the same state. -/
def getLimiter (w : State) (ip : String) (now : Time) : State × Nat :=
  match w.store.limiters.lookup ip with
  | some entry =>
    ({ w with store := { w.store with
          limiters := w.store.limiters.insert ip { entry with lastSeen := now } } },
      entry.limiter)
  | none => getLimiterLocked w ip now

/-- The method `cleanup` at clock reading `now`: the entries are visited one by
one and an entry with `now.Sub(entry.lastSeen) > limiterTTL` is deleted from the
map. -/
def cleanup (w : State) (now : Time) : State :=
  { w with store := { w.store with
      limiters := w.store.limiters.entries.foldl
        (fun m x => if now - x.2.lastSeen > w.store.limiterTTL then m.erase x.1 else m)
        w.store.limiters } }

/-- The method `getStats`: `len(s.limiters)`. -/
def getStats (w : State) : Nat :=
  w.store.limiters.entries.length

/-- The call `limiter.Allow()` through a pointer: the limiter at address `p` is
read, checked at `now` and written back. An address that was never allocated
reads nothing and is denied; in the states reached from `initState` every address
held by an entry is allocated, since `getLimiter` stores only addresses it allocated. -/
def allowAt (heap : List Limiter) (p : Nat) (now : Time) : List Limiter × Bool :=
  match heap[p]? with
  | some lim => (heap.set p (lim.Allow now).1, (lim.Allow now).2)
  | none => (heap, false)

/-- The body of the handler returned by `RateLimit` (lines 171-192) for client
address `clientIP`: `getLimiter` reads the clock at `tSeen`, `Allow` at `tAllow`.
The boolean is `true` when the request goes on to the next handler and `false`
when it is aborted with status 429. -/
def RateLimit (w : State) (clientIP : String) (tSeen tAllow : Time) : State × Bool :=
  let r := getLimiter w clientIP tSeen
  let a := allowAt r.1.heap r.2 tAllow
  ({ r.1 with heap := a.1 }, a.2)

/-- The store operation `allow(key)` of spec 4.2 at one instant: the handler
body with both clock readings equal to `now`. -/
def allow (w : State) (key : String) (now : Time) : State × Bool :=
  RateLimit w key now now

/-- Runs one `allow(key)` check per instant of the list, in order, and collects
the answers. -/
def allowAll (w : State) (key : String) : List Time → State × List Bool
  | [] => (w, [])
  | t :: ts =>
    let r := allow w key t
    let rest := allowAll r.1 key ts
    (rest.1, r.2 :: rest.2)

/-- Runs one `Allow` check on a bucket per instant of the list, in order, and
collects the answers. -/
def Limiter.allowAll (lim : Limiter) : List Time → Limiter × List Bool
  | [] => (lim, [])
  | t :: ts =>
    let r := lim.Allow t
    let rest := Limiter.allowAll r.1 ts
    (rest.1, r.2 :: rest.2)

/-- The limiter `getLimiter` creates for a key it does not track yet (lines 80-81). -/
def freshLimiter (s : ipRateLimitStore) : Limiter :=
  NewLimiter (float64 (float64 (s.requestsPerMinute : ℚ) / 60)) s.burstSize

/-- The bucket of `key`: the limiter its entry points to, if the key is tracked. -/
def bucketOf (w : State) (key : String) : Option Limiter :=
  match w.store.limiters.lookup key with
  | some entry => w.heap[entry.limiter]?
  | none => none

/-- An event at the store: an admission check for a key at an instant, or one
pass of the cleanup loop at an instant. -/
inductive Event where
  | check (key : String) (now : Time)
  | sweep (now : Time)

/-- Applies one event to the state. -/
def step (w : State) : Event → State
  | Event.check key now => (allow w key now).1
  | Event.sweep now => cleanup w now

/-- Applies the events of a list in order. -/
def run (w : State) (es : List Event) : State :=
  es.foldl step w

/-- The events of the list keep `key` in use: every sweep comes at most `ttl` after
the latest earlier check of `key`, where `seen` is the instant of the latest check
before the list starts. -/
def KeptInUse (key : String) (ttl : Duration) : Time → List Event → Prop
  | _, [] => True
  | seen, Event.check k now :: es =>
    if k = key then KeptInUse key ttl now es else KeptInUse key ttl seen es
  | seen, Event.sweep now :: es => now - seen ≤ ttl ∧ KeptInUse key ttl seen es

/-- Runs `getLimiter` once per call of the list, in order, and collects the
returned limiter addresses. -/
def getLimiterAll (w : State) : List (String × Time) → State × List Nat
  | [] => (w, [])
  | c :: cs =>
    let r := getLimiter w c.1 c.2
    let rest := getLimiterAll r.1 cs
    (rest.1, r.2 :: rest.2)

/-- The tokens a check of `key` at `now` finds at decision time: the refilled count
of the bucket of `key`, or of a fresh bucket when `key` is not tracked. -/
def tokensAt (w : State) (key : String) (now : Time) : Option ℚ :=
  match w.store.limiters.lookup key with
  | some entry => (w.heap[entry.limiter]?).map (fun b => b.refill now)
  | none => some ((freshLimiter w.store).refill now)

/-- The rate limit defaults of `config.Load`: 30 requests per minute, burst 5,
cleanup every 5 minutes, limiters kept 15 minutes. -/
def defaultRateLimitConfig : RateLimitConfig :=
  { RequestsPerMinute := 30, BurstSize := 5, CleanupInterval := 300, LimiterTTL := 900 }

/-- A store with the default configuration that tracks the one key `1.2.3.4`, last
seen at instant 0, whose bucket holds 4 of its 5 tokens: the state after one allowed
check at instant 0. -/
def sampleState : State :=
  { store :=
      { limiters := AList.singleton "1.2.3.4" { limiter := 0, lastSeen := 0 }
        requestsPerMinute := 30
        burstSize := 5
        cleanupInterval := 300
        limiterTTL := 900 }
    heap := [{ limit := 1 / 2, burst := 5, tokens := 4, last := some 0 }] }

/-- A store with the default configuration that tracks the one key `1.2.3.4`, last
seen at instant 0, whose bucket is empty since instant 0: the state after five allowed
checks at instant 0. -/
def exhaustedState : State :=
  { store :=
      { limiters := AList.singleton "1.2.3.4" { limiter := 0, lastSeen := 0 }
        requestsPerMinute := 30
        burstSize := 5
        cleanupInterval := 300
        limiterTTL := 900 }
    heap := [{ limit := 1 / 2, burst := 5, tokens := 0, last := some 0 }] }

/-- The method `cleanupLoop` in the step model: the ticker of period `cleanupInterval`,
started with the store at instant 0, fires at the positive multiples of the period and
each tick runs `cleanup`. The state after the first `n` ticks. -/
def cleanupLoop (w : State) : Nat → State
  | 0 => w
  | n + 1 => cleanup (cleanupLoop w n) (w.store.cleanupInterval * ((n + 1 : Nat) : ℚ))

/-- A configuration with a sweep every second and limiters kept for 2 seconds. -/
def shortLivedConfig : RateLimitConfig :=
  { RequestsPerMinute := 30, BurstSize := 5, CleanupInterval := 1, LimiterTTL := 2 }

/-- The method `getStats` as a step of the store (lines 124-129): under the read lock
it reads `len(s.limiters)` and writes nothing. The state after the call and the count
returned. -/
def getStatsCall (w : State) : State × Nat :=
  (w, w.store.limiters.entries.length)

/-- The package variables `ipStore` and `ipStoreOnce` (lines 33-37): the store, nil
until it is built, and whether the `sync.Once` has already run its function. -/
structure Globals where
  ipStore : Option State
  ipStoreOnce : Bool

/-- The package variables at program start: their zero values. -/
def startGlobals : Globals :=
  { ipStore := none, ipStoreOnce := false }

/-- The first statement of `RateLimit(cfg)` (lines 156-159): `ipStoreOnce.Do` runs
`ipStore = newIPRateLimitStore(cfg)` on its first call and nothing on later calls. -/
def ipStoreOnceDo (g : Globals) (cfg : RateLimitConfig) : Globals :=
  if g.ipStoreOnce then g else { ipStore := some (initState cfg), ipStoreOnce := true }

/-- The handler returned by `RateLimit(cfg)` (lines 161-193), run on the package
variables for a request of `clientIP`: it reads `ipStore`, not `cfg`, to find the
limiter, and answers whether the request goes on. `cfg` is only quoted in the text of
the 429 reply, which is not modelled. With `ipStore` still nil the call faults (`none`). -/
def handler (_cfg : RateLimitConfig) (g : Globals) (clientIP : String) (tSeen tAllow : Time) :
    Option (Globals × Bool) :=
  match g.ipStore with
  | some w =>
    some ({ g with ipStore := some (RateLimit w clientIP tSeen tAllow).1 },
      (RateLimit w clientIP tSeen tAllow).2)
  | none => none

/-- What the program does with the middleware: it calls `RateLimit(cfg)`, or a handler
built from `cfg` serves a request. -/
inductive Call where
  | setup (cfg : RateLimitConfig)
  | request (cfg : RateLimitConfig) (clientIP : String) (tSeen tAllow : Time)

/-- Applies one call to the package variables; a faulting request leaves them as
they are. -/
def Globals.step (g : Globals) : Call → Globals
  | Call.setup cfg => ipStoreOnceDo g cfg
  | Call.request cfg clientIP tSeen tAllow =>
    match handler cfg g clientIP tSeen tAllow with
    | some r => r.1
    | none => g

/-- Well-formed states: every entry points to an allocated limiter and no two keys
share a limiter. `newIPRateLimitStore` establishes this and `getLimiter`, `Allow` and
`cleanup` keep it: a limiter is allocated for one new entry only (lines 80-86). -/
structure WF (w : State) : Prop where
  alloc : ∀ (k : String) (e : ipLimiterEntry),
    w.store.limiters.lookup k = some e → e.limiter < w.heap.length
  inj : ∀ (k k' : String) (e e' : ipLimiterEntry),
    w.store.limiters.lookup k = some e → w.store.limiters.lookup k' = some e' →
      e.limiter = e'.limiter → k = k'

/-- The bucket the next check of `k` is decided by: the bucket of `k` when tracked,
a new bucket when not. -/
def bucketOrFresh (w : State) (k : String) : Limiter :=
  (bucketOf w k).getD (freshLimiter w.store)

/-- The answers given to the checks of `k` among the events, in order. -/
def answersOf (k : String) : State → List Event → List Bool
  | _, [] => []
  | w, Event.check k' t :: es =>
    if k' = k then (allow w k' t).2 :: answersOf k (allow w k' t).1 es
    else answersOf k (allow w k' t).1 es
  | w, Event.sweep t :: es => answersOf k (cleanup w t) es

/-- The instants of the checks of `k` among the events, in order. -/
def checkTimes (k : String) : List Event → List Time
  | [] => []
  | Event.check k' t :: es => if k' = k then t :: checkTimes k es else checkTimes k es
  | Event.sweep _ :: es => checkTimes k es

/-- No sweep among the events evicts the entry of `k`: whenever a sweep finds `k`
tracked, the entry is not idle for longer than `limiterTTL`. -/
def notEvicted (k : String) : State → List Event → Bool
  | _, [] => true
  | w, Event.check k' t :: es => notEvicted k (allow w k' t).1 es
  | w, Event.sweep t :: es =>
    (match w.store.limiters.lookup k with
      | some e => decide (t - e.lastSeen ≤ w.store.limiterTTL)
      | none => true) && notEvicted k (cleanup w t) es

/-- Where a goroutine serving one request stands in the handler and in `getLimiter`.
The lock `s.mu` makes each of lines 55-57, 61-63 and 68-88 one indivisible step, and
the limiter's own lock does the same for `Allow`; between two such steps other
goroutines may run. An entry object is named by the address of the limiter it owns:
an entry gets a newly allocated limiter when it is created (lines 80-86) and keeps it. -/
inductive Pc where
  | start
  | found (p : Nat)
  | missing
  | returned (p : Nat)
  | done (p : Nat) (allowed : Bool)
  deriving DecidableEq

/-- Lines 61-63 on the fast path: `entry.lastSeen = time.Now()` under the write lock,
on the entry object found at line 56. The map shows the write when it still holds that
object; when the entry was deleted, or replaced by a new one, in between, the write
goes to an object the map no longer holds. -/
def refresh (w : State) (ip : String) (p : Nat) (now : Time) : State :=
  match w.store.limiters.lookup ip with
  | some entry =>
    if entry.limiter = p then
      { w with store := { w.store with
          limiters := w.store.limiters.insert ip { entry with lastSeen := now } } }
    else w
  | none => w

/-- One indivisible step of a goroutine that serves a request of `ip` and reads `now`
from the clock: the lookup under the read lock (lines 55-57), then the refresh of the
entry found (lines 59-65) or the locked re-check and creation (lines 67-88), then
`limiter.Allow()` (line 175). -/
def goroutineStep (w : State) (ip : String) (now : Time) : Pc → State × Pc
  | Pc.start =>
    match w.store.limiters.lookup ip with
    | some entry => (w, Pc.found entry.limiter)
    | none => (w, Pc.missing)
  | Pc.found p => (refresh w ip p now, Pc.returned p)
  | Pc.missing => ((getLimiterLocked w ip now).1, Pc.returned (getLimiterLocked w ip now).2)
  | Pc.returned p =>
    ({ w with heap := (allowAt w.heap p now).1 }, Pc.done p (allowAt w.heap p now).2)
  | Pc.done p allowed => (w, Pc.done p allowed)

/-- The store together with the goroutines that serve requests on it. -/
structure Concurrent where
  w : State
  pcs : List Pc

/-- Whose turn it is: goroutine `i` takes its next step, or the cleanup goroutine runs
one `cleanup` that reads `now` from the clock. -/
inductive Turn where
  | go (i : Nat)
  | sweep (now : Time)

/-- One turn of an interleaving; every request goroutine serves the key `ip` and reads
`now` from the clock. -/
def Concurrent.step (ip : String) (now : Time) (c : Concurrent) : Turn → Concurrent
  | Turn.go i =>
    match c.pcs[i]? with
    | some pc =>
      { w := (goroutineStep c.w ip now pc).1, pcs := c.pcs.set i (goroutineStep c.w ip now pc).2 }
    | none => c
  | Turn.sweep t => { c with w := cleanup c.w t }

/-- An interleaving: the turns taken, in order. -/
def Concurrent.run (ip : String) (now : Time) (c : Concurrent) (turns : List Turn) :
    Concurrent :=
  turns.foldl (Concurrent.step ip now) c

/-- The goroutine is through and its request was allowed. -/
def Pc.isAllowed : Pc → Bool
  | Pc.done _ true => true
  | _ => false

/-- The goroutine is through. -/
def Pc.isDone : Pc → Bool
  | Pc.done _ _ => true
  | _ => false

/-- The number of requests allowed so far. -/
def allowedCount (pcs : List Pc) : Nat :=
  pcs.countP Pc.isAllowed

/-- One turn of goroutine `turn.1`, whose step reads the instant `turn.2` from the
clock. -/
def Concurrent.goAt (ip : String) (c : Concurrent) (turn : Nat × Time) : Concurrent :=
  Concurrent.step ip turn.2 c (Turn.go turn.1)

/-- The interleaving `sched` of `n` goroutines that all check the key `ip`, from the
state `w`: each turn names the goroutine that takes its next step and the instant
that step reads from the clock. -/
def firstChecks (w : State) (ip : String) (n : Nat) (sched : List (Nat × Time)) :
    Concurrent :=
  sched.foldl (Concurrent.goAt ip) { w := w, pcs := List.replicate n Pc.start }

/-- A configuration with a negative burst size, which `getEnvInt` accepts. -/
def negativeBurstConfig : RateLimitConfig :=
  { RequestsPerMinute := 30, BurstSize := -1, CleanupInterval := 300, LimiterTTL := 900 }

/-- The state once the entry of `ip` has been created in `w` at `now` and its bucket has
become `b`. -/
def withBucket (w : State) (ip : String) (now : Time) (b : Limiter) : State :=
  { store := { w.store with
      limiters := w.store.limiters.insert ip { limiter := w.heap.length, lastSeen := now } }
    heap := w.heap ++ [b] }

/-- What every interleaving of first checks of `k` keeps, starting from `w₀`, whatever
the instants read from the clock: either nothing was created yet and every goroutine
is before its locked step, or the one entry exists and every goroutine past its lookup
holds that entry's limiter. -/
def OneEntryInv (w₀ : State) (k : String) (c : Concurrent) : Prop :=
  (c.w = w₀ ∧ ∀ pc ∈ c.pcs, pc = Pc.start ∨ pc = Pc.missing) ∨
    ∃ (b : Limiter) (ts : Time), c.w = withBucket w₀ k ts b ∧
      ∀ pc ∈ c.pcs, pc = Pc.start ∨ pc = Pc.missing ∨ pc = Pc.found w₀.heap.length ∨
        pc = Pc.returned w₀.heap.length ∨ ∃ a, pc = Pc.done w₀.heap.length a

/-- What every interleaving of first checks of `k` that all read the instant `t` keeps,
starting from `w₀`: either nothing was created yet and every goroutine is before its
locked step, or the one entry exists, every goroutine past its lookup holds that
entry's limiter, and the tokens taken from the bucket are the requests allowed. -/
def FirstChecksInv (w₀ : State) (k : String) (t : Time) (c : Concurrent) : Prop :=
  (c.w = w₀ ∧ ∀ pc ∈ c.pcs, pc = Pc.start ∨ pc = Pc.missing) ∨
    ∃ b : Limiter, c.w = withBucket w₀ k t b ∧ b.burst = w₀.store.burstSize ∧
      b.elapsed t = 0 ∧
      b.tokens + (allowedCount c.pcs : ℚ) = (w₀.store.burstSize : ℚ) ∧
      (allowedCount c.pcs = 0 ∨ 0 ≤ b.tokens) ∧
      ∀ pc ∈ c.pcs, pc = Pc.start ∨ pc = Pc.missing ∨ pc = Pc.found w₀.heap.length ∨
        pc = Pc.returned w₀.heap.length ∨ ∃ a, pc = Pc.done w₀.heap.length a

/-- Every bucket carries the configured rate and capacity and, unless `burstSize` is
negative, no negative token count. `getLimiter` creates buckets so (lines 80-81) and
`Allow` keeps them so. -/
def Tuned (w : State) : Prop :=
  ∀ b ∈ w.heap, b.limit = float64 (float64 (w.store.requestsPerMinute : ℚ) / 60) ∧
    b.burst = w.store.burstSize ∧ (0 ≤ w.store.burstSize → 0 ≤ b.tokens)

/-! ## The safe and smart flows (internal/flows, internal/types) -/

/-- The type `WelcomeNoteInput` of welcome_types.go. -/
structure WelcomeNoteInput where
  Occasion : String
  Language : String
  Length : String
  Tone : String
  deriving DecidableEq

/-- The type `WelcomeNoteV3Metadata` of welcome_types.go. -/
structure WelcomeNoteV3Metadata where
  InterpretedOccasion : String
  EffectiveLanguage : String
  EffectiveLength : String
  EffectiveTone : String
  Sentiment : String
  Safety : String
  Comments : String
  deriving DecidableEq

/-- The type `WelcomeNoteV3Output` of welcome_types.go: what the base generator
returns. -/
structure WelcomeNoteV3Output where
  Note : String
  Occasion : String
  Language : String
  Length : String
  Tone : String
  Metadata : WelcomeNoteV3Metadata
  deriving DecidableEq

/-- The type `ModerationResult` of welcome_types.go: what the moderation step
returns. -/
structure ModerationResult where
  SanitizedNote : String
  Blocked : Bool
  ModerationNote : String
  deriving DecidableEq

/-- The type `SafeWelcomeNoteOutput` of welcome_types.go. -/
structure SafeWelcomeNoteOutput where
  Note : String
  Occasion : String
  Language : String
  Length : String
  Tone : String
  Metadata : WelcomeNoteV3Metadata
  Blocked : Bool
  ModerationNote : String
  OriginalNote : String
  deriving DecidableEq

/-- The type `SmartWelcomeFlowOutput` of welcome_types.go. -/
structure SmartWelcomeFlowOutput where
  SafeWelcomeNoteOutput : SafeWelcomeNoteOutput
  RawDescription : String
  ParsedInput : Option WelcomeNoteInput
  deriving DecidableEq

/-- Lines 32-57 of welcome_note_safe.go, the same statements as lines 36-57 of
welcome_note_smart.go: the safe output built from the result `base` of the base
generator and the result `moderated` of the moderation step, a pointer that may be
nil. -/
def safeOutput (base : WelcomeNoteV3Output) (moderated : Option ModerationResult) :
    SafeWelcomeNoteOutput :=
  let notes : String × String :=
    match moderated with
    | some m =>
      if m.SanitizedNote ≠ "" ∧ m.SanitizedNote ≠ base.Note then (m.SanitizedNote, base.Note)
      else (base.Note, "")
    | none => (base.Note, "")
  let out : SafeWelcomeNoteOutput :=
    { Note := notes.1
      Occasion := base.Occasion
      Language := base.Language
      Length := base.Length
      Tone := base.Tone
      Metadata := base.Metadata
      Blocked :=
        match moderated with
        | some m => m.Blocked
        | none => false
      ModerationNote := ""
      OriginalNote := notes.2 }
  match moderated with
  | some m =>
    if m.ModerationNote ≠ "" then { out with ModerationNote := m.ModerationNote } else out
  | none => out

/-- The flow function of `RegisterWelcomeNoteFlowSafe` (lines 15-60). The two model
calls are arguments: `generate` is the outcome of the base generator and `moderate`
the outcome of the moderation step on a note; an error of either ends the flow. -/
def RegisterWelcomeNoteFlowSafe (generate : Except String WelcomeNoteV3Output)
    (moderate : String → Except String (Option ModerationResult)) :
    Except String SafeWelcomeNoteOutput :=
  match generate with
  | Except.error err => Except.error err
  | Except.ok base =>
    match moderate base.Note with
    | Except.error err => Except.error err
    | Except.ok moderated => Except.ok (safeOutput base moderated)

/-- The flow function of `RegisterWelcomeNoteFlowSmart` (lines 14-66), with the three
model calls as arguments; `interpret` is the outcome of `interpretPrompt` on the
description. -/
def RegisterWelcomeNoteFlowSmart (description : String)
    (interpret : Except String WelcomeNoteInput)
    (generate : WelcomeNoteInput → Except String WelcomeNoteV3Output)
    (moderate : String → Except String (Option ModerationResult)) :
    Except String SmartWelcomeFlowOutput :=
  match interpret with
  | Except.error err => Except.error err
  | Except.ok input =>
    match generate input with
    | Except.error err => Except.error err
    | Except.ok base =>
      match moderate base.Note with
      | Except.error err => Except.error err
      | Except.ok moderated =>
        Except.ok
          { SafeWelcomeNoteOutput := safeOutput base moderated
            RawDescription := description
            ParsedInput := some input }

/-- A base result whose note is `You are not welcome here.`. -/
def sampleBase : WelcomeNoteV3Output :=
  { Note := "You are not welcome here."
    Occasion := "housewarming"
    Language := "english"
    Length := "short"
    Tone := "insulting"
    Metadata :=
      { InterpretedOccasion := "housewarming"
        EffectiveLanguage := "english"
        EffectiveLength := "short"
        EffectiveTone := "insulting"
        Sentiment := "negative"
        Safety := "needs_review"
        Comments := "" } }

/-! ## Header filtering (web/middleware/logging.go) -/

/-- The map `sensitiveHeaders` of `filterHeaders` (lines 130-138). -/
def sensitiveHeaders : List (String × Bool) :=
  [("Authorization", true), ("Cookie", true), ("Set-Cookie", true), ("X-Api-Key", true),
    ("X-Auth-Token", true), ("X-Csrf-Token", true), ("Proxy-Authorization", true)]

/-- The loop of `filterHeaders` (lines 129-148) when `range headers` visits the entries
in the order `visited`: a new map is filled, `headers` is only read. Reading a missing
key of `sensitiveHeaders` gives `false`. -/
def filterHeadersIn (visited : List (Σ _ : String, List String)) :
    AList (fun _ : String => List String) :=
  visited.foldl
    (fun filtered x =>
      if (sensitiveHeaders.lookup x.1).getD false then filtered.insert x.1 ["[REDACTED]"]
      else filtered.insert x.1 x.2)
    ∅

/-- The function `filterHeaders` with the entries visited in the order of the
association list. -/
def filterHeaders (headers : AList (fun _ : String => List String)) :
    AList (fun _ : String => List String) :=
  filterHeadersIn headers.entries

/-- Request headers with a cookie, a token and two plain headers. -/
def sampleHeaders : AList (fun _ : String => List String) :=
  (((AList.singleton "Accept" ["text/html", "application/json"]).insert
    "Cookie" ["session=abc"]).insert "X-Csrf-Token" ["t0k3n"]).insert "User-Agent" ["curl"]

/-! ## Paths and origins (rate-limit.go, csrf.go) -/

/-- The standard function `strings.Split(s, sep)` for a separator `sep` of one ASCII
character, on the characters of `s`: the pieces between the separators, one more than
there are separators. -/
def Split (sep : Char) : List Char → List (List Char)
  | [] => [[]]
  | c :: cs =>
    if c = sep then [] :: Split sep cs
    else
      match Split sep cs with
      | p :: ps => (c :: p) :: ps
      | [] => [[c]]

/-- The function `getTabNameFromPath` (lines 133-152). -/
def getTabNameFromPath (path : String) : String :=
  let parts := (Split '/' path.toList).map String.mk
  match parts with
  | _ :: p₁ :: p₂ :: _ =>
    if p₁ = "api" then
      if p₂ = "v1" then "v1Tab"
      else if p₂ = "v2" then "v2Tab"
      else if p₂ = "v3" then "v3Tab"
      else if p₂ = "safe" then "safeTab"
      else if p₂ = "smart" then "smartTab"
      else ""
    else ""
  | _ => ""

/-- The tab that goes with a flow name, the empty string for any other name: the
`switch` of `getTabNameFromPath`. -/
def tabOf (name : String) : String :=
  if name = "v1" then "v1Tab"
  else if name = "v2" then "v2Tab"
  else if name = "v3" then "v3Tab"
  else if name = "safe" then "safeTab"
  else if name = "smart" then "smartTab"
  else ""

/-- The loop of `containsPort` (lines 104-111) on the bytes still to visit, the last
byte of the string first. -/
def containsPortLoop : List Char → Bool
  | [] => false
  | c :: cs => if c = ':' then true else if c = '/' then false else containsPortLoop cs

/-- The function `containsPort` (lines 103-113): the string is scanned from its last
byte to its first. The bytes tested for are ASCII, so the scan is over characters. -/
def containsPort (s : String) : Bool :=
  containsPortLoop s.toList.reverse

/-- The list `trustedOrigins` built by `CsrfMiddlware` (lines 22-35) from the port of
the server and the configured origins; `fmt.Sprintf` with `%s` verbs is concatenation. -/
def CsrfMiddlware.trustedOrigins (port : String) (configured : List String) : List String :=
  configured.foldl
    (fun trustedOrigins origin =>
      if containsPort origin then trustedOrigins ++ [origin]
      else trustedOrigins ++ [origin ++ ":" ++ port])
    ["localhost:" ++ port, "127.0.0.1:" ++ port]

/-- What `includes a port` means: the string contains a `:` with no `/` after it. -/
def IncludesPort (s : String) : Prop :=
  ∃ pre post : List Char, s.toList = pre ++ ':' :: post ∧ '/' ∉ post

/-! ## Environment lists (web/config/config.go)

In this part a Go string is the list of its bytes, each a number below 256: the
functions of config.go index strings byte by byte. -/

/-- The conversion `string(s[i])` of line 118: converting a byte, an integer, to a
string gives the UTF-8 encoding of the code point with that number, one byte below
128 and two bytes from 128 on. -/
def byteToString (b : Nat) : List Nat :=
  if b < 128 then [b] else [192 + b / 64, 128 + b % 64]

/-- The function `isSpace` (lines 137-139): space, tab, newline, carriage return. -/
def isSpace (c : Nat) : Bool :=
  c == 32 || c == 9 || c == 10 || c == 13

/-- The function `trimSpace` (lines 125-135): `start` moves right over spaces, then
`end` moves left over spaces, and the bytes in between are returned. -/
def trimSpace (s : List Nat) : List Nat :=
  (s.dropWhile isSpace).rdropWhile isSpace

/-- The loop of `splitString` (lines 112-121) on the bytes from index `i` on, with the
variables `current` and `result`. `s[i:i+len(sep)] == sep` within bounds says that the
next `len(sep)` bytes are `sep`. The first argument bounds the number of passes; the
loop has not ended within the bound when the answer is `none`. -/
def splitStringLoop (sep : List Nat) :
    Nat → List Nat → List Nat → List (List Nat) → Option (List (List Nat))
  | 0, _, _, _ => none
  | _ + 1, [], current, result => some (result ++ [current])
  | fuel + 1, c :: rest, current, result =>
    if (c :: rest).take sep.length = sep then
      splitStringLoop sep fuel ((c :: rest).drop sep.length) [] (result ++ [current])
    else
      splitStringLoop sep fuel rest (current ++ byteToString c) result

/-- The function `splitString` (lines 106-123). With a separator that is not empty
every pass moves on by at least one byte, so `len(s) + 1` passes are enough; with the
empty separator the index never moves and the loop does not end. -/
def splitString (s sep : List Nat) : Option (List (List Nat)) :=
  if s = [] then some [] else splitStringLoop sep (s.length + 1) s [] []

/-- The function `splitAndTrim` (lines 95-104). -/
def splitAndTrim (s sep : List Nat) : Option (List (List Nat)) :=
  (splitString s sep).map (fun pieces => (pieces.map trimSpace).filter (fun t => t ≠ []))

/-- The function `getEnvSlice` (lines 80-93); `value` is what `os.Getenv(key)` returns,
empty when the variable is not set. -/
def getEnvSlice (value separator : List Nat) : Option (List (List Nat)) :=
  if value = [] then some []
  else (splitAndTrim value separator).map (fun pieces => pieces.filter (fun part => part ≠ []))

/-! ## Normalization of the flow inputs (internal/flows/utils.go, tones.go) -/

/-- The map `ValidTones` of tones.go. -/
def ValidTones : List (String × String) :=
  [("formal", "Professional and respectful, suitable for business or formal events"),
    ("casual", "Friendly and relaxed, perfect for informal gatherings"),
    ("warm", "Heartfelt and affectionate, emphasizing emotional connection"),
    ("humorous", "Light-hearted and fun, with tasteful humor"),
    ("professional", "Business-appropriate while remaining welcoming"),
    ("poetic", "Elegant and lyrical, with beautiful imagery and flow"),
    ("sarcastic", "Dry, mocking tone with subtle digs"),
    ("insulting", "Bluntly offensive or rude remarks"),
    ("aggressive", "Confrontational wording with sharp jabs"),
    ("passive", "Passive-aggressive with backhanded welcomes"),
    ("gloomy", "Negative, bleak outlook that undercuts the welcome")]

/-- The function `normalizeLength` (lines 11-17). The standard functions
`strings.ToLower` and `strings.TrimSpace` are arguments. -/
def normalizeLength (ToLower TrimSpace : String → String) (length : String) : String :=
  let length := ToLower (TrimSpace length)
  if length = "short" ∨ length = "medium" ∨ length = "long" then length else "short"

/-- The function `normalizeTone` (lines 26-32), with the same two arguments. -/
def normalizeTone (ToLower TrimSpace : String → String) (tone : String) : String :=
  let tone := ToLower (TrimSpace tone)
  match ValidTones.lookup tone with
  | some _ => tone
  | none => "warm"

/-- Lower-casing of the ASCII letters, as `strings.ToLower` does on an ASCII string. -/
def asciiToLower (s : String) : String :=
  String.mk (s.toList.map Char.toLower)

/-- The ASCII white space of `strings.TrimSpace`: tab, line feed, vertical tab, form
feed and carriage return (the codes 9 to 13), and the space. -/
def asciiSpace (c : Char) : Bool :=
  c = ' ' || (9 ≤ c.toNat && c.toNat ≤ 13)

/-- Removal of leading and trailing ASCII white space, as `strings.TrimSpace` does on
an ASCII string. -/
def asciiTrimSpace (s : String) : String :=
  String.mk ((s.toList.dropWhile asciiSpace).rdropWhile asciiSpace)

/-- A configuration with burst size 0 and 600 requests per minute. -/
def zeroBurstConfig : RateLimitConfig :=
  { RequestsPerMinute := 600, BurstSize := 0, CleanupInterval := 300, LimiterTTL := 900 }

/-- A configuration with 10 requests per minute and burst size 1. -/
def tenPerMinuteConfig : RateLimitConfig :=
  { RequestsPerMinute := 10, BurstSize := 1, CleanupInterval := 300, LimiterTTL := 900 }

/-- A configuration with 7 requests per minute and burst size 1. -/
def sevenPerMinuteConfig : RateLimitConfig :=
  { RequestsPerMinute := 7, BurstSize := 1, CleanupInterval := 300, LimiterTTL := 900 }

/-- A configuration with 60 requests per minute and burst size 1. -/
def sixtyPerMinuteConfig : RateLimitConfig :=
  { RequestsPerMinute := 60, BurstSize := 1, CleanupInterval := 300, LimiterTTL := 900 }

/-! ## Rounding to float64 -/

theorem roundHalfEven_error (n d : Nat) (hd : 0 < d) :
    |((roundHalfEven n d : Nat) : ℚ) - (n : ℚ) / (d : ℚ)| ≤ 1 / 2 := by
  have hdq : (0 : ℚ) < (d : ℚ) := by exact_mod_cast hd
  have hsplit : (n : ℚ) = (d : ℚ) * ((n / d : Nat) : ℚ) + ((n % d : Nat) : ℚ) := by
    exact_mod_cast (Nat.div_add_mod n d).symm
  have hr : ((n % d : Nat) : ℚ) < (d : ℚ) := by exact_mod_cast Nat.mod_lt n hd
  have hr0 : (0 : ℚ) ≤ ((n % d : Nat) : ℚ) := Nat.cast_nonneg _
  have hq : (n : ℚ) / (d : ℚ) = ((n / d : Nat) : ℚ) + ((n % d : Nat) : ℚ) / (d : ℚ) := by
    rw [hsplit]; field_simp; ring
  rw [hq, abs_le]
  unfold roundHalfEven
  by_cases h1 : 2 * (n % d) < d
  · have h1q : 2 * ((n % d : Nat) : ℚ) < (d : ℚ) := by exact_mod_cast h1
    have hfrac : ((n % d : Nat) : ℚ) / (d : ℚ) ≤ 1 / 2 := by
      rw [div_le_iff₀ hdq]; linarith
    have hfrac0 : 0 ≤ ((n % d : Nat) : ℚ) / (d : ℚ) := div_nonneg hr0 (le_of_lt hdq)
    simp only [h1, if_true]
    constructor <;> linarith
  · by_cases h2 : d < 2 * (n % d)
    · have h2q : (d : ℚ) < 2 * ((n % d : Nat) : ℚ) := by exact_mod_cast h2
      have hfrac : 1 / 2 ≤ ((n % d : Nat) : ℚ) / (d : ℚ) := by
        rw [le_div_iff₀ hdq]; linarith
      have hfrac1 : ((n % d : Nat) : ℚ) / (d : ℚ) ≤ 1 := by
        rw [div_le_iff₀ hdq]; linarith
      simp only [h1, h2, if_true, if_false]
      push_cast
      constructor <;> linarith
    · have heq : 2 * (n % d) = d := by omega
      have heqq : 2 * ((n % d : Nat) : ℚ) = (d : ℚ) := by exact_mod_cast heq
      have hfrac : ((n % d : Nat) : ℚ) / (d : ℚ) = 1 / 2 := by
        rw [div_eq_iff (ne_of_gt hdq)]; linarith
      simp only [h1, h2, if_false]
      by_cases h3 : (n / d) % 2 = 0
      · simp only [h3, if_true]
        constructor <;> linarith
      · simp only [h3, if_false]
        push_cast
        constructor <;> linarith

theorem two_zpow_split (e : Int) :
    (2 : ℚ) ^ e = ((2 ^ e.toNat : Nat) : ℚ) / ((2 ^ (-e).toNat : Nat) : ℚ) := by
  rcases le_or_lt 0 e with h | h
  · obtain ⟨k, rfl⟩ := Int.eq_ofNat_of_zero_le h
    have h1 : (-(k : Int)).toNat = 0 := Int.toNat_eq_zero.mpr (by omega)
    rw [h1, Int.toNat_ofNat]
    simp
  · obtain ⟨k, rfl⟩ := Int.exists_eq_neg_ofNat (le_of_lt h)
    have h1 : (-(k : Int)).toNat = 0 := Int.toNat_eq_zero.mpr (le_of_lt h)
    rw [h1, neg_neg, Int.toNat_ofNat]
    simp [zpow_neg]

theorem mul_two_zpow_le_iff (n d : Nat) (k : Int) :
    d * 2 ^ k.toNat ≤ n * 2 ^ (-k).toNat ↔ (d : ℚ) * (2 : ℚ) ^ k ≤ (n : ℚ) := by
  have hB : (0 : ℚ) < ((2 ^ (-k).toNat : Nat) : ℚ) := by
    have : 0 < 2 ^ (-k).toNat := Nat.pow_pos (by norm_num)
    exact_mod_cast this
  rw [two_zpow_split, ← mul_div_assoc, div_le_iff₀ hB]
  constructor
  · intro h; exact_mod_cast h
  · intro h; exact_mod_cast h

theorem float64OfRatio_error (n d : Nat) (hn : 0 < n) (hd : 0 < d) :
    |float64OfRatio n d - (n : ℚ) / (d : ℚ)| ≤ (n : ℚ) / (d : ℚ) / 2 ^ 53 := by
  have hdq : (0 : ℚ) < (d : ℚ) := by exact_mod_cast hd
  have ha : (2 : ℚ) ^ (Nat.log2 n) ≤ (n : ℚ) := by
    have := Nat.pow_log_le_self 2 (Nat.pos_iff_ne_zero.mp hn)
    rw [← Nat.log2_eq_log_two] at this
    exact_mod_cast this
  have hb : (d : ℚ) < (2 : ℚ) ^ (Nat.log2 d + 1) := by
    have := Nat.lt_pow_succ_log_self (by norm_num : 1 < 2) d
    rw [← Nat.log2_eq_log_two] at this
    exact_mod_cast this
  have h2 : (0 : ℚ) < 2 := by norm_num
  -- the exponent chosen is at most the binary logarithm of the quotient
  have hlow : (d : ℚ) * (2 : ℚ) ^ ((Nat.log2 n : Int) - (Nat.log2 d : Int) - 1) ≤ (n : ℚ) := by
    have e1 : (2 : ℚ) ^ ((Nat.log2 n : Int) - (Nat.log2 d : Int) - 1) =
        (2 : ℚ) ^ (Nat.log2 n) / (2 : ℚ) ^ (Nat.log2 d + 1) := by
      rw [show ((Nat.log2 n : Int) - (Nat.log2 d : Int) - 1) =
        (Nat.log2 n : Int) - ((Nat.log2 d + 1 : Nat) : Int) by push_cast; ring]
      rw [zpow_sub₀ (ne_of_gt h2), zpow_natCast, zpow_natCast]
    have hpos : (0 : ℚ) < (2 : ℚ) ^ (Nat.log2 d + 1) := pow_pos h2 _
    have hpa : (0 : ℚ) < (2 : ℚ) ^ (Nat.log2 n) := pow_pos h2 _
    rw [e1, ← mul_div_assoc, div_le_iff₀ hpos]
    nlinarith
  unfold float64OfRatio
  simp only []
  generalize hf : (if d * 2 ^ ((Nat.log2 n : Int) - (Nat.log2 d : Int)).toNat ≤
      n * 2 ^ (-((Nat.log2 n : Int) - (Nat.log2 d : Int))).toNat then
      (Nat.log2 n : Int) - (Nat.log2 d : Int) else (Nat.log2 n : Int) - (Nat.log2 d : Int) - 1) = f
  have hfle : (d : ℚ) * (2 : ℚ) ^ f ≤ (n : ℚ) := by
    by_cases ht : d * 2 ^ ((Nat.log2 n : Int) - (Nat.log2 d : Int)).toNat ≤
        n * 2 ^ (-((Nat.log2 n : Int) - (Nat.log2 d : Int))).toNat
    · rw [if_pos ht] at hf
      rw [← hf]
      exact (mul_two_zpow_le_iff n d _).mp ht
    · rw [if_neg ht] at hf
      rw [← hf]
      exact hlow
  have hE : (0 : ℚ) < (2 : ℚ) ^ (f - 52) := zpow_pos h2 _
  have hden : 0 < d * 2 ^ (f - 52).toNat := Nat.mul_pos hd (Nat.pow_pos (by norm_num))
  have hround := roundHalfEven_error (n * 2 ^ (-(f - 52)).toNat) (d * 2 ^ (f - 52).toNat) hden
  have hA : (0 : ℚ) < ((2 ^ (f - 52).toNat : Nat) : ℚ) := by
    have : 0 < 2 ^ (f - 52).toNat := Nat.pow_pos (by norm_num)
    exact_mod_cast this
  have hB : (0 : ℚ) < ((2 ^ (-(f - 52)).toNat : Nat) : ℚ) := by
    have : 0 < 2 ^ (-(f - 52)).toNat := Nat.pow_pos (by norm_num)
    exact_mod_cast this
  have hsp := two_zpow_split (f - 52)
  -- the scaled quotient
  have hx : ((n * 2 ^ (-(f - 52)).toNat : Nat) : ℚ) / ((d * 2 ^ (f - 52).toNat : Nat) : ℚ) =
      (n : ℚ) / (d : ℚ) / (2 : ℚ) ^ (f - 52) := by
    rw [hsp]
    push_cast
    field_simp
  have hval : (((roundHalfEven (n * 2 ^ (-(f - 52)).toNat) (d * 2 ^ (f - 52).toNat)) *
      2 ^ (f - 52).toNat : Nat) : ℚ) / ((2 ^ (-(f - 52)).toNat : Nat) : ℚ) =
      ((roundHalfEven (n * 2 ^ (-(f - 52)).toNat) (d * 2 ^ (f - 52).toNat) : Nat) : ℚ) *
        (2 : ℚ) ^ (f - 52) := by
    rw [hsp]
    push_cast
    field_simp
  rw [hval]
  rw [hx] at hround
  generalize (roundHalfEven (n * 2 ^ (-(f - 52)).toNat) (d * 2 ^ (f - 52).toNat) : Nat) = m
    at hround ⊢
  have hq : (2 : ℚ) ^ (f - 52) * (2 : ℚ) ^ (52 : Nat) ≤ (n : ℚ) / (d : ℚ) := by
    rw [le_div_iff₀ hdq]
    have : (2 : ℚ) ^ (f - 52) * (2 : ℚ) ^ (52 : Nat) = (2 : ℚ) ^ f := by
      rw [← zpow_natCast, ← zpow_add₀ (ne_of_gt h2)]
      congr 1
      push_cast
      ring
    rw [this]
    linarith
  have hdiff : (m : ℚ) * (2 : ℚ) ^ (f - 52) - (n : ℚ) / (d : ℚ) =
      (2 : ℚ) ^ (f - 52) * ((m : ℚ) - (n : ℚ) / (d : ℚ) / (2 : ℚ) ^ (f - 52)) := by
    field_simp
    ring
  rw [hdiff, abs_mul, abs_of_pos hE]
  have h53 : (2 : ℚ) ^ (53 : Nat) = 2 * (2 : ℚ) ^ (52 : Nat) := by norm_num
  rw [le_div_iff₀ (by positivity)]
  rw [h53]
  nlinarith [abs_nonneg ((m : ℚ) - (n : ℚ) / (d : ℚ) / (2 : ℚ) ^ (f - 52)), pow_pos h2 52]

/-- Rounding to `float64` changes a positive value by at most its `2 ^ 53`-th part. -/
theorem float64_error (q : ℚ) (hq : 0 < q) : |float64 q - q| ≤ q / 2 ^ 53 := by
  have hnum : 0 < q.num := Rat.num_pos.mpr hq
  have hn : 0 < q.num.toNat := by omega
  have hcast : ((q.num.toNat : Nat) : ℚ) = (q.num : ℚ) := by
    have : ((q.num.toNat : Nat) : Int) = q.num := Int.toNat_of_nonneg (le_of_lt hnum)
    exact_mod_cast this
  have hqq : ((q.num.toNat : Nat) : ℚ) / (q.den : ℚ) = q := by
    rw [hcast]; exact Rat.num_div_den q
  have h := float64OfRatio_error q.num.toNat q.den hn q.den_pos
  rw [hqq] at h
  unfold float64
  rw [if_pos hq]
  exact h

theorem float64_pos (q : ℚ) (hq : 0 < q) : 0 < float64 q := by
  have h := (abs_le.mp (float64_error q hq)).1
  have h1 : q / 2 ^ 53 < q := by
    rw [div_lt_iff₀ (by positivity)]
    have : (1 : ℚ) < 2 ^ 53 := by norm_num
    nlinarith
  linarith

theorem float64_zero : float64 0 = 0 := by
  unfold float64
  simp

theorem float64_nonneg (q : ℚ) (hq : 0 ≤ q) : 0 ≤ float64 q := by
  rcases eq_or_lt_of_le hq with h | h
  · rw [← h, float64_zero]
  · exact le_of_lt (float64_pos q h)

/-- The rate of line 80 is positive for a positive number of requests per minute. -/
theorem rate_pos (P : Int) (hP : 0 < P) : 0 < float64 (float64 (P : ℚ) / 60) := by
  have h : (0 : ℚ) < (P : ℚ) := by exact_mod_cast hP
  exact float64_pos _ (div_pos (float64_pos _ h) (by norm_num))

theorem rate_nonneg (P : Int) (hP : 0 ≤ P) : 0 ≤ float64 (float64 (P : ℚ) / 60) := by
  have h : (0 : ℚ) ≤ (P : ℚ) := by exact_mod_cast hP
  exact float64_nonneg _ (div_nonneg (float64_nonneg _ h) (by norm_num))

/-- The rate of line 80 differs from `P / 60` by at most its `2 ^ 51`-th part. -/
theorem rate_error (P : Int) (hP : 0 < P) :
    |float64 (float64 (P : ℚ) / 60) - (P : ℚ) / 60| ≤ (P : ℚ) / 60 / 2 ^ 51 := by
  have h : (0 : ℚ) < (P : ℚ) := by exact_mod_cast hP
  have h1 := abs_le.mp (float64_error (P : ℚ) h)
  have hx : 0 < float64 (P : ℚ) / 60 := div_pos (float64_pos _ h) (by norm_num)
  have h2 := abs_le.mp (float64_error _ hx)
  have e53 : (P : ℚ) / 2 ^ 53 = (P : ℚ) * (1 / 2 ^ 53) := by ring
  have e51 : (P : ℚ) / 60 / 2 ^ 51 = (P : ℚ) * (1 / (60 * 2 ^ 51)) := by ring
  have ex : float64 (P : ℚ) / 60 / 2 ^ 53 = float64 (P : ℚ) * (1 / (60 * 2 ^ 53)) := by ring
  rw [abs_le, e51]
  rw [e53] at h1
  rw [ex] at h2
  constructor
  · nlinarith [h1.1, h1.2, h2.1, h2.2]
  · nlinarith [h1.1, h1.2, h2.1, h2.2]

/-! ## The token bucket -/

theorem Limiter.Allow_of_le (lim : Limiter) (now : Time) (h : 1 ≤ lim.refill now) :
    lim.Allow now = ({ lim with tokens := lim.refill now - 1, last := some now }, true) := by
  simp [Limiter.Allow, h]

theorem Limiter.Allow_of_lt (lim : Limiter) (now : Time) (h : lim.refill now < 1) :
    lim.Allow now = (lim, false) := by
  simp [Limiter.Allow, not_le.mpr h]

theorem Limiter.Allow_snd_iff (lim : Limiter) (now : Time) :
    (lim.Allow now).2 = true ↔ 1 ≤ lim.refill now := by
  by_cases h : 1 ≤ lim.refill now <;> simp [Limiter.Allow, h]

theorem Limiter.Allow_burst (lim : Limiter) (now : Time) :
    (lim.Allow now).1.burst = lim.burst := by
  by_cases h : 1 ≤ lim.refill now <;> simp [Limiter.Allow, h]

theorem Limiter.Allow_limit (lim : Limiter) (now : Time) :
    (lim.Allow now).1.limit = lim.limit := by
  by_cases h : 1 ≤ lim.refill now <;> simp [Limiter.Allow, h]

theorem Limiter.refill_le_burst (lim : Limiter) (now : Time) :
    lim.refill now ≤ (lim.burst : ℚ) :=
  min_le_left _ _

/-- A check keeps the token count between 0 and the capacity. -/
theorem Limiter.Allow_bounds (lim : Limiter) (now : Time)
    (h : 0 ≤ lim.tokens ∧ lim.tokens ≤ (lim.burst : ℚ)) :
    0 ≤ (lim.Allow now).1.tokens ∧ (lim.Allow now).1.tokens ≤ ((lim.Allow now).1.burst : ℚ) := by
  by_cases h1 : 1 ≤ lim.refill now
  · have hb := lim.refill_le_burst now
    rw [Limiter.Allow_of_le lim now h1]
    constructor
    · show 0 ≤ lim.refill now - 1
      linarith
    · show lim.refill now - 1 ≤ (lim.burst : ℚ)
      linarith
  · rw [Limiter.Allow_of_lt lim now (not_le.mp h1)]
    exact h

/-- The token bounds hold after any list of checks. -/
theorem Limiter.allowAll_bounds (ts : List Time) :
    ∀ lim : Limiter, 0 ≤ lim.tokens ∧ lim.tokens ≤ (lim.burst : ℚ) →
      0 ≤ (lim.allowAll ts).1.tokens ∧
        (lim.allowAll ts).1.tokens ≤ ((lim.allowAll ts).1.burst : ℚ) ∧
        (lim.allowAll ts).1.burst = lim.burst := by
  induction ts with
  | nil => intro lim h; exact ⟨h.1, h.2, rfl⟩
  | cons t ts ih =>
    intro lim h
    have h1 := ih (lim.Allow t).1 (lim.Allow_bounds t h)
    refine ⟨h1.1, h1.2.1, ?_⟩
    show ((lim.Allow t).1.allowAll ts).1.burst = lim.burst
    rw [h1.2.2, Limiter.Allow_burst]

theorem Limiter.allowAll_append (ts us : List Time) :
    ∀ lim : Limiter, lim.allowAll (ts ++ us) =
      (((lim.allowAll ts).1.allowAll us).1, (lim.allowAll ts).2 ++ ((lim.allowAll ts).1.allowAll us).2) := by
  induction ts with
  | nil => intro lim; rfl
  | cons t ts ih =>
    intro lim
    show (((lim.Allow t).1.allowAll (ts ++ us)).1,
      (lim.Allow t).2 :: ((lim.Allow t).1.allowAll (ts ++ us)).2) = _
    rw [ih]
    rfl

/-- With no time elapsed and at least `n` tokens, `n` checks in a row at the same
instant are allowed and use `n` tokens. -/
theorem Limiter.allowAll_replicate (t : Time) (n : Nat) :
    ∀ lim : Limiter, lim.elapsed t = 0 → (n : ℚ) ≤ lim.tokens → lim.tokens ≤ (lim.burst : ℚ) →
      (lim.allowAll (List.replicate n t)).2 = List.replicate n true ∧
      (lim.allowAll (List.replicate n t)).1.tokens = lim.tokens - n ∧
      (lim.allowAll (List.replicate n t)).1.burst = lim.burst ∧
      (lim.allowAll (List.replicate n t)).1.limit = lim.limit ∧
      (lim.allowAll (List.replicate n t)).1.elapsed t = 0 ∧
      (0 < n → (lim.allowAll (List.replicate n t)).1.last = some t) := by
  induction n with
  | zero =>
    intro lim he _ _
    simp [Limiter.allowAll, he]
  | succ n ih =>
    intro lim he hn hb
    have hr : lim.refill t = lim.tokens := by
      simp [Limiter.refill, he, hb]
    have hn1 : ((n : ℚ) + 1) ≤ lim.tokens := by push_cast at hn; exact hn
    have h1 : 1 ≤ lim.refill t := by
      rw [hr]
      have : (0 : ℚ) ≤ n := Nat.cast_nonneg n
      linarith
    have hA := Limiter.Allow_of_le lim t h1
    have key := ih (lim.Allow t).1 (by rw [hA]; simp [Limiter.elapsed])
      (by rw [hA, hr]; show (n : ℚ) ≤ lim.tokens - 1; linarith)
      (by rw [hA, hr]; show lim.tokens - 1 ≤ (lim.burst : ℚ); linarith)
    obtain ⟨k1, k2, k3, k4, k5, k6⟩ := key
    have hrep : List.replicate (n + 1) t = t :: List.replicate n t := rfl
    rw [hrep]
    refine ⟨?_, ?_, ?_, ?_, ?_, ?_⟩
    · show (lim.Allow t).2 :: ((lim.Allow t).1.allowAll (List.replicate n t)).2 = _
      rw [k1, hA]
      rfl
    · show ((lim.Allow t).1.allowAll (List.replicate n t)).1.tokens = _
      rw [k2, hA, hr]
      push_cast
      show lim.tokens - 1 - n = _
      ring
    · show ((lim.Allow t).1.allowAll (List.replicate n t)).1.burst = _
      rw [k3, Limiter.Allow_burst]
    · show ((lim.Allow t).1.allowAll (List.replicate n t)).1.limit = _
      rw [k4, Limiter.Allow_limit]
    · exact k5
    · intro _
      show ((lim.Allow t).1.allowAll (List.replicate n t)).1.last = _
      rcases Nat.eq_zero_or_pos n with h0 | hpos
      · subst h0
        rw [hA]
        rfl
      · exact k6 hpos

/-- A fresh bucket with capacity `C ≥ 1` and rate `R > 0` allows `C` checks in a row at
one instant, denies the next, allows one check `1 / R` later and denies the following. -/
theorem Limiter.fresh_burst_then_refill (R : ℚ) (C : Int) (t : Time) (hC : 1 ≤ C) (hR : 0 < R) :
    ((NewLimiter R C).allowAll (List.replicate C.toNat t ++ [t, t + 1 / R, t + 1 / R])).2 =
      List.replicate C.toNat true ++ [false, true, false] := by
  have hcast : ((C.toNat : ℕ) : ℚ) = (C : ℚ) := by
    have h0 : ((C.toNat : ℕ) : ℤ) = C := Int.toNat_of_nonneg (by omega)
    exact_mod_cast congrArg (fun z : ℤ => (z : ℚ)) h0
  have hC1 : (1 : ℚ) ≤ (C : ℚ) := by exact_mod_cast hC
  have hpos : 0 < C.toNat := by omega
  obtain ⟨k1, k2, k3, k4, _, k6⟩ := Limiter.allowAll_replicate t C.toNat (NewLimiter R C) rfl
    (by simp [NewLimiter, hcast]) (by simp [NewLimiter])
  rw [Limiter.allowAll_append]
  show ((NewLimiter R C).allowAll (List.replicate C.toNat t)).2 ++
    (((NewLimiter R C).allowAll (List.replicate C.toNat t)).1.allowAll
      [t, t + 1 / R, t + 1 / R]).2 = _
  rw [k1]
  congr 1
  generalize ((NewLimiter R C).allowAll (List.replicate C.toNat t)).1 = b at k2 k3 k4 k6
  have hbt : b.tokens = 0 := by rw [k2]; simp [NewLimiter, hcast]
  have hbl : b.last = some t := k6 hpos
  have hbb : b.burst = C := k3
  have hbr : b.limit = R := k4
  have r1 : b.refill t = 0 := by
    simp only [Limiter.refill, Limiter.elapsed, hbl, hbt, hbb]
    rw [min_eq_right] <;> simp
    linarith
  have A1 : b.Allow t = (b, false) := Limiter.Allow_of_lt _ _ (by rw [r1]; norm_num)
  have hRR : R * (t + 1 / R - t) = 1 := by
    field_simp
    ring
  have r2 : b.refill (t + 1 / R) = 1 := by
    simp only [Limiter.refill, Limiter.elapsed, hbl, hbt, hbb, hbr, hRR]
    rw [min_eq_right] <;> simp
    exact hC1
  have A2 := Limiter.Allow_of_le b (t + 1 / R) (by rw [r2])
  have r3 : (b.Allow (t + 1 / R)).1.refill (t + 1 / R) = 0 := by
    rw [A2]
    show min (b.burst : ℚ) (b.refill (t + 1 / R) - 1 + b.limit * (t + 1 / R - (t + 1 / R))) = 0
    rw [r2, hbb, min_eq_right] <;> simp
    linarith
  have A3 : (b.Allow (t + 1 / R)).1.Allow (t + 1 / R) = ((b.Allow (t + 1 / R)).1, false) :=
    Limiter.Allow_of_lt _ _ (by rw [r3]; norm_num)
  show [(b.Allow t).2, ((b.Allow t).1.Allow (t + 1 / R)).2,
    (((b.Allow t).1.Allow (t + 1 / R)).1.Allow (t + 1 / R)).2] = _
  rw [A1]
  simp only []
  rw [A3, A2]

/-! ## The store: `getLimiter` and the handler body -/

theorem getLimiter_of_none (w : State) (ip : String) (now : Time)
    (h : w.store.limiters.lookup ip = none) :
    getLimiter w ip now =
      ({ store := { w.store with
            limiters := w.store.limiters.insert ip { limiter := w.heap.length, lastSeen := now } }
         heap := w.heap ++ [freshLimiter w.store] },
        w.heap.length) := by
  simp only [getLimiter, getLimiterLocked, h, freshLimiter]

theorem getLimiter_of_some (w : State) (ip : String) (now : Time) (e : ipLimiterEntry)
    (h : w.store.limiters.lookup ip = some e) :
    getLimiter w ip now =
      ({ w with store := { w.store with
            limiters := w.store.limiters.insert ip { e with lastSeen := now } } },
        e.limiter) := by
  simp only [getLimiter, h]

theorem getLimiterLocked_eq (w : State) (ip : String) (now : Time) :
    getLimiterLocked w ip now = getLimiter w ip now := by
  cases h : w.store.limiters.lookup ip with
  | none => simp only [getLimiter, h]
  | some e => simp only [getLimiter, getLimiterLocked, h]

theorem RateLimit_of_none (w : State) (ip : String) (t₁ t₂ : Time)
    (h : w.store.limiters.lookup ip = none) :
    RateLimit w ip t₁ t₂ =
      ({ store := { w.store with
            limiters := w.store.limiters.insert ip { limiter := w.heap.length, lastSeen := t₁ } }
         heap := w.heap ++ [((freshLimiter w.store).Allow t₂).1] },
        ((freshLimiter w.store).Allow t₂).2) := by
  simp only [RateLimit, getLimiter_of_none w ip t₁ h, allowAt, List.getElem?_concat_length]
  rw [List.set_append_right _ _ (le_refl _)]
  simp

theorem RateLimit_of_some (w : State) (ip : String) (t₁ t₂ : Time) (e : ipLimiterEntry)
    (b : Limiter) (h : w.store.limiters.lookup ip = some e) (hb : w.heap[e.limiter]? = some b) :
    RateLimit w ip t₁ t₂ =
      ({ store := { w.store with
            limiters := w.store.limiters.insert ip { e with lastSeen := t₁ } }
         heap := w.heap.set e.limiter (b.Allow t₂).1 },
        (b.Allow t₂).2) := by
  simp only [RateLimit, getLimiter_of_some w ip t₁ e h, allowAt, hb]

theorem bucketOf_eq_some_iff (w : State) (key : String) (b : Limiter) :
    bucketOf w key = some b ↔
      ∃ e, w.store.limiters.lookup key = some e ∧ w.heap[e.limiter]? = some b := by
  unfold bucketOf
  cases h : w.store.limiters.lookup key with
  | none => simp
  | some e => simp

theorem bucketOf_RateLimit_of_none (w : State) (ip : String) (t₁ t₂ : Time)
    (h : w.store.limiters.lookup ip = none) :
    bucketOf (RateLimit w ip t₁ t₂).1 ip = some ((freshLimiter w.store).Allow t₂).1 := by
  rw [RateLimit_of_none w ip t₁ t₂ h, bucketOf_eq_some_iff]
  exact ⟨_, AList.lookup_insert _, List.getElem?_concat_length _ _⟩

theorem bucketOf_RateLimit_of_some (w : State) (ip : String) (t₁ t₂ : Time) (b : Limiter)
    (hb : bucketOf w ip = some b) :
    bucketOf (RateLimit w ip t₁ t₂).1 ip = some (b.Allow t₂).1 ∧
      (RateLimit w ip t₁ t₂).2 = (b.Allow t₂).2 := by
  obtain ⟨e, he, hp⟩ := (bucketOf_eq_some_iff w ip b).mp hb
  rw [RateLimit_of_some w ip t₁ t₂ e b he hp]
  refine ⟨?_, rfl⟩
  rw [bucketOf_eq_some_iff]
  refine ⟨_, AList.lookup_insert _, ?_⟩
  have hlt : e.limiter < w.heap.length := by
    obtain ⟨hlt, _⟩ := List.getElem?_eq_some.mp hp
    exact hlt
  exact List.getElem?_set_self hlt

/-- The configured constants of the store are never written by the handler. -/
theorem RateLimit_config (w : State) (ip : String) (t₁ t₂ : Time) :
    (RateLimit w ip t₁ t₂).1.store.requestsPerMinute = w.store.requestsPerMinute ∧
      (RateLimit w ip t₁ t₂).1.store.burstSize = w.store.burstSize ∧
      (RateLimit w ip t₁ t₂).1.store.cleanupInterval = w.store.cleanupInterval ∧
      (RateLimit w ip t₁ t₂).1.store.limiterTTL = w.store.limiterTTL := by
  cases h : w.store.limiters.lookup ip with
  | none => simp [RateLimit, getLimiter, getLimiterLocked, h]
  | some e => simp [RateLimit, getLimiter, h]

/-- Checks of a tracked key are the checks of its bucket. -/
theorem allowAll_of_bucket (key : String) (ts : List Time) :
    ∀ (w : State) (b : Limiter), bucketOf w key = some b →
      (allowAll w key ts).2 = (b.allowAll ts).2 ∧
        bucketOf (allowAll w key ts).1 key = some (b.allowAll ts).1 := by
  induction ts with
  | nil => intro w b hb; exact ⟨rfl, hb⟩
  | cons t ts ih =>
    intro w b hb
    obtain ⟨h1, h2⟩ := bucketOf_RateLimit_of_some w key t t b hb
    obtain ⟨i1, i2⟩ := ih (allow w key t).1 (b.Allow t).1 h1
    constructor
    · show (allow w key t).2 :: (allowAll (allow w key t).1 key ts).2 =
        (b.Allow t).2 :: ((b.Allow t).1.allowAll ts).2
      rw [i1]
      exact congrArg (fun x => x :: ((b.Allow t).1.allowAll ts).2) h2
    · exact i2

/-- Checks of a key that is not tracked are the checks of a fresh bucket. -/
theorem allowAll_of_none (key : String) (t : Time) (ts : List Time) (w : State)
    (h : w.store.limiters.lookup key = none) :
    (allowAll w key (t :: ts)).2 = ((freshLimiter w.store).allowAll (t :: ts)).2 ∧
      bucketOf (allowAll w key (t :: ts)).1 key =
        some ((freshLimiter w.store).allowAll (t :: ts)).1 := by
  have h1 := bucketOf_RateLimit_of_none w key t t h
  have h2 : (allow w key t).2 = ((freshLimiter w.store).Allow t).2 := by
    show (RateLimit w key t t).2 = _
    rw [RateLimit_of_none w key t t h]
  obtain ⟨i1, i2⟩ := allowAll_of_bucket key ts (allow w key t).1 _ h1
  constructor
  · show (allow w key t).2 :: (allowAll (allow w key t).1 key ts).2 =
      ((freshLimiter w.store).Allow t).2 :: (((freshLimiter w.store).Allow t).1.allowAll ts).2
    rw [i1, h2]
  · exact i2

theorem Limiter.Allow_fst_of_false (lim : Limiter) (now : Time) (h : (lim.Allow now).2 = false) :
    (lim.Allow now).1 = lim := by
  by_cases h1 : 1 ≤ lim.refill now
  · rw [Limiter.Allow_of_le lim now h1] at h
    exact absurd h (by simp)
  · rw [Limiter.Allow_of_lt lim now (not_le.mp h1)]

theorem set_of_getElem? {α : Type} (l : List α) (p : Nat) (b : α) (h : l[p]? = some b) :
    l.set p b = l := by
  apply List.ext_getElem?
  intro i
  by_cases hpi : p = i
  · subst hpi
    obtain ⟨hlt, _⟩ := List.getElem?_eq_some.mp h
    rw [List.getElem?_set_self hlt, h]
  · rw [List.getElem?_set_ne hpi]

theorem allowAt_of_false (heap : List Limiter) (p : Nat) (now : Time)
    (h : (allowAt heap p now).2 = false) : (allowAt heap p now).1 = heap := by
  unfold allowAt at h ⊢
  cases hp : heap[p]? with
  | none => simp
  | some lim =>
    simp only [hp] at h ⊢
    rw [Limiter.Allow_fst_of_false lim now h]
    exact set_of_getElem? heap p lim hp

theorem RateLimit_of_dangling (w : State) (ip : String) (t₁ t₂ : Time) (e : ipLimiterEntry)
    (h : w.store.limiters.lookup ip = some e) (hb : w.heap[e.limiter]? = none) :
    RateLimit w ip t₁ t₂ = ((getLimiter w ip t₁).1, false) := by
  simp only [RateLimit, getLimiter_of_some w ip t₁ e h, allowAt, hb]

/-- Refreshing `lastSeen` does not change the tokens a check finds. -/
theorem tokensAt_getLimiter (w : State) (key : String) (t t' : Time) :
    tokensAt (getLimiter w key t).1 key t' = tokensAt w key t' := by
  cases h : w.store.limiters.lookup key with
  | none =>
    rw [getLimiter_of_none w key t h]
    simp only [tokensAt, h, AList.lookup_insert, List.getElem?_concat_length]
    rfl
  | some e =>
    rw [getLimiter_of_some w key t e h]
    simp only [tokensAt, h, AList.lookup_insert]

/-- The answer of a check is decided by the entry of the key and the bucket it points to. -/
theorem RateLimit_snd_congr (w w' : State) (key : String) (s' t' : Time) (e e' : ipLimiterEntry)
    (h : w.store.limiters.lookup key = some e) (h' : w'.store.limiters.lookup key = some e')
    (hl : e'.limiter = e.limiter) (hh : w'.heap = w.heap) :
    (RateLimit w' key s' t').2 = (RateLimit w key s' t').2 := by
  cases hb : w.heap[e.limiter]? with
  | none =>
    have hb' : w'.heap[e'.limiter]? = none := by rw [hh, hl]; exact hb
    rw [RateLimit_of_dangling w key s' t' e h hb, RateLimit_of_dangling w' key s' t' e' h' hb']
  | some b =>
    have hb' : w'.heap[e'.limiter]? = some b := by rw [hh, hl]; exact hb
    rw [RateLimit_of_some w key s' t' e b h hb, RateLimit_of_some w' key s' t' e' b h' hb']

/-- A `getLimiter` for the same key beforehand does not change the answer of a check. -/
theorem RateLimit_getLimiter (w : State) (key : String) (t s' t' : Time) :
    (RateLimit (getLimiter w key t).1 key s' t').2 = (RateLimit w key s' t').2 := by
  cases h : w.store.limiters.lookup key with
  | none =>
    rw [RateLimit_of_none w key s' t' h]
    have h1 : (getLimiter w key t).1.store.limiters.lookup key =
        some { limiter := w.heap.length, lastSeen := t } := by
      rw [getLimiter_of_none w key t h]; exact AList.lookup_insert _
    have h2 : (getLimiter w key t).1.heap[w.heap.length]? = some (freshLimiter w.store) := by
      rw [getLimiter_of_none w key t h]; exact List.getElem?_concat_length _ _
    rw [RateLimit_of_some (getLimiter w key t).1 key s' t' _ (freshLimiter w.store) h1 h2]
  | some e =>
    have h1 : (getLimiter w key t).1.store.limiters.lookup key =
        some { e with lastSeen := t } := by
      rw [getLimiter_of_some w key t e h]; exact AList.lookup_insert _
    have h2 : (getLimiter w key t).1.heap = w.heap := by
      rw [getLimiter_of_some w key t e h]
    exact RateLimit_snd_congr w (getLimiter w key t).1 key s' t' e _ h h1 rfl h2

theorem allowAll_snd_of_none (key : String) (ts : List Time) (w : State)
    (h : w.store.limiters.lookup key = none) :
    (allowAll w key ts).2 = ((freshLimiter w.store).allowAll ts).2 := by
  cases ts with
  | nil => rfl
  | cons t ts => exact (allowAll_of_none key t ts w h).1

/-! ## Claims about the token bucket behind the store -/

/-- The rate that line 80 computes for 30 requests per minute is one half. -/
theorem rate_of_thirty : float64 (float64 ((30 : Int) : ℚ) / 60) = 1 / 2 := by decide!

/-- The rate that line 80 computes for 10 requests per minute is below one sixth. -/
theorem rate_of_ten :
    float64 (float64 ((10 : Int) : ℚ) / 60) = 6004799503160661 / 36028797018963968 ∧
      float64 (float64 ((10 : Int) : ℚ) / 60) < 1 / 6 := by
  have h : float64 (float64 ((10 : Int) : ℚ) / 60) = 6004799503160661 / 36028797018963968 := by
    decide!
  refine ⟨h, ?_⟩
  rw [h]
  norm_num

/-- The rate that line 80 computes for 7 requests per minute is above `7 / 60`. -/
theorem rate_of_seven :
    float64 (float64 ((7 : Int) : ℚ) / 60) = 4203359652212463 / 36028797018963968 ∧
      (7 : ℚ) / 60 < float64 (float64 ((7 : Int) : ℚ) / 60) := by
  have h : float64 (float64 ((7 : Int) : ℚ) / 60) = 4203359652212463 / 36028797018963968 := by
    decide!
  refine ⟨h, ?_⟩
  rw [h]
  norm_num

/-- C1, as stated, fails: with 10 requests per minute and burst 1 the rate
`R = requestsPerMinute / 60` is one sixth, yet after the first check of a new key at
instant 0 is allowed and the second denied, the check exactly `1 / R` = 6 seconds later
is denied: the rate of line 80 is the `float64` below one sixth, so the bucket holds
less than one token after 6 seconds. -/
theorem token_not_back_after_six_seconds :
    (allowAll (initState tenPerMinuteConfig) "1.2.3.4" [0, 0, 6, 6]).2 =
        [true, false, false, false] ∧
      (6 : ℚ) =
        0 + 1 / ((((initState tenPerMinuteConfig).store.requestsPerMinute : Int) : ℚ) / 60) := by
  refine ⟨by decide!, ?_⟩
  show (6 : ℚ) = 0 + 1 / (((10 : Int) : ℚ) / 60)
  norm_num

/-- C1, amended: for a key `k` that is not tracked and a store with `burstSize = C ≥ 1`
and `requestsPerMinute > 0`, with `R` the rate in use, the `float64` value
`float64(requestsPerMinute) / 60.0`, which is positive and differs from
`requestsPerMinute / 60` by at most its `2 ^ 51`-th part: `C` checks of `k` at one
instant `t` are all allowed, the next check at `t` is denied, the check after exactly
`1 / R` seconds is allowed and the one right after it is denied. -/
theorem burst_then_one_token_per_interval (w : State) (k : String) (t : Time)
    (hk : w.store.limiters.lookup k = none) (hC : 1 ≤ w.store.burstSize)
    (hR : 0 < w.store.requestsPerMinute) :
    (allowAll w k (List.replicate w.store.burstSize.toNat t ++
        [t, t + 1 / float64 (float64 (w.store.requestsPerMinute : ℚ) / 60),
          t + 1 / float64 (float64 (w.store.requestsPerMinute : ℚ) / 60)])).2 =
        List.replicate w.store.burstSize.toNat true ++ [false, true, false] ∧
      0 < float64 (float64 (w.store.requestsPerMinute : ℚ) / 60) ∧
      |float64 (float64 (w.store.requestsPerMinute : ℚ) / 60) -
          (w.store.requestsPerMinute : ℚ) / 60| ≤
        (w.store.requestsPerMinute : ℚ) / 60 / 2 ^ 51 := by
  have hR' := rate_pos w.store.requestsPerMinute hR
  refine ⟨?_, hR', rate_error w.store.requestsPerMinute hR⟩
  rw [allowAll_snd_of_none k _ w hk]
  exact Limiter.fresh_burst_then_refill _ _ t hC hR'

/-- C1, the scenario of the spec: with 30 requests per minute and burst 5, five checks
of `1.2.3.4` at instant 0 are allowed, the sixth is denied, and 2 seconds later one
check is allowed and the following one is denied. -/
theorem burst_then_one_token_per_interval_witness :
    (allowAll (initState defaultRateLimitConfig) "1.2.3.4" [0, 0, 0, 0, 0, 0, 2, 2]).2 =
      [true, true, true, true, true, false, true, false] := by
  have h := (burst_then_one_token_per_interval (initState defaultRateLimitConfig) "1.2.3.4" 0
    rfl (by decide) (by decide)).1
  have e : (0 : ℚ) + 1 / float64 (float64
      (((initState defaultRateLimitConfig).store.requestsPerMinute : Int) : ℚ) / 60) = 2 := by
    show (0 : ℚ) + 1 / float64 (float64 ((30 : Int) : ℚ) / 60) = 2
    rw [rate_of_thirty]
    norm_num
  rw [e] at h
  exact h

/-- C2: for a tracked key whose entry points to bucket `b`, the check at `now` is allowed
if and only if the token count of `b`, after adding `limit * (now - last refill)` and
capping at the capacity, is at least 1; when it is allowed the stored token count is
that refilled value minus 1 (and `now` becomes the instant of the last refill). -/
theorem allowed_iff_refilled_token (w : State) (k : String) (e : ipLimiterEntry) (b : Limiter)
    (tSeen now : Time) (he : w.store.limiters.lookup k = some e)
    (hb : w.heap[e.limiter]? = some b) :
    ((RateLimit w k tSeen now).2 = true ↔
        1 ≤ min (b.burst : ℚ) (b.tokens + b.limit * b.elapsed now)) ∧
      ((RateLimit w k tSeen now).2 = true →
        bucketOf (RateLimit w k tSeen now).1 k =
          some { b with
            tokens := min (b.burst : ℚ) (b.tokens + b.limit * b.elapsed now) - 1
            last := some now }) ∧
      (∀ t₀, b.last = some t₀ → b.elapsed now = now - t₀) := by
  have hbo : bucketOf w k = some b := (bucketOf_eq_some_iff w k b).mpr ⟨e, he, hb⟩
  obtain ⟨h1, h2⟩ := bucketOf_RateLimit_of_some w k tSeen now b hbo
  refine ⟨?_, ?_, ?_⟩
  · rw [h2]
    exact Limiter.Allow_snd_iff b now
  · intro ha
    rw [h2] at ha
    rw [h1, Limiter.Allow_of_le b now ((Limiter.Allow_snd_iff b now).mp ha)]
    rfl
  · intro t₀ ht
    simp [Limiter.elapsed, ht]

/-- C2 at the sample state: `1.2.3.4` holds 4 tokens since instant 0. -/
theorem allowed_iff_refilled_token_witness :
    ((RateLimit sampleState "1.2.3.4" 1 1).2 = true ↔
        1 ≤ min ((5 : ℤ) : ℚ) ((4 : ℚ) + 1 / 2 *
          (Limiter.elapsed { limit := 1 / 2, burst := 5, tokens := 4, last := some 0 } 1))) ∧
      ((RateLimit sampleState "1.2.3.4" 1 1).2 = true →
        bucketOf (RateLimit sampleState "1.2.3.4" 1 1).1 "1.2.3.4" =
          some { limit := 1 / 2, burst := 5,
                 tokens := min ((5 : ℤ) : ℚ) ((4 : ℚ) + 1 / 2 *
                   (Limiter.elapsed { limit := 1 / 2, burst := 5, tokens := 4, last := some 0 } 1))
                   - 1,
                 last := some 1 }) ∧
      (∀ t₀, (some (0 : Time)) = some t₀ →
        Limiter.elapsed { limit := 1 / 2, burst := 5, tokens := 4, last := some 0 } 1 = 1 - t₀) :=
  allowed_iff_refilled_token sampleState "1.2.3.4" { limiter := 0, lastSeen := 0 }
    { limit := 1 / 2, burst := 5, tokens := 4, last := some 0 } 1 1 rfl rfl

/-- C3: for a key the store does not track yet and `burstSize ≥ 0`, the bucket created by
`getLimiter` is the fresh bucket, the fresh bucket has `0 ≤ tokens ≤ capacity = burstSize`,
every check (allowed or denied) preserves `0 ≤ tokens ≤ capacity`, and after any non-empty
list of checks of the key its bucket has `0 ≤ tokens ≤ burstSize`. -/
theorem tokens_between_zero_and_capacity (w : State) (k : String) (t : Time) (ts : List Time)
    (hk : w.store.limiters.lookup k = none) (hB : 0 ≤ w.store.burstSize) :
    (getLimiter w k t).1.heap[(getLimiter w k t).2]? = some (freshLimiter w.store) ∧
      (0 ≤ (freshLimiter w.store).tokens ∧
        (freshLimiter w.store).tokens ≤ ((freshLimiter w.store).burst : ℚ)) ∧
      (freshLimiter w.store).burst = w.store.burstSize ∧
      (∀ (b : Limiter) (now : Time), 0 ≤ b.tokens ∧ b.tokens ≤ (b.burst : ℚ) →
        0 ≤ (b.Allow now).1.tokens ∧ (b.Allow now).1.tokens ≤ ((b.Allow now).1.burst : ℚ)) ∧
      ∃ b, bucketOf (allowAll w k (t :: ts)).1 k = some b ∧
        0 ≤ b.tokens ∧ b.tokens ≤ (b.burst : ℚ) ∧ b.burst = w.store.burstSize := by
  have hfresh : 0 ≤ (freshLimiter w.store).tokens ∧
      (freshLimiter w.store).tokens ≤ ((freshLimiter w.store).burst : ℚ) := by
    constructor
    · show (0 : ℚ) ≤ ((w.store.burstSize : ℤ) : ℚ)
      exact_mod_cast hB
    · exact le_refl _
  refine ⟨?_, hfresh, rfl, fun b now h => Limiter.Allow_bounds b now h, ?_⟩
  · rw [getLimiter_of_none w k t hk]
    exact List.getElem?_concat_length _ _
  · obtain ⟨_, h2⟩ := allowAll_of_none k t ts w hk
    obtain ⟨b1, b2, b3⟩ := Limiter.allowAll_bounds (t :: ts) (freshLimiter w.store) hfresh
    exact ⟨_, h2, b1, b2, b3⟩

/-- C3 at the store with the default configuration: three checks of a new key. -/
theorem tokens_between_zero_and_capacity_witness :
    ∃ b, bucketOf (allowAll (initState defaultRateLimitConfig) "1.2.3.4" [0, 1, 7]).1 "1.2.3.4"
        = some b ∧ 0 ≤ b.tokens ∧ b.tokens ≤ (b.burst : ℚ) ∧ b.burst = 5 :=
  (tokens_between_zero_and_capacity (initState defaultRateLimitConfig) "1.2.3.4" 0 [1, 7]
    rfl (by decide)).2.2.2.2

/-- C4: a denied check consumes nothing. When the check of `k` at `now` is denied, the
state is the one `getLimiter` alone leaves (no bucket is written), and at every instant
`t'` the tokens a check of `k` finds, and the answer of that check, are the same as if
the denied check had never been made. -/
theorem denied_check_consumes_nothing (w : State) (k : String) (tSeen now : Time)
    (h : (RateLimit w k tSeen now).2 = false) :
    (RateLimit w k tSeen now).1 = (getLimiter w k tSeen).1 ∧
      (∀ t', tokensAt (RateLimit w k tSeen now).1 k t' = tokensAt w k t') ∧
      (∀ s' t', (RateLimit (RateLimit w k tSeen now).1 k s' t').2 = (RateLimit w k s' t').2) := by
  have h1 : (RateLimit w k tSeen now).1 = (getLimiter w k tSeen).1 := by
    have ha : (allowAt (getLimiter w k tSeen).1.heap (getLimiter w k tSeen).2 now).2 = false := h
    show ({ (getLimiter w k tSeen).1 with
      heap := (allowAt (getLimiter w k tSeen).1.heap (getLimiter w k tSeen).2 now).1 } : State) = _
    rw [allowAt_of_false _ _ _ ha]
  refine ⟨h1, ?_, ?_⟩
  · intro t'
    rw [h1]
    exact tokensAt_getLimiter w k tSeen t'
  · intro s' t'
    rw [h1]
    exact RateLimit_getLimiter w k tSeen s' t'

/-- C4 at the exhausted sample state: one second after the bucket ran empty only half a
token is back, the check is denied and changes nothing. -/
theorem denied_check_consumes_nothing_witness :
    (RateLimit exhaustedState "1.2.3.4" 1 1).2 = false ∧
      (RateLimit exhaustedState "1.2.3.4" 1 1).1 = (getLimiter exhaustedState "1.2.3.4" 1).1 ∧
      (∀ t', tokensAt (RateLimit exhaustedState "1.2.3.4" 1 1).1 "1.2.3.4" t' =
        tokensAt exhaustedState "1.2.3.4" t') ∧
      (∀ s' t', (RateLimit (RateLimit exhaustedState "1.2.3.4" 1 1).1 "1.2.3.4" s' t').2 =
        (RateLimit exhaustedState "1.2.3.4" s' t').2) :=
  ⟨by decide!, denied_check_consumes_nothing exhaustedState "1.2.3.4" 1 1 (by decide!)⟩

/-- C5, as stated, fails: with 7 requests per minute the bucket created for a new key
has the rate 4203359652212463 / 2 ^ 55, the `float64` that the division of line 80
gives, which is not the rational `7 / 60`. -/
theorem new_bucket_rate_is_a_float64 :
    (getLimiter (initState sevenPerMinuteConfig) "1.2.3.4" 0).1.heap[
        (getLimiter (initState sevenPerMinuteConfig) "1.2.3.4" 0).2]? =
        some { limit := 4203359652212463 / 36028797018963968, burst := 1, tokens := 1,
               last := none } ∧
      (4203359652212463 / 36028797018963968 : ℚ) ≠
        (((initState sevenPerMinuteConfig).store.requestsPerMinute : Int) : ℚ) / 60 := by
  refine ⟨by decide!, ?_⟩
  show (4203359652212463 / 36028797018963968 : ℚ) ≠ ((7 : Int) : ℚ) / 60
  norm_num

/-- C5, amended: the bucket `getLimiter` creates for a new key has as refill rate the
`float64` value `float64(requestsPerMinute) / 60.0`, and capacity exactly `burstSize`.
The rate is exactly 1/2 for 30 requests per minute, not an integer-truncated 0; for
every positive `requestsPerMinute` it is positive and differs from
`requestsPerMinute / 60` by at most its `2 ^ 51`-th part. -/
theorem new_bucket_rate_and_capacity (w : State) (k : String) (now : Time)
    (hk : w.store.limiters.lookup k = none) :
    ∃ b, (getLimiter w k now).1.heap[(getLimiter w k now).2]? = some b ∧
      b.limit = float64 (float64 (w.store.requestsPerMinute : ℚ) / 60) ∧
      b.burst = w.store.burstSize ∧
      (w.store.requestsPerMinute = 30 → b.limit = 1 / 2) ∧
      (0 < w.store.requestsPerMinute →
        0 < b.limit ∧
          |b.limit - (w.store.requestsPerMinute : ℚ) / 60| ≤
            (w.store.requestsPerMinute : ℚ) / 60 / 2 ^ 51) := by
  refine ⟨freshLimiter w.store, ?_, rfl, rfl, ?_, ?_⟩
  · rw [getLimiter_of_none w k now hk]
    exact List.getElem?_concat_length _ _
  · intro h30
    show float64 (float64 ((w.store.requestsPerMinute : Int) : ℚ) / 60) = 1 / 2
    rw [h30]
    exact rate_of_thirty
  · intro hP
    exact ⟨rate_pos _ hP, rate_error _ hP⟩

/-- C5 at the store with the default configuration: the rate is one half and the
capacity 5. -/
theorem new_bucket_rate_and_capacity_witness :
    ∃ b, (getLimiter (initState defaultRateLimitConfig) "1.2.3.4" 0).1.heap[
        (getLimiter (initState defaultRateLimitConfig) "1.2.3.4" 0).2]? = some b ∧
      b.limit = 1 / 2 ∧ b.burst = 5 := by
  obtain ⟨b, h1, _, h3, h4, _⟩ :=
    new_bucket_rate_and_capacity (initState defaultRateLimitConfig) "1.2.3.4" 0 rfl
  exact ⟨b, h1, h4 rfl, h3⟩

/-! ## Claims about `getLimiter` -/

theorem getStats_eq_keys_length (w : State) : getStats w = w.store.limiters.keys.length := by
  simp [getStats, AList.keys, List.keys]

theorem getLimiter_lookup_ne (w : State) (k k' : String) (t : Time) (h : k ≠ k') :
    (getLimiter w k' t).1.store.limiters.lookup k = w.store.limiters.lookup k := by
  cases hk : w.store.limiters.lookup k' with
  | none =>
    rw [getLimiter_of_none w k' t hk]
    exact AList.lookup_insert_ne h
  | some e =>
    rw [getLimiter_of_some w k' t e hk]
    exact AList.lookup_insert_ne h

theorem getLimiter_lookup_self (w : State) (k : String) (t : Time) :
    (getLimiter w k t).1.store.limiters.lookup k =
      some { limiter := (getLimiter w k t).2, lastSeen := t } := by
  cases hk : w.store.limiters.lookup k with
  | none =>
    rw [getLimiter_of_none w k t hk]
    exact AList.lookup_insert _
  | some e =>
    rw [getLimiter_of_some w k t e hk]
    exact AList.lookup_insert _

theorem getStats_getLimiter_of_some (w : State) (k : String) (t : Time) (e : ipLimiterEntry)
    (he : w.store.limiters.lookup k = some e) : getStats (getLimiter w k t).1 = getStats w := by
  have hmem : k ∈ w.store.limiters.keys := by
    have : k ∈ w.store.limiters := by
      rw [← AList.lookup_isSome, he]; rfl
    exact AList.mem_keys.mp this
  rw [getStats_eq_keys_length, getStats_eq_keys_length, getLimiter_of_some w k t e he]
  show (AList.insert k _ w.store.limiters).keys.length = _
  rw [AList.keys_insert, List.length_cons, List.length_erase_of_mem hmem]
  have : 0 < w.store.limiters.keys.length := List.length_pos_of_mem hmem
  omega

/-- Once a key is tracked, every later `getLimiter` call for it returns the limiter of
its entry, whatever other keys are asked for in between. -/
theorem getLimiterAll_stable (k : String) (cs : List (String × Time)) :
    ∀ (w : State) (e : ipLimiterEntry), w.store.limiters.lookup k = some e →
      (∀ x ∈ cs.zip (getLimiterAll w cs).2, x.1.1 = k → x.2 = e.limiter) ∧
        ∃ e', (getLimiterAll w cs).1.store.limiters.lookup k = some e' ∧
          e'.limiter = e.limiter := by
  induction cs with
  | nil =>
    intro w e he
    exact ⟨fun x hx => by simp at hx, e, he, rfl⟩
  | cons c cs ih =>
    intro w e he
    have hstep : ∃ e1, (getLimiter w c.1 c.2).1.store.limiters.lookup k = some e1 ∧
        e1.limiter = e.limiter ∧ (c.1 = k → (getLimiter w c.1 c.2).2 = e.limiter) := by
      by_cases hc : c.1 = k
      · refine ⟨{ limiter := (getLimiter w c.1 c.2).2, lastSeen := c.2 }, ?_, ?_, ?_⟩
        · rw [← hc]; exact getLimiter_lookup_self w c.1 c.2
        · rw [hc, getLimiter_of_some w k c.2 e he]
        · intro _; rw [hc, getLimiter_of_some w k c.2 e he]
      · refine ⟨e, ?_, rfl, fun h => absurd h hc⟩
        rw [getLimiter_lookup_ne w k c.1 c.2 (fun h => hc h.symm)]
        exact he
    obtain ⟨e1, h1, h2, h3⟩ := hstep
    obtain ⟨i1, e', i2, i3⟩ := ih (getLimiter w c.1 c.2).1 e1 h1
    refine ⟨?_, e', i2, i3.trans h2⟩
    intro x hx hxk
    have hz : (c :: cs).zip (getLimiterAll w (c :: cs)).2 =
        (c, (getLimiter w c.1 c.2).2) ::
          cs.zip (getLimiterAll (getLimiter w c.1 c.2).1 cs).2 := rfl
    rw [hz, List.mem_cons] at hx
    rcases hx with hx | hx
    · subst hx
      exact h3 hxk
    · rw [i1 x hx hxk, h2]

/-- In a run of `getLimiter` calls, two calls for the same key return the same limiter. -/
theorem getLimiterAll_pairwise (cs : List (String × Time)) :
    ∀ w : State, List.Pairwise (fun a b : (String × Time) × Nat => a.1.1 = b.1.1 → a.2 = b.2)
      (cs.zip (getLimiterAll w cs).2) := by
  induction cs with
  | nil => intro w; exact List.Pairwise.nil
  | cons c cs ih =>
    intro w
    have hz : (c :: cs).zip (getLimiterAll w (c :: cs)).2 =
        (c, (getLimiter w c.1 c.2).2) ::
          cs.zip (getLimiterAll (getLimiter w c.1 c.2).1 cs).2 := rfl
    rw [hz]
    refine List.Pairwise.cons ?_ (ih _)
    intro x hx hk
    obtain ⟨i1, _⟩ := getLimiterAll_stable c.1 cs (getLimiter w c.1 c.2).1 _
      (getLimiter_lookup_self w c.1 c.2)
    exact (i1 x hx hk.symm).symm

/-- C6: for a key `k` that is not in the entry map, `getLimiter(k)` at `now` allocates a
limiter at an address that was not in use, adds exactly one entry, the one of `k`, which
holds that address and `lastSeen = now`; the limiter there is fresh with the configured
rate and capacity; the address is the returned one; the number of tracked entries grows
by exactly 1; every other entry and every limiter allocated before are unchanged. -/
theorem getLimiter_creates_one_entry (w : State) (k : String) (now : Time)
    (hk : w.store.limiters.lookup k = none) :
    w.heap[(getLimiter w k now).2]? = none ∧
      (getLimiter w k now).1.store.limiters.entries =
        ⟨k, { limiter := (getLimiter w k now).2, lastSeen := now }⟩ ::
          w.store.limiters.entries ∧
      (getLimiter w k now).1.store.limiters.lookup k =
        some { limiter := (getLimiter w k now).2, lastSeen := now } ∧
      (getLimiter w k now).1.heap[(getLimiter w k now).2]? =
        some (NewLimiter (float64 (float64 (w.store.requestsPerMinute : ℚ) / 60))
          w.store.burstSize) ∧
      getStats (getLimiter w k now).1 = getStats w + 1 ∧
      (∀ k', k' ≠ k →
        (getLimiter w k now).1.store.limiters.lookup k' = w.store.limiters.lookup k') ∧
      (∀ (p : Nat) (b : Limiter), w.heap[p]? = some b →
        (getLimiter w k now).1.heap[p]? = some b) := by
  have hnot : k ∉ w.store.limiters := AList.lookup_eq_none.mp hk
  have hent : (getLimiter w k now).1.store.limiters.entries =
      ⟨k, { limiter := (getLimiter w k now).2, lastSeen := now }⟩ ::
        w.store.limiters.entries := by
    rw [getLimiter_of_none w k now hk]
    exact AList.insert_entries_of_neg hnot
  refine ⟨?_, hent, getLimiter_lookup_self w k now, ?_, ?_, ?_, ?_⟩
  · rw [getLimiter_of_none w k now hk]
    exact List.getElem?_length _
  · rw [getLimiter_of_none w k now hk]
    exact List.getElem?_concat_length _ _
  · show (getLimiter w k now).1.store.limiters.entries.length =
      w.store.limiters.entries.length + 1
    rw [hent, List.length_cons]
  · intro k' hk'
    exact getLimiter_lookup_ne w k' k now hk'
  · intro p b hp
    obtain ⟨hlt, _⟩ := List.getElem?_eq_some.mp hp
    rw [getLimiter_of_none w k now hk]
    show (w.heap ++ [freshLimiter w.store])[p]? = some b
    rw [List.getElem?_append_left hlt]
    exact hp

/-- C6 at the sample state: the new key `5.6.7.8` gets address 1, next to `1.2.3.4`. -/
theorem getLimiter_creates_one_entry_witness :
    (getLimiter sampleState "5.6.7.8" 3).2 = 1 ∧
      getStats (getLimiter sampleState "5.6.7.8" 3).1 = getStats sampleState + 1 ∧
      (getLimiter sampleState "5.6.7.8" 3).1.store.limiters.lookup "5.6.7.8" =
        some { limiter := (getLimiter sampleState "5.6.7.8" 3).2, lastSeen := 3 } :=
  ⟨rfl, (getLimiter_creates_one_entry sampleState "5.6.7.8" 3 rfl).2.2.2.2.1,
    (getLimiter_creates_one_entry sampleState "5.6.7.8" 3 rfl).2.2.1⟩

/-- C7: for a key `k` already in the entry map, `getLimiter(k)` returns the limiter address
stored in the entry of `k`, keeps that address in the entry (only `lastSeen` changes),
allocates nothing, and leaves the number of tracked entries and all other entries
unchanged. Hence in every run of `getLimiter` calls (no sweep in between) any two calls
for the same key return the same limiter address, and the keys of the map are distinct. -/
theorem getLimiter_returns_existing_bucket (w : State) (k : String) (now : Time) :
    (∀ e, w.store.limiters.lookup k = some e →
      (getLimiter w k now).2 = e.limiter ∧
        (getLimiter w k now).1.store.limiters.lookup k = some { e with lastSeen := now } ∧
        (getLimiter w k now).1.heap = w.heap ∧
        getStats (getLimiter w k now).1 = getStats w ∧
        (∀ k', k' ≠ k →
          (getLimiter w k now).1.store.limiters.lookup k' = w.store.limiters.lookup k')) ∧
      (∀ cs : List (String × Time),
        List.Pairwise (fun a b : (String × Time) × Nat => a.1.1 = b.1.1 → a.2 = b.2)
            (cs.zip (getLimiterAll w cs).2) ∧
          (getLimiterAll w cs).1.store.limiters.keys.Nodup) := by
  constructor
  · intro e he
    refine ⟨?_, ?_, ?_, getStats_getLimiter_of_some w k now e he, ?_⟩
    · rw [getLimiter_of_some w k now e he]
    · rw [getLimiter_of_some w k now e he]
      exact AList.lookup_insert _
    · rw [getLimiter_of_some w k now e he]
    · intro k' hk'
      exact getLimiter_lookup_ne w k' k now hk'
  · intro cs
    exact ⟨getLimiterAll_pairwise cs w, AList.keys_nodup _⟩

/-- C7 at the sample state: `1.2.3.4` is tracked with limiter address 0. -/
theorem getLimiter_returns_existing_bucket_witness :
    (getLimiter sampleState "1.2.3.4" 9).2 = 0 ∧
      (getLimiter sampleState "1.2.3.4" 9).1.heap = sampleState.heap ∧
      getStats (getLimiter sampleState "1.2.3.4" 9).1 = getStats sampleState :=
  have h := (getLimiter_returns_existing_bucket sampleState "1.2.3.4" 9).1
    { limiter := 0, lastSeen := 0 } rfl
  ⟨h.1, h.2.2.1, h.2.2.2.1⟩

/-- C8: after a check of `k` whose `getLimiter` reads the clock at `now`, the entry of `k`
has `lastSeen = now`, whether the check was allowed or denied. This holds on the path for
an existing entry and on the path for a new entry of `getLimiter`, and also for the part
under the write lock run on any state, where the second lookup may find the entry. -/
theorem lastSeen_refreshed_on_every_check (w : State) (k : String) (now tAllow : Time) :
    (∃ e, (RateLimit w k now tAllow).1.store.limiters.lookup k = some e ∧ e.lastSeen = now) ∧
      (∃ e, (getLimiter w k now).1.store.limiters.lookup k = some e ∧ e.lastSeen = now ∧
        e.limiter = (getLimiter w k now).2) ∧
      (∃ e, (getLimiterLocked w k now).1.store.limiters.lookup k = some e ∧
        e.lastSeen = now ∧ e.limiter = (getLimiterLocked w k now).2) := by
  refine ⟨⟨_, getLimiter_lookup_self w k now, rfl⟩, ⟨_, getLimiter_lookup_self w k now, rfl, rfl⟩,
    ?_⟩
  rw [getLimiterLocked_eq]
  exact ⟨_, getLimiter_lookup_self w k now, rfl, rfl⟩

/-! ## The sweep -/

theorem kerase_eq_filter (a : String) :
    ∀ l : List (Σ _ : String, ipLimiterEntry), l.NodupKeys →
      List.kerase a l = l.filter (fun y => decide (y.1 ≠ a)) := by
  intro l
  induction l with
  | nil => intro _; rfl
  | cons x l ih =>
    intro nd
    obtain ⟨hx, nd'⟩ := List.nodupKeys_cons.mp nd
    by_cases h : a = x.1
    · rw [List.kerase_cons_eq h]
      have h1 : decide (x.1 ≠ a) = false := by simp [h]
      rw [List.filter_cons_of_neg (by simp [h])]
      symm
      rw [List.filter_eq_self]
      intro y hy
      have : y.1 ≠ a := by
        intro hya
        apply hx
        rw [← h, ← hya]
        exact List.mem_keys_of_mem hy
      simpa using this
    · rw [List.kerase_cons_ne h, List.filter_cons_of_pos (by simpa using fun h' => h h'.symm),
        ih nd']

/-- The entries left by the deletion loop of `cleanup`, started on the map `acc` and run
over the entries `l`: the entries of `acc` whose key belongs to no idle entry of `l`. -/
theorem cleanup_loop_entries (ttl : Duration) (now : Time)
    (l : List (Σ _ : String, ipLimiterEntry)) :
    ∀ acc : AList (fun _ : String => ipLimiterEntry),
      (l.foldl (fun m x => if now - x.2.lastSeen > ttl then m.erase x.1 else m) acc).entries =
        acc.entries.filter (fun y =>
          !(l.any (fun x => decide (now - x.2.lastSeen > ttl) && decide (x.1 = y.1)))) := by
  induction l with
  | nil => intro acc; simp
  | cons x l ih =>
    intro acc
    rw [List.foldl_cons, ih]
    by_cases hx : now - x.2.lastSeen > ttl
    · rw [if_pos hx]
      show List.filter _ (List.kerase x.1 acc.entries) = _
      rw [kerase_eq_filter x.1 acc.entries acc.nodupKeys, List.filter_filter]
      apply List.filter_congr
      intro y _
      by_cases hy : x.1 = y.1
      · simp [hx, hy]
      · have hy' : y.1 ≠ x.1 := fun h => hy h.symm
        simp [hx, hy, hy']
    · rw [if_neg hx]
      apply List.filter_congr
      intro y _
      simp [hx]

/-- The sweep keeps exactly the entries that are not idle for longer than `limiterTTL`. -/
theorem cleanup_entries (w : State) (now : Time) :
    (cleanup w now).store.limiters.entries =
      w.store.limiters.entries.filter
        (fun y => decide (now - y.2.lastSeen ≤ w.store.limiterTTL)) := by
  show (w.store.limiters.entries.foldl _ w.store.limiters).entries = _
  rw [cleanup_loop_entries]
  apply List.filter_congr
  intro y hy
  by_cases hs : now - y.2.lastSeen > w.store.limiterTTL
  · have h1 : w.store.limiters.entries.any (fun x =>
        decide (now - x.2.lastSeen > w.store.limiterTTL) && decide (x.1 = y.1)) = true := by
      rw [List.any_eq_true]
      exact ⟨y, hy, by simp [hs]⟩
    rw [h1]
    simp [not_le.mpr hs]
  · have h1 : w.store.limiters.entries.any (fun x =>
        decide (now - x.2.lastSeen > w.store.limiterTTL) && decide (x.1 = y.1)) = false := by
      rw [List.any_eq_false]
      intro x hx hc
      simp only [Bool.and_eq_true, decide_eq_true_eq] at hc
      have : x = y := w.store.limiters.nodupKeys.eq_of_fst_eq hx hy hc.2
      rw [this] at hc
      exact hs hc.1
    rw [h1]
    simp [not_lt.mp hs]

theorem lookup_cleanup_iff (w : State) (now : Time) (k : String) (e : ipLimiterEntry) :
    (cleanup w now).store.limiters.lookup k = some e ↔
      w.store.limiters.lookup k = some e ∧ now - e.lastSeen ≤ w.store.limiterTTL := by
  have h1 : (cleanup w now).store.limiters.lookup k = some e ↔
      (⟨k, e⟩ : Σ _ : String, ipLimiterEntry) ∈ (cleanup w now).store.limiters.entries :=
    AList.mem_lookup_iff
  have h2 : w.store.limiters.lookup k = some e ↔
      (⟨k, e⟩ : Σ _ : String, ipLimiterEntry) ∈ w.store.limiters.entries :=
    AList.mem_lookup_iff
  rw [h1, h2, cleanup_entries, List.mem_filter]
  simp

theorem KeptInUse_take (k : String) (ttl : Duration) (es : List Event) :
    ∀ (seen : Time) (n : Nat), KeptInUse k ttl seen es → KeptInUse k ttl seen (es.take n) := by
  induction es with
  | nil => intro seen n h; simpa using h
  | cons ev es ih =>
    intro seen n h
    cases n with
    | zero => simp [KeptInUse]
    | succ n =>
      rw [List.take_succ_cons]
      cases ev with
      | check k' t =>
        simp only [KeptInUse] at h ⊢
        by_cases hk : k' = k
        · rw [if_pos hk] at h ⊢; exact ih t n h
        · rw [if_neg hk] at h ⊢; exact ih seen n h
      | sweep t =>
        simp only [KeptInUse] at h ⊢
        exact ⟨h.1, ih seen n h.2⟩

theorem run_cons (w : State) (ev : Event) (es : List Event) :
    run w (ev :: es) = run (step w ev) es := rfl

/-- A key stays tracked along every run whose sweeps come at most `limiterTTL` after the
latest check of the key. -/
theorem run_keeps_key (k : String) (es : List Event) :
    ∀ (w : State) (e : ipLimiterEntry), w.store.limiters.lookup k = some e →
      KeptInUse k w.store.limiterTTL e.lastSeen es →
      ∃ e', (run w es).store.limiters.lookup k = some e' := by
  induction es with
  | nil => intro w e he _; exact ⟨e, he⟩
  | cons ev es ih =>
    intro w e he hkeep
    rw [run_cons]
    cases ev with
    | check k' t =>
      have httl : (step w (Event.check k' t)).store.limiterTTL = w.store.limiterTTL :=
        (RateLimit_config w k' t t).2.2.2
      simp only [KeptInUse] at hkeep
      by_cases hk : k' = k
      · rw [if_pos hk] at hkeep
        have hl : (step w (Event.check k' t)).store.limiters.lookup k =
            some { limiter := (getLimiter w k t).2, lastSeen := t } := by
          rw [hk]
          exact getLimiter_lookup_self w k t
        exact ih _ _ hl (by rw [httl]; exact hkeep)
      · rw [if_neg hk] at hkeep
        have hl : (step w (Event.check k' t)).store.limiters.lookup k = some e := by
          show (getLimiter w k' t).1.store.limiters.lookup k = some e
          rw [getLimiter_lookup_ne w k k' t (fun h => hk h.symm)]
          exact he
        exact ih _ _ hl (by rw [httl]; exact hkeep)
    | sweep t =>
      simp only [KeptInUse] at hkeep
      have hl : (step w (Event.sweep t)).store.limiters.lookup k = some e :=
        (lookup_cleanup_iff w t k e).mpr ⟨he, hkeep.1⟩
      exact ih _ _ hl hkeep.2

/-- C9: after `cleanup()` at `now` no tracked entry has `now - lastSeen > limiterTTL`; every
entry idle for strictly longer than `limiterTTL` is removed; the number of tracked entries
after the sweep is the number of entries whose key was last seen within the last
`limiterTTL`, whatever the number of entries before, and it is at most that number. -/
theorem cleanup_removes_idle_entries (w : State) (now : Time) :
    (∀ k e, (cleanup w now).store.limiters.lookup k = some e →
        ¬ (now - e.lastSeen > (cleanup w now).store.limiterTTL)) ∧
      (∀ k e, w.store.limiters.lookup k = some e → now - e.lastSeen > w.store.limiterTTL →
        (cleanup w now).store.limiters.lookup k = none) ∧
      getStats (cleanup w now) =
        (w.store.limiters.entries.filter
          (fun y => decide (now - y.2.lastSeen ≤ w.store.limiterTTL))).length ∧
      getStats (cleanup w now) ≤ getStats w := by
  refine ⟨?_, ?_, ?_, ?_⟩
  · intro k e h
    exact not_lt.mpr ((lookup_cleanup_iff w now k e).mp h).2
  · intro k e he hidle
    cases h : (cleanup w now).store.limiters.lookup k with
    | none => rfl
    | some e' =>
      obtain ⟨h1, h2⟩ := (lookup_cleanup_iff w now k e').mp h
      rw [he] at h1
      cases h1
      exact absurd hidle (not_lt.mpr h2)
  · show (cleanup w now).store.limiters.entries.length = _
    rw [cleanup_entries]
  · show (cleanup w now).store.limiters.entries.length ≤ w.store.limiters.entries.length
    rw [cleanup_entries]
    exact List.length_filter_le _ _

/-- C9 at the sample state: `1.2.3.4`, last seen at 0, is gone after the sweep at 901. -/
theorem cleanup_removes_idle_entries_witness :
    (cleanup sampleState 901).store.limiters.lookup "1.2.3.4" = none :=
  (cleanup_removes_idle_entries sampleState 901).2.1 "1.2.3.4" { limiter := 0, lastSeen := 0 }
    rfl (by show (901 : ℚ) - 0 > 900; norm_num)

/-- C10: `cleanup()` at `now` keeps every entry with `now - lastSeen ≤ limiterTTL`, also one
idle for exactly `limiterTTL`, with its limiter address and `lastSeen` unchanged, and writes
no bucket. Consequently, along every run of checks and sweeps in which each sweep comes at
most `limiterTTL` after the latest check of `k`, the key `k` is tracked after every step. -/
theorem cleanup_keeps_recent_entries (w : State) (k : String) (e : ipLimiterEntry)
    (he : w.store.limiters.lookup k = some e) :
    (∀ now, now - e.lastSeen ≤ w.store.limiterTTL →
        (cleanup w now).store.limiters.lookup k = some e ∧
          (cleanup w now).heap = w.heap ∧ bucketOf (cleanup w now) k = bucketOf w k) ∧
      (cleanup w (e.lastSeen + w.store.limiterTTL)).store.limiters.lookup k = some e ∧
      (∀ es, KeptInUse k w.store.limiterTTL e.lastSeen es →
        ∀ n, ∃ e', (run w (es.take n)).store.limiters.lookup k = some e') := by
  have hkeep : ∀ now, now - e.lastSeen ≤ w.store.limiterTTL →
      (cleanup w now).store.limiters.lookup k = some e :=
    fun now hr => (lookup_cleanup_iff w now k e).mpr ⟨he, hr⟩
  refine ⟨?_, ?_, ?_⟩
  · intro now hr
    refine ⟨hkeep now hr, rfl, ?_⟩
    unfold bucketOf
    rw [hkeep now hr, he]
    rfl
  · exact hkeep _ (by simp)
  · intro es hes n
    exact run_keeps_key k (es.take n) w e he (KeptInUse_take k _ es _ n hes)

/-- C10 at the sample state: `1.2.3.4`, last seen at 0 and checked again at 800, survives
the sweeps at 300, 1500 and 1700, the last one exactly `limiterTTL` after the check. -/
theorem cleanup_keeps_recent_entries_witness :
    ∃ e', (run sampleState
        [Event.sweep 300, Event.check "1.2.3.4" 800, Event.sweep 1500,
          Event.sweep 1700]).store.limiters.lookup "1.2.3.4" = some e' :=
  (cleanup_keeps_recent_entries sampleState "1.2.3.4" { limiter := 0, lastSeen := 0 }
      rfl).2.2
    [Event.sweep 300, Event.check "1.2.3.4" 800, Event.sweep 1500, Event.sweep 1700]
    (by
      show KeptInUse "1.2.3.4" (900 : ℚ) (0 : ℚ) _
      simp only [KeptInUse, if_true]
      norm_num) 4

/-! ## The sweep on its ticker -/

theorem cleanupLoop_limiterTTL (w : State) (n : Nat) :
    (cleanupLoop w n).store.limiterTTL = w.store.limiterTTL := by
  induction n with
  | zero => rfl
  | succ n ih => exact ih

theorem cleanupLoop_heap (w : State) (n : Nat) : (cleanupLoop w n).heap = w.heap := by
  induction n with
  | zero => rfl
  | succ n ih => exact ih

/-- After `n ≥ 1` ticks the entries left are the ones not idle for longer than
`limiterTTL` at the instant of tick `n`. -/
theorem cleanupLoop_entries (w : State) (hI : 0 ≤ w.store.cleanupInterval) (n : Nat) :
    (cleanupLoop w (n + 1)).store.limiters.entries =
      w.store.limiters.entries.filter (fun y =>
        decide (w.store.cleanupInterval * ((n + 1 : Nat) : ℚ) - y.2.lastSeen
          ≤ w.store.limiterTTL)) := by
  induction n with
  | zero =>
    show (cleanup w _).store.limiters.entries = _
    rw [cleanup_entries]
  | succ n ih =>
    show (cleanup (cleanupLoop w (n + 1)) _).store.limiters.entries = _
    rw [cleanup_entries, ih, List.filter_filter, cleanupLoop_limiterTTL]
    apply List.filter_congr
    intro y _
    have hmono : w.store.cleanupInterval * ((n + 1 : Nat) : ℚ) ≤
        w.store.cleanupInterval * ((n + 1 + 1 : Nat) : ℚ) := by
      apply mul_le_mul_of_nonneg_left _ hI
      exact_mod_cast Nat.le_succ (n + 1)
    by_cases h : w.store.cleanupInterval * ((n + 1 + 1 : Nat) : ℚ) - y.2.lastSeen
        ≤ w.store.limiterTTL
    · have h' : w.store.cleanupInterval * ((n + 1 : Nat) : ℚ) - y.2.lastSeen
          ≤ w.store.limiterTTL := by linarith
      simp only [decide_eq_true h, decide_eq_true h', Bool.and_self]
    · simp only [decide_eq_false h, Bool.false_and, Bool.and_false]

theorem lookup_cleanupLoop_iff (w : State) (hI : 0 ≤ w.store.cleanupInterval) (n : Nat)
    (k : String) (e : ipLimiterEntry) :
    (cleanupLoop w (n + 1)).store.limiters.lookup k = some e ↔
      w.store.limiters.lookup k = some e ∧
        w.store.cleanupInterval * ((n + 1 : Nat) : ℚ) - e.lastSeen ≤ w.store.limiterTTL := by
  have h1 : (cleanupLoop w (n + 1)).store.limiters.lookup k = some e ↔
      (⟨k, e⟩ : Σ _ : String, ipLimiterEntry) ∈ (cleanupLoop w (n + 1)).store.limiters.entries :=
    AList.mem_lookup_iff
  have h2 : w.store.limiters.lookup k = some e ↔
      (⟨k, e⟩ : Σ _ : String, ipLimiterEntry) ∈ w.store.limiters.entries :=
    AList.mem_lookup_iff
  rw [h1, h2, cleanupLoop_entries w hI, List.mem_filter]
  simp only [decide_eq_true_eq]

theorem lookup_cleanupLoop_none (w : State) (hI : 0 ≤ w.store.cleanupInterval) (n : Nat)
    (k : String) (e : ipLimiterEntry) (he : w.store.limiters.lookup k = some e)
    (h : w.store.limiterTTL < w.store.cleanupInterval * ((n + 1 : Nat) : ℚ) - e.lastSeen) :
    (cleanupLoop w (n + 1)).store.limiters.lookup k = none := by
  cases hl : (cleanupLoop w (n + 1)).store.limiters.lookup k with
  | none => rfl
  | some e' =>
    exfalso
    have h3 := (lookup_cleanupLoop_iff w hI n k e').mp hl
    have h4 : e' = e := Option.some.inj (h3.1.symm.trans he)
    rw [h4] at h3
    exact absurd h3.2 (not_le.mpr h)

theorem getStats_pos_of_lookup (w : State) (k : String) (e : ipLimiterEntry)
    (h : w.store.limiters.lookup k = some e) : 0 < getStats w := by
  have h2 : (⟨k, e⟩ : Σ _ : String, ipLimiterEntry) ∈ w.store.limiters.entries :=
    AList.mem_lookup_iff.mp h
  exact List.length_pos_of_mem h2

theorem allow_entries_of_empty (w : State) (k : String) (t : Time)
    (h : w.store.limiters.entries = []) :
    (allow w k t).1.store.limiters.entries = [⟨k, { limiter := w.heap.length, lastSeen := t }⟩] := by
  have hk : k ∉ w.store.limiters := by
    rw [AList.mem_keys]
    simp [AList.keys, h]
  have hn : w.store.limiters.lookup k = none := AList.lookup_eq_none.mpr hk
  show (RateLimit w k t t).1.store.limiters.entries = _
  rw [RateLimit_of_none w k t t hn]
  show (w.store.limiters.insert k _).entries = _
  rw [AList.insert_entries_of_neg hk, h]

/-- C11: in the step model where `cleanup` runs at every positive multiple of
`cleanupInterval`, a key checked once at time 0 and never again is still tracked, and
counted by `getStats`, after every tick whose time is at most `limiterTTL`, and is absent
after every tick whose time is strictly greater than `limiterTTL`; when it is the only
key of the store, `getStats` is 1 up to that tick and 0 from it on. -/
theorem idle_key_dropped_at_first_late_tick (w₀ : State) (k : String)
    (hI : 0 < w₀.store.cleanupInterval) :
    (∀ n : Nat, w₀.store.cleanupInterval * (n : ℚ) ≤ w₀.store.limiterTTL →
        (cleanupLoop (allow w₀ k 0).1 n).store.limiters.lookup k =
            some { limiter := (getLimiter w₀ k 0).2, lastSeen := 0 } ∧
          0 < getStats (cleanupLoop (allow w₀ k 0).1 n)) ∧
      (∀ n : Nat, 0 < n → w₀.store.limiterTTL < w₀.store.cleanupInterval * (n : ℚ) →
        (cleanupLoop (allow w₀ k 0).1 n).store.limiters.lookup k = none) ∧
      (w₀.store.limiters.entries = [] → ∀ n : Nat,
        getStats (cleanupLoop (allow w₀ k 0).1 n) =
          if n = 0 ∨ w₀.store.cleanupInterval * (n : ℚ) ≤ w₀.store.limiterTTL then 1 else 0) := by
  have hw : (allow w₀ k 0).1.store.limiters.lookup k =
      some { limiter := (getLimiter w₀ k 0).2, lastSeen := 0 } :=
    getLimiter_lookup_self w₀ k 0
  have hc : (allow w₀ k 0).1.store.cleanupInterval = w₀.store.cleanupInterval :=
    (RateLimit_config w₀ k 0 0).2.2.1
  have ht : (allow w₀ k 0).1.store.limiterTTL = w₀.store.limiterTTL :=
    (RateLimit_config w₀ k 0 0).2.2.2
  have hI' : 0 ≤ (allow w₀ k 0).1.store.cleanupInterval := by rw [hc]; exact le_of_lt hI
  refine ⟨?_, ?_, ?_⟩
  · intro n hn
    have hl : (cleanupLoop (allow w₀ k 0).1 n).store.limiters.lookup k =
        some { limiter := (getLimiter w₀ k 0).2, lastSeen := 0 } := by
      cases n with
      | zero => exact hw
      | succ m =>
        refine (lookup_cleanupLoop_iff _ hI' m k _).mpr ⟨hw, ?_⟩
        rw [hc, ht]
        simpa using hn
    exact ⟨hl, getStats_pos_of_lookup _ k _ hl⟩
  · intro n hpos hn
    cases n with
    | zero => exact absurd hpos (lt_irrefl 0)
    | succ m =>
      refine lookup_cleanupLoop_none _ hI' m k _ hw ?_
      rw [hc, ht]
      simpa using hn
  · intro hemp n
    have hent := allow_entries_of_empty w₀ k 0 hemp
    cases n with
    | zero =>
      show ((allow w₀ k 0).1.store.limiters.entries).length = _
      rw [hent]
      simp
    | succ m =>
      show ((cleanupLoop (allow w₀ k 0).1 (m + 1)).store.limiters.entries).length = _
      rw [cleanupLoop_entries _ hI', hent, hc, ht]
      by_cases h : w₀.store.cleanupInterval * ((m + 1 : Nat) : ℚ) ≤ w₀.store.limiterTTL
      · have h' : w₀.store.cleanupInterval * ((m + 1 : Nat) : ℚ) - 0 ≤ w₀.store.limiterTTL := by
          simpa using h
        rw [List.filter_cons_of_pos (by simpa using h'), if_pos (Or.inr h)]
        rfl
      · have h' : ¬ w₀.store.cleanupInterval * ((m + 1 : Nat) : ℚ) - 0 ≤ w₀.store.limiterTTL := by
          simpa using h
        rw [List.filter_cons_of_neg (by simpa using h'),
          if_neg (by rintro (h0 | h1); exact absurd h0 (Nat.succ_ne_zero m); exact h h1)]
        rfl

/-- With a sweep every second and a lifetime of 2 seconds, a key checked once at time 0
on a new store is counted after the ticks at 1 s and 2 s and gone after the tick at 3 s
and after every later one. -/
theorem idle_key_dropped_at_first_late_tick_witness :
    getStats (cleanupLoop (allow (initState shortLivedConfig) "1.2.3.4" 0).1 1) = 1 ∧
      getStats (cleanupLoop (allow (initState shortLivedConfig) "1.2.3.4" 0).1 2) = 1 ∧
      getStats (cleanupLoop (allow (initState shortLivedConfig) "1.2.3.4" 0).1 3) = 0 ∧
      ∀ n : Nat, 3 ≤ n →
        (cleanupLoop (allow (initState shortLivedConfig) "1.2.3.4" 0).1 n).store.limiters.lookup
          "1.2.3.4" = none := by
  have hI : (0 : ℚ) < (initState shortLivedConfig).store.cleanupInterval := by
    show (0 : ℚ) < 1
    norm_num
  have h := idle_key_dropped_at_first_late_tick (initState shortLivedConfig) "1.2.3.4" hI
  have e1 : (initState shortLivedConfig).store.cleanupInterval = 1 := rfl
  have e2 : (initState shortLivedConfig).store.limiterTTL = 2 := rfl
  refine ⟨?_, ?_, ?_, ?_⟩
  · rw [h.2.2 rfl 1, e1, e2]; norm_num
  · rw [h.2.2 rfl 2, e1, e2]; norm_num
  · rw [h.2.2 rfl 3, e1, e2]; norm_num
  · intro n hn
    refine h.2.1 n (by omega) ?_
    rw [e1, e2]
    have : (3 : ℚ) ≤ (n : ℚ) := by exact_mod_cast hn
    linarith

/-! ## A key that was swept away starts afresh -/

theorem lookup_cleanup_none_of_idle (w : State) (now : Time) (k : String) (e : ipLimiterEntry)
    (he : w.store.limiters.lookup k = some e) (hidle : now - e.lastSeen > w.store.limiterTTL) :
    (cleanup w now).store.limiters.lookup k = none := by
  cases hl : (cleanup w now).store.limiters.lookup k with
  | none => rfl
  | some e' =>
    exfalso
    have h3 := (lookup_cleanup_iff w now k e').mp hl
    have h4 : e' = e := Option.some.inj (h3.1.symm.trans he)
    rw [h4] at h3
    exact absurd h3.2 (not_le.mpr hidle)

theorem getStats_getLimiter_of_none (w : State) (k : String) (t : Time)
    (h : w.store.limiters.lookup k = none) :
    getStats (getLimiter w k t).1 = getStats w + 1 := by
  have hk : k ∉ w.store.limiters := AList.lookup_eq_none.mp h
  rw [getLimiter_of_none w k t h]
  show ((w.store.limiters.insert k _).entries).length = _
  rw [AList.insert_entries_of_neg hk]
  rfl

/-- A new bucket answers `true` to `burstSize` checks made in a row at one instant. -/
theorem freshLimiter_burst (s : ipRateLimitStore) (t : Time) :
    ((freshLimiter s).allowAll (List.replicate s.burstSize.toNat t)).2 =
      List.replicate s.burstSize.toNat true := by
  by_cases hb : 0 ≤ s.burstSize
  · refine (Limiter.allowAll_replicate t s.burstSize.toNat (freshLimiter s) rfl ?_ ?_).1
    · show ((s.burstSize.toNat : Nat) : ℚ) ≤ ((s.burstSize : Int) : ℚ)
      have h1 : ((s.burstSize.toNat : Nat) : Int) = s.burstSize := Int.toNat_of_nonneg hb
      have h2 : (((s.burstSize.toNat : Nat) : Int) : ℚ) = ((s.burstSize : Int) : ℚ) :=
        congrArg (fun z : Int => (z : ℚ)) h1
      exact le_of_eq ((Int.cast_natCast s.burstSize.toNat).symm.trans h2)
    · exact le_refl _
  · have h0 : s.burstSize.toNat = 0 := Int.toNat_eq_zero.mpr (le_of_lt (not_le.mp hb))
    rw [h0]
    rfl

/-- C12: for every key whose entry has been removed by `cleanup`, whatever its bucket held
when removed, the next checks for the key are answered exactly as a new bucket answers
them: the key is untracked after the sweep, the next call of `getLimiter` creates a new
entry with a new bucket, and `burstSize` checks in a row at one instant are all allowed. -/
theorem evicted_key_starts_afresh (w : State) (k : String) (e : ipLimiterEntry) (now : Time)
    (he : w.store.limiters.lookup k = some e)
    (hidle : now - e.lastSeen > w.store.limiterTTL) :
    (cleanup w now).store.limiters.lookup k = none ∧
      (∀ ts : List Time,
        (allowAll (cleanup w now) k ts).2 = ((freshLimiter w.store).allowAll ts).2) ∧
      (∀ t : Time,
        (getLimiter (cleanup w now) k t).2 = w.heap.length ∧
          (getLimiter (cleanup w now) k t).1.heap = w.heap ++ [freshLimiter w.store] ∧
          (getLimiter (cleanup w now) k t).1.store.limiters.lookup k =
            some { limiter := w.heap.length, lastSeen := t } ∧
          getStats (getLimiter (cleanup w now) k t).1 = getStats (cleanup w now) + 1) ∧
      (∀ t : Time,
        (allowAll (cleanup w now) k (List.replicate w.store.burstSize.toNat t)).2 =
          List.replicate w.store.burstSize.toNat true) := by
  have hn := lookup_cleanup_none_of_idle w now k e he hidle
  have hall : ∀ ts : List Time,
      (allowAll (cleanup w now) k ts).2 = ((freshLimiter w.store).allowAll ts).2 :=
    fun ts => allowAll_snd_of_none k ts (cleanup w now) hn
  refine ⟨hn, hall, ?_, ?_⟩
  · intro t
    have hg := getLimiter_of_none (cleanup w now) k t hn
    have hs := getLimiter_lookup_self (cleanup w now) k t
    have h2 : (getLimiter (cleanup w now) k t).2 = w.heap.length := by rw [hg]; rfl
    refine ⟨h2, ?_, ?_, getStats_getLimiter_of_none _ k t hn⟩
    · rw [hg]; rfl
    · rw [hs, h2]
  · intro t
    rw [hall]
    exact freshLimiter_burst w.store t

/-- The key `1.2.3.4` with an empty bucket, idle since instant 0, is swept at 901 s;
the next five checks in a row are allowed. -/
theorem evicted_key_starts_afresh_witness :
    (allowAll (cleanup exhaustedState 901) "1.2.3.4" (List.replicate 5 901)).2 =
      List.replicate 5 true :=
  (evicted_key_starts_afresh exhaustedState "1.2.3.4" { limiter := 0, lastSeen := 0 } 901
    rfl (by show (901 : ℚ) - 0 > 900; norm_num)).2.2.2 901

/-! ## Only the sweep removes entries -/

theorem mem_limiters_iff_lookup (w : State) (k : String) :
    k ∈ w.store.limiters ↔ w.store.limiters.lookup k ≠ none := by
  rw [← AList.lookup_isSome]
  cases w.store.limiters.lookup k <;> simp

theorem mem_getLimiter_iff (w : State) (k k' : String) (now : Time) :
    k' ∈ (getLimiter w k now).1.store.limiters ↔ k' = k ∨ k' ∈ w.store.limiters := by
  by_cases h : k' = k
  · subst h
    rw [mem_limiters_iff_lookup, getLimiter_lookup_self]
    simp
  · rw [mem_limiters_iff_lookup, mem_limiters_iff_lookup, getLimiter_lookup_ne w k' k now h]
    simp [h]

/-- C13: `getLimiter` and `getStats` never remove an entry: for every state, key and
time, the keys tracked after `getLimiter k` (and after a whole check of `k`) are the
keys tracked before together with `k`, every other key keeps its entry, the count does
not go down, and `getStats` leaves the state as it is. -/
theorem entries_destroyed_only_by_sweep (w : State) (k : String) (now tAllow : Time) :
    (∀ k' : String,
        k' ∈ (getLimiter w k now).1.store.limiters ↔ k' = k ∨ k' ∈ w.store.limiters) ∧
      (∀ k' : String,
        k' ∈ (RateLimit w k now tAllow).1.store.limiters ↔ k' = k ∨ k' ∈ w.store.limiters) ∧
      (∀ k' : String, k' ≠ k →
        (getLimiter w k now).1.store.limiters.lookup k' = w.store.limiters.lookup k') ∧
      getStats w ≤ getStats (getLimiter w k now).1 ∧
      (getStatsCall w).1 = w := by
  refine ⟨fun k' => mem_getLimiter_iff w k k' now, fun k' => mem_getLimiter_iff w k k' now,
    fun k' h => getLimiter_lookup_ne w k' k now h, ?_, rfl⟩
  cases h : w.store.limiters.lookup k with
  | none => rw [getStats_getLimiter_of_none w k now h]; exact Nat.le_succ _
  | some e => rw [getStats_getLimiter_of_some w k now e h]

/-! ## The statistics -/

/-- C15: for every state, `getStats` returns exactly the number of entries of the entry
map, which is the number of distinct keys tracked, and leaves the state (the entry map
with every `lastSeen`, and every bucket) unchanged. -/
theorem getStats_counts_entries_and_writes_nothing (w : State) :
    (getStatsCall w).2 = w.store.limiters.entries.length ∧
      (getStatsCall w).2 = getStats w ∧
      (getStatsCall w).2 = w.store.limiters.keys.toFinset.card ∧
      (∀ k : String, k ∈ w.store.limiters.keys.toFinset ↔ w.store.limiters.lookup k ≠ none) ∧
      (getStatsCall w).1 = w ∧
      (∀ k : String,
        (getStatsCall w).1.store.limiters.lookup k = w.store.limiters.lookup k ∧
          bucketOf (getStatsCall w).1 k = bucketOf w k) := by
  refine ⟨rfl, rfl, ?_, ?_, rfl, fun k => ⟨rfl, rfl⟩⟩
  · rw [List.toFinset_card_of_nodup w.store.limiters.keys_nodup]
    exact getStats_eq_keys_length w
  · intro k
    rw [List.mem_toFinset, ← AList.mem_keys]
    exact mem_limiters_iff_lookup w k

/-- On the sample store, checking the new key `5.6.7.8` leaves both it and the key
`1.2.3.4` tracked, and `1.2.3.4` keeps its entry. -/
theorem entries_destroyed_only_by_sweep_witness :
    "5.6.7.8" ∈ (getLimiter sampleState "5.6.7.8" 1).1.store.limiters ∧
      "1.2.3.4" ∈ (getLimiter sampleState "5.6.7.8" 1).1.store.limiters ∧
      (getLimiter sampleState "5.6.7.8" 1).1.store.limiters.lookup "1.2.3.4" =
        some { limiter := 0, lastSeen := 0 } :=
  ⟨((entries_destroyed_only_by_sweep sampleState "5.6.7.8" 1 1).1 "5.6.7.8").mpr (Or.inl rfl),
    ((entries_destroyed_only_by_sweep sampleState "5.6.7.8" 1 1).1 "1.2.3.4").mpr
      (Or.inr ((mem_limiters_iff_lookup sampleState "1.2.3.4").mpr (by
        show sampleState.store.limiters.lookup "1.2.3.4" ≠ none
        rw [show sampleState.store.limiters.lookup "1.2.3.4" =
          some { limiter := 0, lastSeen := 0 } from rfl]
        exact Option.some_ne_none _))),
    ((entries_destroyed_only_by_sweep sampleState "5.6.7.8" 1 1).2.2.1 "1.2.3.4"
      (by decide)).trans rfl⟩

/-! ## The empty key -/

theorem freshLimiter_Allow_iff (s : ipRateLimitStore) (t : Time) :
    ((freshLimiter s).Allow t).2 = true ↔ 1 ≤ s.burstSize := by
  rw [Limiter.Allow_snd_iff]
  show 1 ≤ min ((s.burstSize : Int) : ℚ) (((s.burstSize : Int) : ℚ) + _ * 0) ↔ _
  rw [mul_zero, add_zero, min_self]
  exact_mod_cast Iff.rfl

/-- C16, as stated, fails: on a new store with the default configuration the first
check with the empty string as key is allowed. -/
theorem empty_key_first_check_allowed :
    (allow (initState defaultRateLimitConfig) "" 0).2 = true := by
  show (RateLimit (initState defaultRateLimitConfig) "" 0 0).2 = true
  rw [RateLimit_of_none (initState defaultRateLimitConfig) "" 0 0 rfl]
  exact (freshLimiter_Allow_iff _ 0).mpr (by decide)

/-- C16, amended: for every state and time, a check with the empty string as key is
handled like a check of any other key. The empty key is tracked as its own key with
its own entry, no other key's entry changes, no fault is raised (the check is a total
function), and the answer is the answer of the empty key's own bucket: the first check
of the empty key is allowed exactly when `burstSize` is at least 1. -/
theorem empty_key_is_an_ordinary_key (w : State) (tSeen tAllow : Time) :
    (RateLimit w "" tSeen tAllow).1.store.limiters.lookup "" =
        some { limiter := (getLimiter w "" tSeen).2, lastSeen := tSeen } ∧
      (∀ k : String, k ≠ "" →
        (RateLimit w "" tSeen tAllow).1.store.limiters.lookup k = w.store.limiters.lookup k) ∧
      (w.store.limiters.lookup "" = none →
        ((RateLimit w "" tSeen tAllow).2 = true ↔ 1 ≤ w.store.burstSize)) ∧
      (∀ b : Limiter, bucketOf w "" = some b →
        (RateLimit w "" tSeen tAllow).2 = (b.Allow tAllow).2) := by
  refine ⟨getLimiter_lookup_self w "" tSeen, fun k h => getLimiter_lookup_ne w k "" tSeen h,
    ?_, ?_⟩
  · intro h
    rw [RateLimit_of_none w "" tSeen tAllow h]
    exact freshLimiter_Allow_iff w.store tAllow
  · intro b hb
    obtain ⟨e, he, hh⟩ := (bucketOf_eq_some_iff w "" b).mp hb
    rw [RateLimit_of_some w "" tSeen tAllow e b he hh]

/-- On a new store with the default configuration the empty key is allowed on its
first check and is then tracked. -/
theorem empty_key_is_an_ordinary_key_witness :
    ((RateLimit (initState defaultRateLimitConfig) "" 0 0).2 = true ↔
        (1 : Int) ≤ (initState defaultRateLimitConfig).store.burstSize) ∧
      (RateLimit (initState defaultRateLimitConfig) "" 0 0).1.store.limiters.lookup "" =
        some { limiter := (getLimiter (initState defaultRateLimitConfig) "" 0).2, lastSeen := 0 } :=
  ⟨(empty_key_is_an_ordinary_key (initState defaultRateLimitConfig) 0 0).2.2.1 rfl,
    (empty_key_is_an_ordinary_key (initState defaultRateLimitConfig) 0 0).1⟩

/-! ## The process-wide store -/

/-- Once the store is built, no call changes the `sync.Once` flag or the four
configuration fields of the store. -/
theorem Globals.step_keeps_config (cfg₁ : RateLimitConfig) (g : Globals) (c : Call)
    (h : g.ipStoreOnce = true ∧ ∃ w, g.ipStore = some w ∧
      w.store.requestsPerMinute = cfg₁.RequestsPerMinute ∧
      w.store.burstSize = cfg₁.BurstSize ∧
      w.store.cleanupInterval = cfg₁.CleanupInterval ∧
      w.store.limiterTTL = cfg₁.LimiterTTL) :
    (g.step c).ipStoreOnce = true ∧ ∃ w, (g.step c).ipStore = some w ∧
      w.store.requestsPerMinute = cfg₁.RequestsPerMinute ∧
      w.store.burstSize = cfg₁.BurstSize ∧
      w.store.cleanupInterval = cfg₁.CleanupInterval ∧
      w.store.limiterTTL = cfg₁.LimiterTTL := by
  obtain ⟨ho, w, hw, h1, h2, h3, h4⟩ := h
  cases c with
  | setup cfg =>
    have : g.step (Call.setup cfg) = g := by
      show ipStoreOnceDo g cfg = g
      unfold ipStoreOnceDo
      rw [if_pos ho]
    rw [this]
    exact ⟨ho, w, hw, h1, h2, h3, h4⟩
  | request cfg ip t₁ t₂ =>
    have : g.step (Call.request cfg ip t₁ t₂) =
        { g with ipStore := some (RateLimit w ip t₁ t₂).1 } := by
      show (match handler cfg g ip t₁ t₂ with
        | some r => r.1
        | none => g) = _
      unfold handler
      rw [hw]
    rw [this]
    have hc := RateLimit_config w ip t₁ t₂
    exact ⟨ho, _, rfl, hc.1.trans h1, hc.2.1.trans h2, hc.2.2.1.trans h3, hc.2.2.2.trans h4⟩

theorem Globals.run_keeps_config (cfg₁ : RateLimitConfig) (cs : List Call) :
    ∀ g : Globals,
      (g.ipStoreOnce = true ∧ ∃ w, g.ipStore = some w ∧
        w.store.requestsPerMinute = cfg₁.RequestsPerMinute ∧
        w.store.burstSize = cfg₁.BurstSize ∧
        w.store.cleanupInterval = cfg₁.CleanupInterval ∧
        w.store.limiterTTL = cfg₁.LimiterTTL) →
      ((cs.foldl Globals.step g).ipStoreOnce = true ∧ ∃ w, (cs.foldl Globals.step g).ipStore = some w ∧
        w.store.requestsPerMinute = cfg₁.RequestsPerMinute ∧
        w.store.burstSize = cfg₁.BurstSize ∧
        w.store.cleanupInterval = cfg₁.CleanupInterval ∧
        w.store.limiterTTL = cfg₁.LimiterTTL) := by
  induction cs with
  | nil => intro g h; exact h
  | cons c cs ih =>
    intro g h
    exact ih (g.step c) (Globals.step_keeps_config cfg₁ g c h)

theorem ipStoreOnceDo_of_done (g : Globals) (cfg : RateLimitConfig) (h : g.ipStoreOnce = true) :
    ipStoreOnceDo g cfg = g := by
  unfold ipStoreOnceDo
  rw [if_pos h]

/-- C20: the process-wide store is initialised once. The first call `RateLimit(cfg₁)`
builds the store from `cfg₁`; after any sequence of later `RateLimit(cfg)` calls and
served requests the store still has the `requestsPerMinute`, `burstSize`,
`cleanupInterval` and `limiterTTL` of `cfg₁`; a later `RateLimit(cfg)` call changes
neither these nor the entry map nor anything else of the state; and the handlers
built by different calls act on the same store in the same way. -/
theorem store_built_from_first_config_only (cfg₁ : RateLimitConfig) (cs : List Call) :
    ipStoreOnceDo startGlobals cfg₁ =
        { ipStore := some (initState cfg₁), ipStoreOnce := true } ∧
      (∀ cfgs : List RateLimitConfig,
        cfgs.foldl ipStoreOnceDo (ipStoreOnceDo startGlobals cfg₁) =
          { ipStore := some (initState cfg₁), ipStoreOnce := true }) ∧
      (∃ w, (cs.foldl Globals.step (ipStoreOnceDo startGlobals cfg₁)).ipStore = some w ∧
        w.store.requestsPerMinute = cfg₁.RequestsPerMinute ∧
        w.store.burstSize = cfg₁.BurstSize ∧
        w.store.cleanupInterval = cfg₁.CleanupInterval ∧
        w.store.limiterTTL = cfg₁.LimiterTTL) ∧
      (∀ cfg : RateLimitConfig,
        ipStoreOnceDo (cs.foldl Globals.step (ipStoreOnceDo startGlobals cfg₁)) cfg =
          cs.foldl Globals.step (ipStoreOnceDo startGlobals cfg₁)) ∧
      (∀ (cfg cfg' : RateLimitConfig) (g : Globals) (ip : String) (t₁ t₂ : Time),
        handler cfg g ip t₁ t₂ = handler cfg' g ip t₁ t₂) := by
  have h0 : ipStoreOnceDo startGlobals cfg₁ =
      { ipStore := some (initState cfg₁), ipStoreOnce := true } := rfl
  have hinv := Globals.run_keeps_config cfg₁ cs (ipStoreOnceDo startGlobals cfg₁)
    ⟨rfl, initState cfg₁, rfl, rfl, rfl, rfl, rfl⟩
  refine ⟨h0, ?_, hinv.2, fun cfg => ipStoreOnceDo_of_done _ cfg hinv.1, fun _ _ _ _ _ _ => rfl⟩
  intro cfgs
  rw [h0]
  induction cfgs with
  | nil => rfl
  | cons c cfgs ih =>
    rw [List.foldl_cons, ipStoreOnceDo_of_done _ c rfl]
    exact ih

/-! ## Well-formed states -/

theorem WF_initState (cfg : RateLimitConfig) : WF (initState cfg) := by
  constructor
  · intro k e h
    exact absurd h (by simp [initState, newIPRateLimitStore])
  · intro k k' e e' h
    exact absurd h (by simp [initState, newIPRateLimitStore])

theorem getLimiter_snd_of_none (w : State) (k : String) (t : Time)
    (h : w.store.limiters.lookup k = none) : (getLimiter w k t).2 = w.heap.length := by
  rw [getLimiter_of_none w k t h]

theorem getLimiter_snd_of_some (w : State) (k : String) (t : Time) (e : ipLimiterEntry)
    (h : w.store.limiters.lookup k = some e) : (getLimiter w k t).2 = e.limiter := by
  rw [getLimiter_of_some w k t e h]

theorem RateLimit_lookup_self (w : State) (k : String) (t₁ t₂ : Time) :
    (RateLimit w k t₁ t₂).1.store.limiters.lookup k =
      some { limiter := (getLimiter w k t₁).2, lastSeen := t₁ } :=
  getLimiter_lookup_self w k t₁

theorem RateLimit_lookup_ne (w : State) (k k' : String) (t₁ t₂ : Time) (h : k ≠ k') :
    (RateLimit w k' t₁ t₂).1.store.limiters.lookup k = w.store.limiters.lookup k :=
  getLimiter_lookup_ne w k k' t₁ h

theorem allowAt_length (heap : List Limiter) (p : Nat) (t : Time) :
    (allowAt heap p t).1.length = heap.length := by
  unfold allowAt
  cases h : heap[p]? with
  | none => rfl
  | some b => simp

theorem RateLimit_heap_length (w : State) (k : String) (t₁ t₂ : Time) :
    (RateLimit w k t₁ t₂).1.heap.length = (getLimiter w k t₁).1.heap.length := by
  show (allowAt (getLimiter w k t₁).1.heap (getLimiter w k t₁).2 t₂).1.length = _
  exact allowAt_length _ _ _

theorem getLimiter_heap_length_of_none (w : State) (k : String) (t : Time)
    (h : w.store.limiters.lookup k = none) :
    (getLimiter w k t).1.heap.length = w.heap.length + 1 := by
  rw [getLimiter_of_none w k t h]
  simp

theorem getLimiter_heap_of_some (w : State) (k : String) (t : Time) (e : ipLimiterEntry)
    (h : w.store.limiters.lookup k = some e) :
    (getLimiter w k t).1.heap = w.heap := by
  rw [getLimiter_of_some w k t e h]

/-- The address `getLimiter` returns is allocated afterwards, and it is the address of
an entry that was there before only if that entry is the entry of the same key. -/
theorem getLimiter_snd_lt (w : State) (hw : WF w) (k : String) (t : Time) :
    (getLimiter w k t).2 < (getLimiter w k t).1.heap.length := by
  cases h : w.store.limiters.lookup k with
  | none =>
    rw [getLimiter_heap_length_of_none w k t h, getLimiter_snd_of_none w k t h]
    exact Nat.lt_succ_self _
  | some e =>
    rw [getLimiter_heap_of_some w k t e h, getLimiter_snd_of_some w k t e h]
    exact hw.alloc k e h

theorem getLimiter_heap_length_le (w : State) (k : String) (t : Time) :
    w.heap.length ≤ (getLimiter w k t).1.heap.length := by
  cases h : w.store.limiters.lookup k with
  | none => rw [getLimiter_heap_length_of_none w k t h]; exact Nat.le_succ _
  | some e => rw [getLimiter_heap_of_some w k t e h]

theorem getLimiter_snd_ne (w : State) (hw : WF w) (k k' : String) (t : Time) (hne : k' ≠ k)
    (e' : ipLimiterEntry) (he' : w.store.limiters.lookup k' = some e') :
    e'.limiter ≠ (getLimiter w k t).2 := by
  cases h : w.store.limiters.lookup k with
  | none =>
    rw [getLimiter_snd_of_none w k t h]
    exact Nat.ne_of_lt (hw.alloc k' e' he')
  | some e =>
    rw [getLimiter_snd_of_some w k t e h]
    intro heq
    exact hne (hw.inj k' k e' e he' h heq)

theorem WF_RateLimit (w : State) (hw : WF w) (k : String) (t₁ t₂ : Time) :
    WF (RateLimit w k t₁ t₂).1 := by
  constructor
  · intro k' e' h'
    rw [RateLimit_heap_length]
    by_cases hk : k' = k
    · subst hk
      rw [RateLimit_lookup_self] at h'
      rw [← Option.some.inj h']
      exact getLimiter_snd_lt w hw k' t₁
    · rw [RateLimit_lookup_ne w k' k t₁ t₂ hk] at h'
      exact lt_of_lt_of_le (hw.alloc k' e' h') (getLimiter_heap_length_le w k t₁)
  · intro k₁ k₂ e₁ e₂ h₁ h₂ heq
    by_cases hk₁ : k₁ = k
    · by_cases hk₂ : k₂ = k
      · rw [hk₁, hk₂]
      · exfalso
        subst hk₁
        rw [RateLimit_lookup_self] at h₁
        rw [RateLimit_lookup_ne w k₂ k₁ t₁ t₂ hk₂] at h₂
        rw [← Option.some.inj h₁] at heq
        exact getLimiter_snd_ne w hw k₁ k₂ t₁ hk₂ e₂ h₂ heq.symm
    · by_cases hk₂ : k₂ = k
      · exfalso
        subst hk₂
        rw [RateLimit_lookup_self] at h₂
        rw [RateLimit_lookup_ne w k₁ k₂ t₁ t₂ hk₁] at h₁
        rw [← Option.some.inj h₂] at heq
        exact getLimiter_snd_ne w hw k₂ k₁ t₁ hk₁ e₁ h₁ heq
      · rw [RateLimit_lookup_ne w k₁ k t₁ t₂ hk₁] at h₁
        rw [RateLimit_lookup_ne w k₂ k t₁ t₂ hk₂] at h₂
        exact hw.inj k₁ k₂ e₁ e₂ h₁ h₂ heq

theorem WF_cleanup (w : State) (hw : WF w) (now : Time) : WF (cleanup w now) := by
  constructor
  · intro k e h
    exact hw.alloc k e ((lookup_cleanup_iff w now k e).mp h).1
  · intro k k' e e' h h'
    exact hw.inj k k' e e' ((lookup_cleanup_iff w now k e).mp h).1
      ((lookup_cleanup_iff w now k' e').mp h').1

theorem WF_step (w : State) (hw : WF w) (ev : Event) : WF (step w ev) := by
  cases ev with
  | check k t => exact WF_RateLimit w hw k t t
  | sweep t => exact WF_cleanup w hw t

/-- Every state reached from a well-formed state is well-formed. -/
theorem WF_run (es : List Event) : ∀ w : State, WF w → WF (run w es) := by
  induction es with
  | nil => intro w hw; exact hw
  | cons ev es ih =>
    intro w hw
    rw [run_cons]
    exact ih (step w ev) (WF_step w hw ev)

theorem allowAt_getElem?_ne (heap : List Limiter) (p q : Nat) (t : Time) (h : q ≠ p) :
    (allowAt heap p t).1[q]? = heap[q]? := by
  unfold allowAt
  cases hp : heap[p]? with
  | none => rfl
  | some b =>
    show (heap.set p _)[q]? = heap[q]?
    exact List.getElem?_set_ne (Ne.symm h)

theorem getLimiter_heap_getElem? (w : State) (k : String) (t : Time) (q : Nat)
    (hq : q < w.heap.length) : (getLimiter w k t).1.heap[q]? = w.heap[q]? := by
  cases h : w.store.limiters.lookup k with
  | none =>
    rw [getLimiter_of_none w k t h]
    exact List.getElem?_append_left hq
  | some e => rw [getLimiter_heap_of_some w k t e h]

/-- A check of one key leaves the bucket of every other key as it is. -/
theorem bucketOf_RateLimit_ne (w : State) (hw : WF w) (k k' : String) (t₁ t₂ : Time)
    (hne : k ≠ k') : bucketOf (RateLimit w k' t₁ t₂).1 k = bucketOf w k := by
  unfold bucketOf
  rw [RateLimit_lookup_ne w k k' t₁ t₂ hne]
  cases h : w.store.limiters.lookup k with
  | none => rfl
  | some e =>
    show (allowAt (getLimiter w k' t₁).1.heap (getLimiter w k' t₁).2 t₂).1[e.limiter]? = _
    rw [allowAt_getElem?_ne _ _ _ _ (getLimiter_snd_ne w hw k' k t₁ hne e h),
      getLimiter_heap_getElem? w k' t₁ _ (hw.alloc k e h)]

theorem bucketOf_eq_none_iff (w : State) (hw : WF w) (k : String) :
    bucketOf w k = none ↔ w.store.limiters.lookup k = none := by
  unfold bucketOf
  cases h : w.store.limiters.lookup k with
  | none => simp
  | some e =>
    have hlt := hw.alloc k e h
    simp [List.getElem?_eq_getElem hlt]

/-- A check of `k` is answered by the bucket of `k`, or by a new bucket when `k` is not
tracked, and that bucket after the check is the bucket of `k`. -/
theorem RateLimit_bucketOrFresh (w : State) (hw : WF w) (k : String) (t₁ t₂ : Time) :
    (RateLimit w k t₁ t₂).2 = ((bucketOrFresh w k).Allow t₂).2 ∧
      bucketOf (RateLimit w k t₁ t₂).1 k = some ((bucketOrFresh w k).Allow t₂).1 := by
  cases hb : bucketOf w k with
  | none =>
    have hn := (bucketOf_eq_none_iff w hw k).mp hb
    have hf : bucketOrFresh w k = freshLimiter w.store := by
      unfold bucketOrFresh; rw [hb]; rfl
    rw [hf]
    refine ⟨?_, bucketOf_RateLimit_of_none w k t₁ t₂ hn⟩
    rw [RateLimit_of_none w k t₁ t₂ hn]
  | some b =>
    have hf : bucketOrFresh w k = b := by
      unfold bucketOrFresh; rw [hb]; rfl
    rw [hf]
    have h := bucketOf_RateLimit_of_some w k t₁ t₂ b hb
    exact ⟨h.2, h.1⟩

theorem bucketOrFresh_RateLimit_self (w : State) (hw : WF w) (k : String) (t₁ t₂ : Time) :
    bucketOrFresh (RateLimit w k t₁ t₂).1 k = ((bucketOrFresh w k).Allow t₂).1 := by
  unfold bucketOrFresh
  rw [(RateLimit_bucketOrFresh w hw k t₁ t₂).2]
  rfl

theorem freshLimiter_RateLimit (w : State) (k : String) (t₁ t₂ : Time) :
    freshLimiter (RateLimit w k t₁ t₂).1.store = freshLimiter w.store := by
  have h := RateLimit_config w k t₁ t₂
  unfold freshLimiter
  rw [h.1, h.2.1]

theorem bucketOrFresh_RateLimit_ne (w : State) (hw : WF w) (k k' : String) (t₁ t₂ : Time)
    (hne : k ≠ k') : bucketOrFresh (RateLimit w k' t₁ t₂).1 k = bucketOrFresh w k := by
  unfold bucketOrFresh
  rw [bucketOf_RateLimit_ne w hw k k' t₁ t₂ hne, freshLimiter_RateLimit]

theorem bucketOrFresh_cleanup (w : State) (k : String) (now : Time)
    (h : ∀ e, w.store.limiters.lookup k = some e → now - e.lastSeen ≤ w.store.limiterTTL) :
    bucketOrFresh (cleanup w now) k = bucketOrFresh w k := by
  have hl : (cleanup w now).store.limiters.lookup k = w.store.limiters.lookup k := by
    cases hk : w.store.limiters.lookup k with
    | some e => exact (lookup_cleanup_iff w now k e).mpr ⟨hk, h e hk⟩
    | none =>
      cases hc : (cleanup w now).store.limiters.lookup k with
      | none => rfl
      | some e' =>
        have := ((lookup_cleanup_iff w now k e').mp hc).1
        rw [hk] at this
        exact absurd this (by simp)
  show (bucketOf (cleanup w now) k).getD (freshLimiter w.store) = _
  unfold bucketOrFresh bucketOf
  rw [hl]
  rfl

/-! ## Keys do not interfere -/

/-- Along events whose sweeps do not evict `k`, the checks of `k` are answered as its
bucket alone answers them, whatever happens to other keys in between. -/
theorem answersOf_eq_allowAll (k : String) (es : List Event) :
    ∀ w : State, WF w → notEvicted k w es = true →
      answersOf k w es = ((bucketOrFresh w k).allowAll (checkTimes k es)).2 := by
  induction es with
  | nil => intro w _ _; rfl
  | cons ev es ih =>
    intro w hw hne
    cases ev with
    | check k' t =>
      have hne' : notEvicted k (allow w k' t).1 es = true := hne
      have hw' : WF (allow w k' t).1 := WF_RateLimit w hw k' t t
      have hrec := ih (allow w k' t).1 hw' hne'
      by_cases hk : k' = k
      · subst hk
        have h1 : answersOf k' w (Event.check k' t :: es) =
            (allow w k' t).2 :: answersOf k' (allow w k' t).1 es := by
          simp only [answersOf, if_true]
        have h2 : checkTimes k' (Event.check k' t :: es) = t :: checkTimes k' es := by
          simp only [checkTimes, if_true]
        rw [h1, h2, hrec]
        have h3 : bucketOrFresh (allow w k' t).1 k' = ((bucketOrFresh w k').Allow t).1 :=
          bucketOrFresh_RateLimit_self w hw k' t t
        have h4 : (allow w k' t).2 = ((bucketOrFresh w k').Allow t).2 :=
          (RateLimit_bucketOrFresh w hw k' t t).1
        rw [h3, h4]
        rfl
      · have h1 : answersOf k w (Event.check k' t :: es) =
            answersOf k (allow w k' t).1 es := by
          simp only [answersOf, if_neg hk]
        have h2 : checkTimes k (Event.check k' t :: es) = checkTimes k es := by
          simp only [checkTimes, if_neg hk]
        have h3 : bucketOrFresh (allow w k' t).1 k = bucketOrFresh w k :=
          bucketOrFresh_RateLimit_ne w hw k k' t t (Ne.symm hk)
        rw [h1, h2, hrec, h3]
    | sweep t =>
      have hsplit : (match w.store.limiters.lookup k with
            | some e => decide (t - e.lastSeen ≤ w.store.limiterTTL)
            | none => true) = true ∧ notEvicted k (cleanup w t) es = true := by
        have : ((match w.store.limiters.lookup k with
            | some e => decide (t - e.lastSeen ≤ w.store.limiterTTL)
            | none => true) && notEvicted k (cleanup w t) es) = true := hne
        exact Bool.and_eq_true_iff.mp this
      have hfresh : ∀ e, w.store.limiters.lookup k = some e →
          t - e.lastSeen ≤ w.store.limiterTTL := by
        intro e he
        have := hsplit.1
        rw [he] at this
        exact of_decide_eq_true this
      have hrec := ih (cleanup w t) (WF_cleanup w hw t) hsplit.2
      show answersOf k (cleanup w t) es = ((bucketOrFresh w k).allowAll (checkTimes k es)).2
      rw [hrec, bucketOrFresh_cleanup w k t hfresh]

theorem allowAll_bucketOrFresh (k : String) (ts : List Time) :
    ∀ w : State, WF w → (allowAll w k ts).2 = ((bucketOrFresh w k).allowAll ts).2 := by
  induction ts with
  | nil => intro w _; rfl
  | cons t ts ih =>
    intro w hw
    show (allow w k t).2 :: (allowAll (allow w k t).1 k ts).2 = _
    rw [ih (allow w k t).1 (WF_RateLimit w hw k t t),
      show bucketOrFresh (allow w k t).1 k = ((bucketOrFresh w k).Allow t).1 from
        bucketOrFresh_RateLimit_self w hw k t t,
      show (allow w k t).2 = ((bucketOrFresh w k).Allow t).2 from
        (RateLimit_bucketOrFresh w hw k t t).1]
    rfl

/-- Events that are all checks evict nothing. -/
theorem notEvicted_of_checks (k : String) (es : List Event)
    (h : ∀ ev ∈ es, ∃ k' t, ev = Event.check k' t) : ∀ w : State, notEvicted k w es = true := by
  induction es with
  | nil => intro w; rfl
  | cons ev es ih =>
    intro w
    obtain ⟨k', t, rfl⟩ := h ev (List.mem_cons_self _ _)
    exact ih (fun ev' hev' => h ev' (List.mem_cons_of_mem _ hev')) (allow w k' t).1

/-- C14: for every well-formed state (every state the store can reach) and every two
distinct keys `k₁ ≠ k₂`, a check of `k₁` leaves the entry of `k₂` (its `lastSeen` and
its limiter) and the bucket of `k₂` (tokens and refill time) unchanged; so along any
events the answers to the checks of `k₂` are the answers `k₂` gets when its checks are
made alone, as long as no sweep evicts `k₂`, and in particular when the events are
checks only. -/
theorem checks_of_other_keys_do_not_interfere (w : State) (hw : WF w) (k₁ k₂ : String)
    (hne : k₁ ≠ k₂) :
    (∀ t₁ t₂ : Time,
        (RateLimit w k₁ t₁ t₂).1.store.limiters.lookup k₂ = w.store.limiters.lookup k₂ ∧
          bucketOf (RateLimit w k₁ t₁ t₂).1 k₂ = bucketOf w k₂) ∧
      (∀ es : List Event, (∀ ev ∈ es, ∃ k t, ev = Event.check k t) →
        answersOf k₂ w es = (allowAll w k₂ (checkTimes k₂ es)).2) ∧
      (∀ es : List Event, notEvicted k₂ w es = true →
        answersOf k₂ w es = (allowAll w k₂ (checkTimes k₂ es)).2) := by
  refine ⟨fun t₁ t₂ => ⟨RateLimit_lookup_ne w k₂ k₁ t₁ t₂ (Ne.symm hne),
    bucketOf_RateLimit_ne w hw k₂ k₁ t₁ t₂ (Ne.symm hne)⟩, ?_, ?_⟩
  · intro es hes
    rw [answersOf_eq_allowAll k₂ es w hw (notEvicted_of_checks k₂ es hes w),
      allowAll_bucketOrFresh k₂ _ w hw]
  · intro es hes
    rw [answersOf_eq_allowAll k₂ es w hw hes, allowAll_bucketOrFresh k₂ _ w hw]

/-- On a new store, the answers to three checks of `1.2.3.4` interleaved with checks of
`5.6.7.8` are the answers to the three checks made alone. -/
theorem checks_of_other_keys_do_not_interfere_witness :
    answersOf "1.2.3.4" (initState defaultRateLimitConfig)
        [Event.check "1.2.3.4" 0, Event.check "5.6.7.8" 0, Event.check "1.2.3.4" 0,
          Event.check "5.6.7.8" 1, Event.check "1.2.3.4" 1] =
      (allowAll (initState defaultRateLimitConfig) "1.2.3.4" [0, 0, 1]).2 :=
  (checks_of_other_keys_do_not_interfere (initState defaultRateLimitConfig)
    (WF_initState defaultRateLimitConfig) "5.6.7.8" "1.2.3.4" (by decide)).2.2
    [Event.check "1.2.3.4" 0, Event.check "5.6.7.8" 0, Event.check "1.2.3.4" 0,
      Event.check "5.6.7.8" 1, Event.check "1.2.3.4" 1] rfl

/-! ## The long-run rate bound -/

theorem Limiter.elapsed_nonneg (b : Limiter) (s : Time)
    (hlast : ∀ l, b.last = some l → l ≤ s) : 0 ≤ b.elapsed s := by
  unfold Limiter.elapsed
  cases h : b.last with
  | none => exact le_refl 0
  | some l => exact sub_nonneg.mpr (hlast l h)

theorem Limiter.elapsed_le (b : Limiter) (s t : Time) (hst : s ≤ t) :
    b.elapsed t ≤ b.elapsed s + (t - s) := by
  unfold Limiter.elapsed
  cases h : b.last with
  | none =>
    show (0 : ℚ) ≤ 0 + (t - s)
    linarith
  | some l =>
    show t - l ≤ s - l + (t - s)
    linarith

/-- Waiting from `s` to `t` adds at most `limit * (t - s)` tokens. -/
theorem Limiter.refill_le_refill (b : Limiter) (s t : Time) (hst : s ≤ t)
    (hL : 0 ≤ b.limit) : b.refill t ≤ b.refill s + b.limit * (t - s) := by
  have he := b.elapsed_le s t hst
  have h1 : b.limit * b.elapsed t ≤ b.limit * b.elapsed s + b.limit * (t - s) := by
    rw [← mul_add]
    exact mul_le_mul_of_nonneg_left he hL
  have h2 : 0 ≤ b.limit * (t - s) := mul_nonneg hL (sub_nonneg.mpr hst)
  unfold Limiter.refill
  rw [← min_add_add_right]
  apply min_le_min
  · linarith
  · linarith

theorem Limiter.refill_nonneg (b : Limiter) (s : Time) (hL : 0 ≤ b.limit)
    (hC : 0 ≤ (b.burst : ℚ)) (h0 : 0 ≤ b.tokens) (hlast : ∀ l, b.last = some l → l ≤ s) :
    0 ≤ b.refill s := by
  unfold Limiter.refill
  exact le_min hC (add_nonneg h0 (mul_nonneg hL (b.elapsed_nonneg s hlast)))

/-- The number of checks a bucket allows at non-decreasing instants between `s` and `t₂`
is at most the tokens it holds at `s` plus the tokens added until `t₂`. -/
theorem Limiter.allowAll_count_le (t₂ : Time) (ts : List Time) :
    ∀ (b : Limiter) (s : Time), 0 ≤ b.limit → 0 ≤ (b.burst : ℚ) → 0 ≤ b.tokens →
      (∀ l, b.last = some l → l ≤ s) → s ≤ t₂ →
      (∀ t ∈ ts, s ≤ t ∧ t ≤ t₂) → ts.Pairwise (fun a b => a ≤ b) →
      (((b.allowAll ts).2.count true : Nat) : ℚ) ≤ b.refill s + b.limit * (t₂ - s) := by
  induction ts with
  | nil =>
    intro b s hL hC h0 hlast hs _ _
    have h1 := b.refill_nonneg s hL hC h0 hlast
    have h2 : 0 ≤ b.limit * (t₂ - s) := mul_nonneg hL (sub_nonneg.mpr hs)
    show ((0 : Nat) : ℚ) ≤ _
    push_cast
    linarith
  | cons t ts ih =>
    intro b s hL hC h0 hlast hs hin hsorted
    have hst : s ≤ t := (hin t (List.mem_cons_self _ _)).1
    have htt : t ≤ t₂ := (hin t (List.mem_cons_self _ _)).2
    have hsorted' := List.pairwise_cons.mp hsorted
    have hstep := b.refill_le_refill s t hst hL
    by_cases ha : 1 ≤ b.refill t
    · have hA := Limiter.Allow_of_le b t ha
      have hcons : (b.allowAll (t :: ts)).2 =
          true :: (Limiter.allowAll { b with tokens := b.refill t - 1, last := some t } ts).2 := by
        show (b.Allow t).2 :: (Limiter.allowAll (b.Allow t).1 ts).2 = _
        rw [hA]
      have hrec := ih { b with tokens := b.refill t - 1, last := some t } t hL hC
        (by show 0 ≤ b.refill t - 1; linarith)
        (by intro l hl; exact le_of_eq (Option.some.inj hl).symm)
        htt
        (fun t' ht' => ⟨hsorted'.1 t' ht', (hin t' (List.mem_cons_of_mem _ ht')).2⟩)
        hsorted'.2
      have hr : Limiter.refill { b with tokens := b.refill t - 1, last := some t } t
          ≤ b.refill t - 1 := by
        show min (b.burst : ℚ) (b.refill t - 1 + b.limit * (t - t)) ≤ b.refill t - 1
        rw [sub_self, mul_zero, add_zero]
        exact min_le_right _ _
      have hl : Limiter.limit { b with tokens := b.refill t - 1, last := some t } = b.limit := rfl
      rw [hl] at hrec
      rw [hcons, List.count_cons_self]
      push_cast
      have e : b.limit * (t₂ - s) = b.limit * (t₂ - t) + b.limit * (t - s) := by ring
      linarith
    · have hA := Limiter.Allow_of_lt b t (not_le.mp ha)
      have hcons : (b.allowAll (t :: ts)).2 = false :: (b.allowAll ts).2 := by
        show (b.Allow t).2 :: (Limiter.allowAll (b.Allow t).1 ts).2 = _
        rw [hA]
      have hrec := ih b s hL hC h0 hlast hs
        (fun t' ht' => hin t' (List.mem_cons_of_mem _ ht')) hsorted'.2
      rw [hcons, List.count_cons_of_ne (by decide)]
      exact hrec

theorem WF_sampleState : WF sampleState := by
  have hent : ∀ (k : String) (e : ipLimiterEntry),
      sampleState.store.limiters.lookup k = some e → k = "1.2.3.4" ∧ e.limiter = 0 := by
    intro k e h
    have hm : (⟨k, e⟩ : Σ _ : String, ipLimiterEntry) ∈ sampleState.store.limiters.entries :=
      AList.mem_lookup_iff.mp h
    have hs : (⟨k, e⟩ : Σ _ : String, ipLimiterEntry) =
        ⟨"1.2.3.4", { limiter := 0, lastSeen := 0 }⟩ := List.mem_singleton.mp hm
    cases hs
    exact ⟨rfl, rfl⟩
  constructor
  · intro k e h
    rw [(hent k e h).2]
    exact Nat.zero_lt_one
  · intro k k' e e' h h' _
    rw [(hent k e h).1, (hent k' e' h').1]

theorem Tuned_initState (cfg : RateLimitConfig) : Tuned (initState cfg) := by
  intro b hb
  exact absurd hb (List.not_mem_nil b)

theorem Limiter.Allow_tokens_nonneg (b : Limiter) (t : Time) (h : 0 ≤ b.tokens) :
    0 ≤ (b.Allow t).1.tokens := by
  by_cases ha : 1 ≤ b.refill t
  · rw [Limiter.Allow_of_le b t ha]
    show 0 ≤ b.refill t - 1
    linarith
  · rw [Limiter.Allow_of_lt b t (not_le.mp ha)]
    exact h

theorem Tuned_RateLimit (w : State) (hw : Tuned w) (k : String) (t₁ t₂ : Time) :
    Tuned (RateLimit w k t₁ t₂).1 := by
  have hcfg := RateLimit_config w k t₁ t₂
  have hg : ∀ b ∈ (getLimiter w k t₁).1.heap,
      b.limit = float64 (float64 (w.store.requestsPerMinute : ℚ) / 60) ∧
        b.burst = w.store.burstSize ∧ (0 ≤ w.store.burstSize → 0 ≤ b.tokens) := by
    intro b hb
    cases h : w.store.limiters.lookup k with
    | none =>
      rw [getLimiter_of_none w k t₁ h] at hb
      rcases List.mem_append.mp hb with h1 | h1
      · exact hw b h1
      · rw [List.mem_singleton.mp h1]
        refine ⟨rfl, rfl, ?_⟩
        intro hC
        show (0 : ℚ) ≤ ((w.store.burstSize : Int) : ℚ)
        exact_mod_cast hC
    | some e =>
      rw [getLimiter_heap_of_some w k t₁ e h] at hb
      exact hw b hb
  intro b hb
  rw [hcfg.1, hcfg.2.1]
  have hb' : b ∈ (allowAt (getLimiter w k t₁).1.heap (getLimiter w k t₁).2 t₂).1 := hb
  unfold allowAt at hb'
  cases hp : (getLimiter w k t₁).1.heap[(getLimiter w k t₁).2]? with
  | none =>
    rw [hp] at hb'
    exact hg b hb'
  | some lim =>
    rw [hp] at hb'
    rcases List.mem_or_eq_of_mem_set hb' with h1 | h1
    · exact hg b h1
    · have hl := hg lim (List.getElem?_mem hp)
      rw [h1, Limiter.Allow_limit, Limiter.Allow_burst]
      exact ⟨hl.1, hl.2.1, fun hC => Limiter.Allow_tokens_nonneg lim t₂ (hl.2.2 hC)⟩

theorem Tuned_cleanup (w : State) (hw : Tuned w) (now : Time) : Tuned (cleanup w now) :=
  fun b hb => hw b hb

theorem Tuned_step (w : State) (hw : Tuned w) (ev : Event) : Tuned (step w ev) := by
  cases ev with
  | check k t => exact Tuned_RateLimit w hw k t t
  | sweep t => exact Tuned_cleanup w hw t

/-- Every state reached from a state with tuned buckets has tuned buckets. -/
theorem Tuned_run (es : List Event) : ∀ w : State, Tuned w → Tuned (run w es) := by
  induction es with
  | nil => intro w hw; exact hw
  | cons ev es ih =>
    intro w hw
    rw [run_cons]
    exact ih (step w ev) (Tuned_step w hw ev)

theorem Tuned_sampleState : Tuned sampleState := by
  intro b hb
  have hb' : b = { limit := 1 / 2, burst := 5, tokens := 4, last := some 0 } :=
    List.mem_singleton.mp hb
  rw [hb']
  refine ⟨?_, rfl, fun _ => ?_⟩
  · show (1 / 2 : ℚ) = float64 (float64 ((30 : Int) : ℚ) / 60)
    exact rate_of_thirty.symm
  · show (0 : ℚ) ≤ 4
    norm_num

theorem mem_heap_of_bucketOf (w : State) (k : String) (b : Limiter)
    (h : bucketOf w k = some b) : b ∈ w.heap := by
  obtain ⟨e, _, hb⟩ := (bucketOf_eq_some_iff w k b).mp h
  exact List.getElem?_mem hb

/-- The rate of line 80 is at most `P / 60` and its `2 ^ 51`-th part. -/
theorem rate_le (P : Int) (hP : 0 ≤ P) :
    float64 (float64 (P : ℚ) / 60) ≤ (P : ℚ) / 60 * (1 + 1 / 2 ^ 51) := by
  rcases eq_or_lt_of_le hP with h | h
  · rw [← h]
    simp [float64_zero]
  · have := (abs_le.mp (rate_error P h)).2
    have e : (P : ℚ) / 60 * (1 + 1 / 2 ^ 51) = (P : ℚ) / 60 + (P : ℚ) / 60 / 2 ^ 51 := by ring
    rw [e]
    linarith

/-- C19, as stated, fails: with 7 requests per minute and burst 1 the rate in use is
the `float64` above `7 / 60`, so a new key checked at instant 0 and again one token
later, after `2 ^ 55 / 4203359652212463` seconds, is allowed twice, which is more than
`C + (P / 60) * (t₂ - t₁)` for this window. -/
theorem two_checks_allowed_above_the_exact_bound :
    (answersOf "1.2.3.4" (initState sevenPerMinuteConfig)
        [Event.check "1.2.3.4" 0,
          Event.check "1.2.3.4" (36028797018963968 / 4203359652212463)]) = [true, true] ∧
      ¬ ((([true, true].count true : Nat) : ℚ) ≤
        (((initState sevenPerMinuteConfig).store.burstSize : Int) : ℚ) +
          (((initState sevenPerMinuteConfig).store.requestsPerMinute : Int) : ℚ) / 60 *
            (36028797018963968 / 4203359652212463 - 0)) := by
  refine ⟨by decide!, ?_⟩
  show ¬ ((([true, true].count true : Nat) : ℚ) ≤
    ((1 : Int) : ℚ) + ((7 : Int) : ℚ) / 60 * (36028797018963968 / 4203359652212463 - 0))
  have hc : [true, true].count true = 2 := by decide
  rw [hc]
  norm_num

/-- C19, amended: for every key `k` and every state the store can reach (well-formed,
buckets tuned to the configuration) with `burstSize = C ≥ 0` and
`requestsPerMinute = P ≥ 0`, and every window `[t₁, t₂]` that starts no earlier than the
last refill of the bucket of `k`: along any events in which no sweep evicts `k` and the
checks of `k` come at non-decreasing instants within the window, the number of allowed
checks of `k` is at most `C + R * (t₂ - t₁)` with `R` the rate in use, the `float64`
value `float64(P) / 60.0`, hence at most `C + (P / 60) * (1 + 2 ^ (-51)) * (t₂ - t₁)`. -/
theorem allowed_checks_bounded_by_burst_plus_rate (w : State) (hw : WF w) (ht : Tuned w)
    (k : String) (t₁ t₂ : Time) (es : List Event)
    (hC : 0 ≤ w.store.burstSize) (hP : 0 ≤ w.store.requestsPerMinute)
    (hlast : ∀ b l, bucketOf w k = some b → b.last = some l → l ≤ t₁)
    (hkeep : notEvicted k w es = true)
    (h12 : t₁ ≤ t₂)
    (hin : ∀ t ∈ checkTimes k es, t₁ ≤ t ∧ t ≤ t₂)
    (hsorted : (checkTimes k es).Pairwise (fun a b => a ≤ b)) :
    (((answersOf k w es).count true : Nat) : ℚ) ≤
        (w.store.burstSize : ℚ) +
          float64 (float64 (w.store.requestsPerMinute : ℚ) / 60) * (t₂ - t₁) ∧
      (((answersOf k w es).count true : Nat) : ℚ) ≤
        (w.store.burstSize : ℚ) +
          (w.store.requestsPerMinute : ℚ) / 60 * (1 + 1 / 2 ^ 51) * (t₂ - t₁) := by
  have hR : (0 : ℚ) ≤ float64 (float64 (w.store.requestsPerMinute : ℚ) / 60) :=
    rate_nonneg _ hP
  have hCq : (0 : ℚ) ≤ (w.store.burstSize : ℚ) := by exact_mod_cast hC
  have hprop : (bucketOrFresh w k).limit =
        float64 (float64 (w.store.requestsPerMinute : ℚ) / 60) ∧
      (bucketOrFresh w k).burst = w.store.burstSize ∧ 0 ≤ (bucketOrFresh w k).tokens ∧
      ∀ l, (bucketOrFresh w k).last = some l → l ≤ t₁ := by
    cases hbk : bucketOf w k with
    | none =>
      have hf : bucketOrFresh w k = freshLimiter w.store := by
        unfold bucketOrFresh; rw [hbk]; rfl
      rw [hf]
      refine ⟨rfl, rfl, hCq, ?_⟩
      intro l hl
      exact absurd hl (by simp [freshLimiter, NewLimiter])
    | some b =>
      have hf : bucketOrFresh w k = b := by
        unfold bucketOrFresh; rw [hbk]; rfl
      rw [hf]
      have hb := ht b (mem_heap_of_bucketOf w k b hbk)
      exact ⟨hb.1, hb.2.1, hb.2.2 hC, fun l hl => hlast b l hbk hl⟩
  obtain ⟨h1, h2, h3, h4⟩ := hprop
  rw [answersOf_eq_allowAll k es w hw hkeep]
  have hbound := Limiter.allowAll_count_le t₂ (checkTimes k es) (bucketOrFresh w k) t₁
    (by rw [h1]; exact hR) (by rw [h2]; exact hCq) h3 h4 h12 hin hsorted
  have hle := (bucketOrFresh w k).refill_le_burst t₁
  rw [h1] at hbound
  rw [h2] at hle
  have hfirst : ((((bucketOrFresh w k).allowAll (checkTimes k es)).2.count true : Nat) : ℚ) ≤
      (w.store.burstSize : ℚ) +
        float64 (float64 (w.store.requestsPerMinute : ℚ) / 60) * (t₂ - t₁) := by
    linarith
  refine ⟨hfirst, le_trans hfirst ?_⟩
  have hrl := rate_le _ hP
  have hdt : 0 ≤ t₂ - t₁ := sub_nonneg.mpr h12
  have := mul_le_mul_of_nonneg_right hrl hdt
  linarith

/-- On the sample store (30 per minute, burst 5, key `1.2.3.4` last checked at 0), the
checks of `1.2.3.4` at 1 s, 2 s and 300 s, with a check of another key and a sweep at
300 s in between, allow at most `5 + (1 / 2) * (300 - 1)` requests, one half being
the rate in use. -/
theorem allowed_checks_bounded_by_burst_plus_rate_witness :
    (((answersOf "1.2.3.4" sampleState
        [Event.check "1.2.3.4" 1, Event.check "5.6.7.8" 1, Event.check "1.2.3.4" 2,
          Event.sweep 300, Event.check "1.2.3.4" 300]).count true : Nat) : ℚ) ≤
      (sampleState.store.burstSize : ℚ) +
        float64 (float64 (sampleState.store.requestsPerMinute : ℚ) / 60) * (300 - 1) := by
  refine (allowed_checks_bounded_by_burst_plus_rate sampleState WF_sampleState
    Tuned_sampleState "1.2.3.4" 1 300
    [Event.check "1.2.3.4" 1, Event.check "5.6.7.8" 1, Event.check "1.2.3.4" 2,
      Event.sweep 300, Event.check "1.2.3.4" 300]
    (by decide) (by decide) ?_ (by decide!) (by norm_num) ?_ ?_).1
  · intro b l hb hl
    have hb' : bucketOf sampleState "1.2.3.4" =
        some { limit := 1 / 2, burst := 5, tokens := 4, last := some 0 } := rfl
    rw [hb'] at hb
    rw [← Option.some.inj hb] at hl
    have : (0 : ℚ) = l := Option.some.inj hl
    rw [← this]
    norm_num
  · intro t ht
    have hts : checkTimes "1.2.3.4"
        [Event.check "1.2.3.4" 1, Event.check "5.6.7.8" 1, Event.check "1.2.3.4" 2,
          Event.sweep 300, Event.check "1.2.3.4" 300] = [1, 2, 300] := rfl
    rw [hts] at ht
    simp only [List.mem_cons, List.mem_singleton, List.not_mem_nil, or_false] at ht
    rcases ht with rfl | rfl | rfl <;> norm_num
  · have hts : checkTimes "1.2.3.4"
        [Event.check "1.2.3.4" 1, Event.check "5.6.7.8" 1, Event.check "1.2.3.4" 2,
          Event.sweep 300, Event.check "1.2.3.4" 300] = [1, 2, 300] := rfl
    rw [hts]
    simp only [List.pairwise_cons, List.mem_cons, List.mem_singleton, List.not_mem_nil,
      forall_eq_or_imp, forall_eq, IsEmpty.forall_iff, implies_true, and_true,
      List.Pairwise.nil]
    norm_num

/-! ## Concurrent first checks of one key -/

theorem countP_set_of_getElem? {α : Type} (p : α → Bool) (x y : α) :
    ∀ (l : List α) (i : Nat), l[i]? = some y →
      (l.set i x).countP p + (if p y then 1 else 0) = l.countP p + (if p x then 1 else 0) := by
  intro l
  induction l with
  | nil => intro i h; simp at h
  | cons a l ih =>
    intro i h
    cases i with
    | zero =>
      have ha : a = y := by simpa using h
      subst ha
      simp only [List.set_cons_zero, List.countP_cons]
      omega
    | succ i =>
      have h' : l[i]? = some y := by simpa using h
      have := ih i h'
      simp only [List.set_cons_succ, List.countP_cons]
      omega

theorem withBucket_lookup (w₀ : State) (k : String) (t : Time) (b : Limiter) :
    (withBucket w₀ k t b).store.limiters.lookup k =
      some { limiter := w₀.heap.length, lastSeen := t } :=
  AList.lookup_insert _

theorem withBucket_lookup_ne (w₀ : State) (k k' : String) (t : Time) (b : Limiter)
    (h : k' ≠ k) :
    (withBucket w₀ k t b).store.limiters.lookup k' = w₀.store.limiters.lookup k' :=
  AList.lookup_insert_ne h

theorem refresh_withBucket (w₀ : State) (k : String) (t t' : Time) (b : Limiter) :
    refresh (withBucket w₀ k t b) k w₀.heap.length t' = withBucket w₀ k t' b := by
  unfold refresh
  rw [withBucket_lookup]
  simp only [if_true]
  unfold withBucket
  simp only [AList.insert_insert]

theorem getLimiterLocked_withBucket (w₀ : State) (k : String) (t t' : Time) (b : Limiter) :
    getLimiterLocked (withBucket w₀ k t b) k t' = (withBucket w₀ k t' b, w₀.heap.length) := by
  unfold getLimiterLocked
  rw [withBucket_lookup]
  unfold withBucket
  simp only [AList.insert_insert]

theorem allowAt_withBucket (w₀ : State) (k : String) (t t' : Time) (b : Limiter) :
    allowAt (withBucket w₀ k t b).heap w₀.heap.length t' =
      (w₀.heap ++ [(b.Allow t').1], (b.Allow t').2) := by
  unfold allowAt
  show (match (w₀.heap ++ [b])[w₀.heap.length]? with
    | some lim => ((w₀.heap ++ [b]).set w₀.heap.length (lim.Allow t').1, (lim.Allow t').2)
    | none => (w₀.heap ++ [b], false)) = _
  rw [List.getElem?_concat_length]
  show ((w₀.heap ++ [b]).set w₀.heap.length (b.Allow t').1, (b.Allow t').2) = _
  rw [List.set_append_right _ _ (le_refl _)]
  simp

theorem allowedCount_set (pcs : List Pc) (i : Nat) (pc pc' : Pc) (h : pcs[i]? = some pc) :
    allowedCount (pcs.set i pc') + (if pc.isAllowed then 1 else 0) =
      allowedCount pcs + (if pc'.isAllowed then 1 else 0) :=
  countP_set_of_getElem? Pc.isAllowed pc' pc pcs i h

theorem allowedCount_set_same (pcs : List Pc) (i : Nat) (pc pc' : Pc) (h : pcs[i]? = some pc)
    (hp : pc.isAllowed = false) (hp' : pc'.isAllowed = false) :
    allowedCount (pcs.set i pc') = allowedCount pcs := by
  have := allowedCount_set pcs i pc pc' h
  rw [hp, hp'] at this
  simpa using this

theorem mem_of_getElem?_eq_some {α : Type} (l : List α) (i : Nat) (a : α) (h : l[i]? = some a) :
    a ∈ l := by
  obtain ⟨hlt, heq⟩ := List.getElem?_eq_some.mp h
  rw [← heq]
  exact List.getElem_mem hlt

/-- A step that changes neither the store nor the count of allowed requests keeps the
invariant once the entry exists. -/
theorem FirstChecksInv_quiet (w₀ : State) (k : String) (t : Time) (pcs : List Pc) (i : Nat)
    (pc pc' : Pc) (b : Limiter) (hpc : pcs[i]? = some pc)
    (hp : pc.isAllowed = false) (hp' : pc'.isAllowed = false)
    (hform' : pc' = Pc.start ∨ pc' = Pc.missing ∨ pc' = Pc.found w₀.heap.length ∨
      pc' = Pc.returned w₀.heap.length ∨ ∃ a, pc' = Pc.done w₀.heap.length a)
    (hburst : b.burst = w₀.store.burstSize) (hel : b.elapsed t = 0)
    (htok : b.tokens + (allowedCount pcs : ℚ) = (w₀.store.burstSize : ℚ))
    (hnn : allowedCount pcs = 0 ∨ 0 ≤ b.tokens)
    (hpcs : ∀ q ∈ pcs, q = Pc.start ∨ q = Pc.missing ∨ q = Pc.found w₀.heap.length ∨
      q = Pc.returned w₀.heap.length ∨ ∃ a, q = Pc.done w₀.heap.length a) :
    FirstChecksInv w₀ k t { w := withBucket w₀ k t b, pcs := pcs.set i pc' } := by
  have hc := allowedCount_set_same pcs i pc pc' hpc hp hp'
  refine Or.inr ⟨b, rfl, hburst, hel, ?_, ?_, ?_⟩
  · show b.tokens + (allowedCount (pcs.set i pc') : ℚ) = _
    rw [hc]; exact htok
  · show allowedCount (pcs.set i pc') = 0 ∨ _
    rw [hc]; exact hnn
  · intro q hq
    rcases List.mem_or_eq_of_mem_set hq with h | h
    · exact hpcs q h
    · rw [h]; exact hform'

theorem Concurrent.step_go_of_some (k : String) (t : Time) (c : Concurrent) (i : Nat) (pc : Pc)
    (h : c.pcs[i]? = some pc) :
    Concurrent.step k t c (Turn.go i) =
      { w := (goroutineStep c.w k t pc).1, pcs := c.pcs.set i (goroutineStep c.w k t pc).2 } := by
  simp only [Concurrent.step, h]

theorem Concurrent.step_go_of_none (k : String) (t : Time) (c : Concurrent) (i : Nat)
    (h : c.pcs[i]? = none) : Concurrent.step k t c (Turn.go i) = c := by
  simp only [Concurrent.step, h]

/-- The step of a goroutine at `returned` keeps the invariant: the bucket gives a token
exactly when the request is allowed. -/
theorem FirstChecksInv_allow (w₀ : State) (k : String) (t : Time) (pcs : List Pc) (i : Nat)
    (b : Limiter) (hpc : pcs[i]? = some (Pc.returned w₀.heap.length))
    (hburst : b.burst = w₀.store.burstSize) (hel : b.elapsed t = 0)
    (htok : b.tokens + (allowedCount pcs : ℚ) = (w₀.store.burstSize : ℚ))
    (hnn : allowedCount pcs = 0 ∨ 0 ≤ b.tokens)
    (hpcs : ∀ q ∈ pcs, q = Pc.start ∨ q = Pc.missing ∨ q = Pc.found w₀.heap.length ∨
      q = Pc.returned w₀.heap.length ∨ ∃ a, q = Pc.done w₀.heap.length a) :
    FirstChecksInv w₀ k t
      { w := withBucket w₀ k t (b.Allow t).1,
        pcs := pcs.set i (Pc.done w₀.heap.length (b.Allow t).2) } := by
  have hform : ∀ q ∈ pcs.set i (Pc.done w₀.heap.length (b.Allow t).2),
      q = Pc.start ∨ q = Pc.missing ∨ q = Pc.found w₀.heap.length ∨
        q = Pc.returned w₀.heap.length ∨ ∃ a, q = Pc.done w₀.heap.length a := by
    intro q hq
    rcases List.mem_or_eq_of_mem_set hq with h | h
    · exact hpcs q h
    · exact Or.inr (Or.inr (Or.inr (Or.inr ⟨_, h⟩)))
  have hcount : (allowedCount pcs : ℚ) ≥ 0 := Nat.cast_nonneg _
  have hrefill : b.refill t = b.tokens := by
    unfold Limiter.refill
    rw [hel, mul_zero, add_zero, hburst]
    apply min_eq_right
    linarith
  by_cases ha : 1 ≤ b.refill t
  · rw [Limiter.Allow_of_le b t ha]
    have hc := allowedCount_set pcs i (Pc.returned w₀.heap.length)
      (Pc.done w₀.heap.length true) hpc
    have hc' : allowedCount (pcs.set i (Pc.done w₀.heap.length true)) = allowedCount pcs + 1 := by
      simpa [Pc.isAllowed] using hc
    refine Or.inr ⟨_, rfl, hburst, ?_, ?_, ?_, ?_⟩
    · show (t : ℚ) - t = 0
      exact sub_self t
    · show b.refill t - 1 + (allowedCount (pcs.set i (Pc.done w₀.heap.length true)) : ℚ) = _
      rw [hc', hrefill]
      push_cast
      linarith
    · right
      show 0 ≤ b.refill t - 1
      linarith
    · have := hform
      rw [Limiter.Allow_of_le b t ha] at this
      exact this
  · rw [Limiter.Allow_of_lt b t (not_le.mp ha)]
    exact FirstChecksInv_quiet w₀ k t pcs i _ _ b hpc rfl rfl
      (Or.inr (Or.inr (Or.inr (Or.inr ⟨_, rfl⟩)))) hburst hel htok hnn hpcs

theorem getLimiterLocked_of_none (w : State) (k : String) (t : Time)
    (h : w.store.limiters.lookup k = none) :
    getLimiterLocked w k t = (withBucket w k t (freshLimiter w.store), w.heap.length) := by
  rw [getLimiterLocked_eq, getLimiter_of_none w k t h]
  rfl

/-- Every turn of a goroutine keeps the invariant of the first checks. -/
theorem FirstChecksInv_step (w₀ : State) (k : String) (t : Time)
    (hnew : w₀.store.limiters.lookup k = none) (c : Concurrent) (i : Nat)
    (h : FirstChecksInv w₀ k t c) :
    FirstChecksInv w₀ k t (Concurrent.step k t c (Turn.go i)) := by
  cases hpc : c.pcs[i]? with
  | none => rw [Concurrent.step_go_of_none k t c i hpc]; exact h
  | some pc =>
    rw [Concurrent.step_go_of_some k t c i pc hpc]
    have hmem : pc ∈ c.pcs := List.getElem?_mem hpc
    rcases h with ⟨hw, hpcs⟩ | ⟨b, hw, hburst, hel, htok, hnn, hpcs⟩
    · rw [hw]
      rcases hpcs pc hmem with hs | hs
      · subst hs
        have hg : goroutineStep w₀ k t Pc.start = (w₀, Pc.missing) := by
          simp only [goroutineStep, hnew]
        rw [hg]
        refine Or.inl ⟨rfl, ?_⟩
        intro q hq
        rcases List.mem_or_eq_of_mem_set hq with h1 | h1
        · exact hpcs q h1
        · exact Or.inr h1
      · subst hs
        have hg : goroutineStep w₀ k t Pc.missing =
            (withBucket w₀ k t (freshLimiter w₀.store), Pc.returned w₀.heap.length) := by
          simp only [goroutineStep, getLimiterLocked_of_none w₀ k t hnew]
        rw [hg]
        have hform : ∀ q ∈ c.pcs.set i (Pc.returned w₀.heap.length),
            q = Pc.start ∨ q = Pc.missing ∨ q = Pc.found w₀.heap.length ∨
              q = Pc.returned w₀.heap.length ∨ ∃ a, q = Pc.done w₀.heap.length a := by
          intro q hq
          rcases List.mem_or_eq_of_mem_set hq with h1 | h1
          · rcases hpcs q h1 with h2 | h2
            · exact Or.inl h2
            · exact Or.inr (Or.inl h2)
          · exact Or.inr (Or.inr (Or.inr (Or.inl h1)))
        have hzero : allowedCount (c.pcs.set i (Pc.returned w₀.heap.length)) = 0 := by
          unfold allowedCount
          rw [List.countP_eq_zero]
          intro q hq
          rcases List.mem_or_eq_of_mem_set hq with h1 | h1
          · rcases hpcs q h1 with h2 | h2 <;> rw [h2] <;> simp [Pc.isAllowed]
          · rw [h1]; simp [Pc.isAllowed]
        refine Or.inr ⟨freshLimiter w₀.store, rfl, rfl, rfl, ?_, Or.inl hzero, hform⟩
        show ((w₀.store.burstSize : Int) : ℚ) +
          (allowedCount (c.pcs.set i (Pc.returned w₀.heap.length)) : ℚ) = _
        rw [hzero]
        simp
    · rw [hw]
      rcases hpcs pc hmem with hs | hs | hs | hs | ⟨a, hs⟩
      · subst hs
        have hg : goroutineStep (withBucket w₀ k t b) k t Pc.start =
            (withBucket w₀ k t b, Pc.found w₀.heap.length) := by
          simp only [goroutineStep, withBucket_lookup]
        rw [hg]
        exact FirstChecksInv_quiet w₀ k t c.pcs i _ _ b hpc rfl rfl
          (Or.inr (Or.inr (Or.inl rfl))) hburst hel htok hnn hpcs
      · subst hs
        have hg : goroutineStep (withBucket w₀ k t b) k t Pc.missing =
            (withBucket w₀ k t b, Pc.returned w₀.heap.length) := by
          simp only [goroutineStep, getLimiterLocked_withBucket]
        rw [hg]
        exact FirstChecksInv_quiet w₀ k t c.pcs i _ _ b hpc rfl rfl
          (Or.inr (Or.inr (Or.inr (Or.inl rfl)))) hburst hel htok hnn hpcs
      · subst hs
        have hg : goroutineStep (withBucket w₀ k t b) k t (Pc.found w₀.heap.length) =
            (withBucket w₀ k t b, Pc.returned w₀.heap.length) := by
          simp only [goroutineStep, refresh_withBucket]
        rw [hg]
        exact FirstChecksInv_quiet w₀ k t c.pcs i _ _ b hpc rfl rfl
          (Or.inr (Or.inr (Or.inr (Or.inl rfl)))) hburst hel htok hnn hpcs
      · subst hs
        have hg : goroutineStep (withBucket w₀ k t b) k t (Pc.returned w₀.heap.length) =
            (withBucket w₀ k t (b.Allow t).1, Pc.done w₀.heap.length (b.Allow t).2) := by
          simp only [goroutineStep, allowAt_withBucket]
          rfl
        rw [hg]
        exact FirstChecksInv_allow w₀ k t c.pcs i b hpc hburst hel htok hnn hpcs
      · subst hs
        have hg : goroutineStep (withBucket w₀ k t b) k t (Pc.done w₀.heap.length a) =
            (withBucket w₀ k t b, Pc.done w₀.heap.length a) := rfl
        rw [hg]
        have hset : c.pcs.set i (Pc.done w₀.heap.length a) = c.pcs := by
          apply List.ext_getElem?
          intro j
          by_cases hj : i = j
          · subst hj
            rw [hpc]
            have hlt : i < c.pcs.length := (List.getElem?_eq_some.mp hpc).1
            simp [hlt]
          · rw [List.getElem?_set_ne hj]
        rw [hset]
        exact Or.inr ⟨b, rfl, hburst, hel, htok, hnn, hpcs⟩

theorem FirstChecksInv_run (w₀ : State) (k : String) (t : Time)
    (hnew : w₀.store.limiters.lookup k = none) (sched : List Nat) :
    ∀ c : Concurrent, FirstChecksInv w₀ k t c →
      FirstChecksInv w₀ k t (Concurrent.run k t c (sched.map Turn.go)) := by
  induction sched with
  | nil => intro c h; exact h
  | cons i sched ih =>
    intro c h
    exact ih _ (FirstChecksInv_step w₀ k t hnew c i h)

theorem forall_mem_set {α : Type} (P : α → Prop) (l : List α) (i : Nat) (x : α)
    (hl : ∀ q ∈ l, P q) (hx : P x) : ∀ q ∈ l.set i x, P q := by
  intro q hq
  rcases List.mem_or_eq_of_mem_set hq with h | h
  · exact hl q h
  · rw [h]; exact hx

/-- Every turn of a goroutine, whatever instant it reads, keeps the one entry. -/
theorem OneEntryInv_step (w₀ : State) (k : String)
    (hnew : w₀.store.limiters.lookup k = none) (c : Concurrent) (turn : Nat × Time)
    (h : OneEntryInv w₀ k c) : OneEntryInv w₀ k (Concurrent.goAt k c turn) := by
  obtain ⟨i, t⟩ := turn
  show OneEntryInv w₀ k (Concurrent.step k t c (Turn.go i))
  cases hpc : c.pcs[i]? with
  | none => rw [Concurrent.step_go_of_none k t c i hpc]; exact h
  | some pc =>
    rw [Concurrent.step_go_of_some k t c i pc hpc]
    have hmem : pc ∈ c.pcs := List.getElem?_mem hpc
    rcases h with ⟨hw, hpcs⟩ | ⟨b, ts, hw, hpcs⟩
    · rw [hw]
      rcases hpcs pc hmem with hs | hs
      · subst hs
        have hg : goroutineStep w₀ k t Pc.start = (w₀, Pc.missing) := by
          simp only [goroutineStep, hnew]
        rw [hg]
        exact Or.inl ⟨rfl, forall_mem_set _ c.pcs i _ hpcs (Or.inr rfl)⟩
      · subst hs
        have hg : goroutineStep w₀ k t Pc.missing =
            (withBucket w₀ k t (freshLimiter w₀.store), Pc.returned w₀.heap.length) := by
          simp only [goroutineStep, getLimiterLocked_of_none w₀ k t hnew]
        rw [hg]
        refine Or.inr ⟨freshLimiter w₀.store, t, rfl, forall_mem_set _ c.pcs i _ ?_
          (Or.inr (Or.inr (Or.inr (Or.inl rfl))))⟩
        intro q hq
        rcases hpcs q hq with h2 | h2
        · exact Or.inl h2
        · exact Or.inr (Or.inl h2)
    · rw [hw]
      rcases hpcs pc hmem with hs | hs | hs | hs | ⟨a, hs⟩
      · subst hs
        have hg : goroutineStep (withBucket w₀ k ts b) k t Pc.start =
            (withBucket w₀ k ts b, Pc.found w₀.heap.length) := by
          simp only [goroutineStep, withBucket_lookup]
        rw [hg]
        exact Or.inr ⟨b, ts, rfl, forall_mem_set _ c.pcs i _ hpcs (Or.inr (Or.inr (Or.inl rfl)))⟩
      · subst hs
        have hg : goroutineStep (withBucket w₀ k ts b) k t Pc.missing =
            (withBucket w₀ k t b, Pc.returned w₀.heap.length) := by
          simp only [goroutineStep, getLimiterLocked_withBucket]
        rw [hg]
        exact Or.inr ⟨b, t, rfl,
          forall_mem_set _ c.pcs i _ hpcs (Or.inr (Or.inr (Or.inr (Or.inl rfl))))⟩
      · subst hs
        have hg : goroutineStep (withBucket w₀ k ts b) k t (Pc.found w₀.heap.length) =
            (withBucket w₀ k t b, Pc.returned w₀.heap.length) := by
          simp only [goroutineStep, refresh_withBucket]
        rw [hg]
        exact Or.inr ⟨b, t, rfl,
          forall_mem_set _ c.pcs i _ hpcs (Or.inr (Or.inr (Or.inr (Or.inl rfl))))⟩
      · subst hs
        have hg : goroutineStep (withBucket w₀ k ts b) k t (Pc.returned w₀.heap.length) =
            (withBucket w₀ k ts (b.Allow t).1, Pc.done w₀.heap.length (b.Allow t).2) := by
          simp only [goroutineStep, allowAt_withBucket]
          rfl
        rw [hg]
        exact Or.inr ⟨(b.Allow t).1, ts, rfl,
          forall_mem_set _ c.pcs i _ hpcs (Or.inr (Or.inr (Or.inr (Or.inr ⟨_, rfl⟩))))⟩
      · subst hs
        have hg : goroutineStep (withBucket w₀ k ts b) k t (Pc.done w₀.heap.length a) =
            (withBucket w₀ k ts b, Pc.done w₀.heap.length a) := rfl
        rw [hg]
        exact Or.inr ⟨b, ts, rfl,
          forall_mem_set _ c.pcs i _ hpcs (Or.inr (Or.inr (Or.inr (Or.inr ⟨_, rfl⟩))))⟩

theorem OneEntryInv_foldl (w₀ : State) (k : String)
    (hnew : w₀.store.limiters.lookup k = none) (sched : List (Nat × Time)) :
    ∀ c : Concurrent, OneEntryInv w₀ k c →
      OneEntryInv w₀ k (sched.foldl (Concurrent.goAt k) c) := by
  induction sched with
  | nil => intro c h; exact h
  | cons u sched ih =>
    intro c h
    exact ih _ (OneEntryInv_step w₀ k hnew c u h)

theorem OneEntryInv_firstChecks (w₀ : State) (k : String)
    (hnew : w₀.store.limiters.lookup k = none) (n : Nat) (sched : List (Nat × Time)) :
    OneEntryInv w₀ k (firstChecks w₀ k n sched) := by
  apply OneEntryInv_foldl w₀ k hnew sched
  refine Or.inl ⟨rfl, ?_⟩
  intro pc hpc
  exact Or.inl (List.eq_of_mem_replicate hpc)

/-- Turns that all read the instant `t` are an interleaving under the one clock reading
`t`. -/
theorem foldl_goAt_eq_run (k : String) (t : Time) (sched : List (Nat × Time))
    (hsame : ∀ turn ∈ sched, turn.2 = t) :
    ∀ c : Concurrent, sched.foldl (Concurrent.goAt k) c =
      Concurrent.run k t c ((sched.map Prod.fst).map Turn.go) := by
  induction sched with
  | nil => intro c; rfl
  | cons u sched ih =>
    intro c
    have hu : u.2 = t := hsame u (List.mem_cons_self _ _)
    have hstep : Concurrent.goAt k c u = Concurrent.step k t c (Turn.go u.1) := by
      unfold Concurrent.goAt
      rw [hu]
    show sched.foldl (Concurrent.goAt k) (Concurrent.goAt k c u) =
      Concurrent.run k t (Concurrent.step k t c (Turn.go u.1))
        ((sched.map Prod.fst).map Turn.go)
    rw [hstep]
    exact ih (fun v hv => hsame v (List.mem_cons_of_mem _ hv)) _

theorem FirstChecksInv_firstChecks (w₀ : State) (k : String) (t : Time)
    (hnew : w₀.store.limiters.lookup k = none) (n : Nat) (sched : List (Nat × Time))
    (hsame : ∀ turn ∈ sched, turn.2 = t) :
    FirstChecksInv w₀ k t (firstChecks w₀ k n sched) := by
  unfold firstChecks
  rw [foldl_goAt_eq_run k t sched hsame]
  apply FirstChecksInv_run w₀ k t hnew (sched.map Prod.fst)
  refine Or.inl ⟨rfl, ?_⟩
  intro pc hpc
  exact Or.inl (List.eq_of_mem_replicate hpc)

/-- A goroutine that runs alone does what the sequential handler does. -/
theorem goroutine_alone_eq_RateLimit (w : State) (k : String) (t : Time) :
    Concurrent.run k t { w := w, pcs := [Pc.start] } [Turn.go 0, Turn.go 0, Turn.go 0] =
      { w := (RateLimit w k t t).1,
        pcs := [Pc.done (getLimiter w k t).2 (RateLimit w k t t).2] } := by
  cases h : w.store.limiters.lookup k with
  | none =>
    simp only [Concurrent.run, List.foldl_cons, List.foldl_nil, Concurrent.step,
      List.getElem?_cons_zero, goroutineStep, h, List.set_cons_zero, getLimiterLocked_eq,
      RateLimit]
  | some e =>
    have hr : refresh w k e.limiter t = (getLimiter w k t).1 := by
      rw [getLimiter_of_some w k t e h]
      simp only [refresh, h, if_true]
    have hp : (getLimiter w k t).2 = e.limiter := getLimiter_snd_of_some w k t e h
    simp only [Concurrent.run, List.foldl_cons, List.foldl_nil, Concurrent.step,
      List.getElem?_cons_zero, goroutineStep, h, List.set_cons_zero, hr, RateLimit, hp]

theorem getStats_withBucket (w₀ : State) (k : String) (t : Time) (b : Limiter)
    (hnew : w₀.store.limiters.lookup k = none) :
    getStats (withBucket w₀ k t b) = getStats w₀ + 1 := by
  have hk : k ∉ w₀.store.limiters := AList.lookup_eq_none.mp hnew
  show ((w₀.store.limiters.insert k _).entries).length = _
  rw [AList.insert_entries_of_neg hk]
  rfl

theorem Concurrent.step_pcs_length (k : String) (t : Time) (c : Concurrent) (u : Turn) :
    (Concurrent.step k t c u).pcs.length = c.pcs.length := by
  cases u with
  | go i =>
    cases h : c.pcs[i]? with
    | none => rw [Concurrent.step_go_of_none k t c i h]
    | some pc => rw [Concurrent.step_go_of_some k t c i pc h]; simp
  | sweep now => rfl

theorem Concurrent.run_pcs_length (k : String) (t : Time) (turns : List Turn) :
    ∀ c : Concurrent, (Concurrent.run k t c turns).pcs.length = c.pcs.length := by
  induction turns with
  | nil => intro c; rfl
  | cons u turns ih =>
    intro c
    show (Concurrent.run k t (Concurrent.step k t c u) turns).pcs.length = _
    rw [ih, Concurrent.step_pcs_length]

theorem foldl_goAt_pcs_length (k : String) (sched : List (Nat × Time)) :
    ∀ c : Concurrent, (sched.foldl (Concurrent.goAt k) c).pcs.length = c.pcs.length := by
  induction sched with
  | nil => intro c; rfl
  | cons u sched ih =>
    intro c
    show (sched.foldl (Concurrent.goAt k) (Concurrent.goAt k c u)).pcs.length = _
    rw [ih]
    exact Concurrent.step_pcs_length k u.2 c (Turn.go u.1)

theorem firstChecks_pcs_length (w₀ : State) (k : String) (n : Nat)
    (sched : List (Nat × Time)) : (firstChecks w₀ k n sched).pcs.length = n := by
  unfold firstChecks
  rw [foldl_goAt_pcs_length]
  simp

/-- C17, as stated, fails in two ways. With `burstSize = -1` one first check of a new
key runs to its end and is denied, and the number of allowed checks, 0, is not at most
`burstSize`. With `burstSize = 1` and 60 requests per minute, two goroutines check a new
key concurrently: both miss the entry at the lookup, the first creates it, the second
finds it at the locked re-check, the first calls `Allow` at instant 0 and the second at
instant 1; they share the one bucket and both are allowed, which is more than
`burstSize`. -/
theorem first_checks_allowed_count_exceeds_burst :
    ((firstChecks (initState negativeBurstConfig) "1.2.3.4" 1
          [(0, 0), (0, 0), (0, 0)]).pcs = [Pc.done 0 false] ∧
      ¬ ((allowedCount (firstChecks (initState negativeBurstConfig) "1.2.3.4" 1
          [(0, 0), (0, 0), (0, 0)]).pcs : Int) ≤
            (initState negativeBurstConfig).store.burstSize)) ∧
    ((firstChecks (initState sixtyPerMinuteConfig) "1.2.3.4" 2
          [(0, 0), (1, 0), (0, 0), (1, 0), (0, 0), (1, 1)]).pcs =
        [Pc.done 0 true, Pc.done 0 true] ∧
      ¬ ((allowedCount (firstChecks (initState sixtyPerMinuteConfig) "1.2.3.4" 2
          [(0, 0), (1, 0), (0, 0), (1, 0), (0, 0), (1, 1)]).pcs : Int) ≤
            (initState sixtyPerMinuteConfig).store.burstSize)) := by
  have h : (firstChecks (initState negativeBurstConfig) "1.2.3.4" 1
      [(0, 0), (0, 0), (0, 0)]).pcs = [Pc.done 0 false] := by decide!
  have h' : (firstChecks (initState sixtyPerMinuteConfig) "1.2.3.4" 2
      [(0, 0), (1, 0), (0, 0), (1, 0), (0, 0), (1, 1)]).pcs =
        [Pc.done 0 true, Pc.done 0 true] := by decide!
  refine ⟨⟨h, ?_⟩, ⟨h', ?_⟩⟩
  · rw [h]
    decide
  · rw [h']
    decide

/-- C17, amended: for every `N ≥ 1` and every interleaving of `N` concurrent first
checks of the same unseen key `k`, whatever instants the goroutines read from the
clock: at most one bucket is allocated, no other key's entry changes, every goroutine
that has got a limiter from `getLimiter` has got the one limiter of the entry of `k`,
and when all `N` goroutines are through, exactly one entry and one bucket have been
created for `k`; when every step reads the same instant `t`, the number of checks
allowed is at most `burstSize`, or 0 when `burstSize` is negative. -/
theorem concurrent_first_checks_share_one_bucket (w₀ : State) (k : String)
    (N : Nat) (hN : 1 ≤ N) (hnew : w₀.store.limiters.lookup k = none)
    (sched : List (Nat × Time)) :
    (firstChecks w₀ k N sched).w.heap.length ≤ w₀.heap.length + 1 ∧
      (∀ k' : String, k' ≠ k →
        (firstChecks w₀ k N sched).w.store.limiters.lookup k' =
          w₀.store.limiters.lookup k') ∧
      (∀ pc ∈ (firstChecks w₀ k N sched).pcs, ∀ p : Nat,
        (pc = Pc.returned p ∨ ∃ a, pc = Pc.done p a) →
          p = w₀.heap.length ∧
            ∃ ts : Time, (firstChecks w₀ k N sched).w.store.limiters.lookup k =
              some { limiter := w₀.heap.length, lastSeen := ts }) ∧
      ((∀ pc ∈ (firstChecks w₀ k N sched).pcs, pc.isDone = true) →
        (∃ ts : Time, (firstChecks w₀ k N sched).w.store.limiters.lookup k =
            some { limiter := w₀.heap.length, lastSeen := ts }) ∧
          getStats (firstChecks w₀ k N sched).w = getStats w₀ + 1 ∧
          (firstChecks w₀ k N sched).w.heap.length = w₀.heap.length + 1) ∧
      (∀ t : Time, (∀ turn ∈ sched, turn.2 = t) →
        allowedCount (firstChecks w₀ k N sched).pcs ≤ w₀.store.burstSize.toNat) := by
  have hlen := firstChecks_pcs_length w₀ k N sched
  have hbound : ∀ t : Time, (∀ turn ∈ sched, turn.2 = t) →
      allowedCount (firstChecks w₀ k N sched).pcs ≤ w₀.store.burstSize.toNat := by
    intro t hsame
    rcases FirstChecksInv_firstChecks w₀ k t hnew N sched hsame with
      ⟨_, hpcs⟩ | ⟨b, _, _, _, htok, hnn, _⟩
    · have hzero : allowedCount (firstChecks w₀ k N sched).pcs = 0 := by
        unfold allowedCount
        rw [List.countP_eq_zero]
        intro q hq
        rcases hpcs q hq with h2 | h2 <;> rw [h2] <;> simp [Pc.isAllowed]
      rw [hzero]; exact Nat.zero_le _
    · rcases hnn with h0 | h0
      · rw [h0]; exact Nat.zero_le _
      · have h1 : (allowedCount (firstChecks w₀ k N sched).pcs : ℚ) ≤
            ((w₀.store.burstSize : Int) : ℚ) := by linarith
        have h2 : ((allowedCount (firstChecks w₀ k N sched).pcs : Nat) : Int) ≤
            w₀.store.burstSize := by exact_mod_cast h1
        omega
  rcases OneEntryInv_firstChecks w₀ k hnew N sched with ⟨hw, hpcs⟩ | ⟨b, ts, hw, hpcs⟩
  · refine ⟨by rw [hw]; exact Nat.le_succ _, fun k' _ => by rw [hw], ?_, ?_, hbound⟩
    · intro pc hpc p hp
      exfalso
      rcases hpcs pc hpc with h2 | h2 <;> rcases hp with h3 | ⟨a, h3⟩ <;> rw [h2] at h3 <;>
        exact Pc.noConfusion h3
    · intro hdone
      exfalso
      have hpos : 0 < (firstChecks w₀ k N sched).pcs.length := by rw [hlen]; exact hN
      obtain ⟨pc, hpc⟩ := List.exists_mem_of_length_pos hpos
      have hd := hdone pc hpc
      rcases hpcs pc hpc with h2 | h2 <;> rw [h2] at hd <;> exact Bool.noConfusion hd
  · have hlk : ∃ ts : Time, (firstChecks w₀ k N sched).w.store.limiters.lookup k =
        some { limiter := w₀.heap.length, lastSeen := ts } := by
      rw [hw]; exact ⟨ts, withBucket_lookup w₀ k ts b⟩
    have hheap : (firstChecks w₀ k N sched).w.heap.length = w₀.heap.length + 1 := by
      rw [hw]
      show (w₀.heap ++ [b]).length = _
      simp
    refine ⟨le_of_eq hheap,
      fun k' hk' => by rw [hw]; exact withBucket_lookup_ne w₀ k k' ts b hk',
      ?_, fun _ => ⟨hlk, by rw [hw]; exact getStats_withBucket w₀ k ts b hnew, hheap⟩, hbound⟩
    intro pc hpc p hp
    refine ⟨?_, hlk⟩
    rcases hpcs pc hpc with h2 | h2 | h2 | h2 | ⟨a', h2⟩ <;> rcases hp with h3 | ⟨a, h3⟩ <;>
      rw [h2] at h3 <;> first
        | exact Pc.noConfusion h3
        | (injection h3 with h4; exact h4.symm)

/-- Two goroutines check the new key `1.2.3.4` on a new store and take their steps in
turn, at the instants 0, 0, 1, 1, 2 and 3: both miss the entry at the lookup, the first
creates it, the second finds it at the locked re-check; one entry and one bucket exist
at the end. When all six steps read the instant 0, at most `burstSize` of the two
checks are allowed. -/
theorem concurrent_first_checks_share_one_bucket_witness :
    ((∃ ts : Time, (firstChecks (initState defaultRateLimitConfig) "1.2.3.4" 2
        [(0, 0), (1, 0), (0, 1), (1, 1), (0, 2), (1, 3)]).w.store.limiters.lookup "1.2.3.4" =
        some { limiter := (initState defaultRateLimitConfig).heap.length, lastSeen := ts }) ∧
      getStats (firstChecks (initState defaultRateLimitConfig) "1.2.3.4" 2
        [(0, 0), (1, 0), (0, 1), (1, 1), (0, 2), (1, 3)]).w =
          getStats (initState defaultRateLimitConfig) + 1 ∧
      (firstChecks (initState defaultRateLimitConfig) "1.2.3.4" 2
        [(0, 0), (1, 0), (0, 1), (1, 1), (0, 2), (1, 3)]).w.heap.length =
          (initState defaultRateLimitConfig).heap.length + 1) ∧
    allowedCount (firstChecks (initState defaultRateLimitConfig) "1.2.3.4" 2
        [(0, 0), (1, 0), (0, 0), (1, 0), (0, 0), (1, 0)]).pcs ≤
      (initState defaultRateLimitConfig).store.burstSize.toNat :=
  ⟨(concurrent_first_checks_share_one_bucket (initState defaultRateLimitConfig) "1.2.3.4" 2
      (by decide) rfl [(0, 0), (1, 0), (0, 1), (1, 1), (0, 2), (1, 3)]).2.2.2.1 (by decide!),
    (concurrent_first_checks_share_one_bucket (initState defaultRateLimitConfig) "1.2.3.4" 2
      (by decide) rfl [(0, 0), (1, 0), (0, 0), (1, 0), (0, 0), (1, 0)]).2.2.2.2 0
      (by decide!)⟩

/-! ## A sweep between the lookup and the refresh -/

/-- C18 fails on the code. On the sample store the key `1.2.3.4` was last seen at
instant 0 and `limiterTTL` is 900 s. A goroutine checks the key at 901 s and finds the
entry under the read lock (lines 55-57); before it takes the write lock, the sweep runs
at 901 s and deletes the entry; the goroutine then refreshes the deleted entry and
`getLimiter` returns limiter 0, while the map holds no entry and no bucket for the key.
When the goroutine refreshes before the sweep, the entry stays. -/
theorem sweep_evicts_entry_between_lookup_and_refresh :
    (Concurrent.run "1.2.3.4" 901 { w := sampleState, pcs := [Pc.start] }
        [Turn.go 0, Turn.sweep 901, Turn.go 0]).pcs = [Pc.returned 0] ∧
      (Concurrent.run "1.2.3.4" 901 { w := sampleState, pcs := [Pc.start] }
        [Turn.go 0, Turn.sweep 901, Turn.go 0]).w.store.limiters.lookup "1.2.3.4" = none ∧
      bucketOf (Concurrent.run "1.2.3.4" 901 { w := sampleState, pcs := [Pc.start] }
        [Turn.go 0, Turn.sweep 901, Turn.go 0]).w "1.2.3.4" = none ∧
      (Concurrent.run "1.2.3.4" 901 { w := sampleState, pcs := [Pc.start] }
        [Turn.go 0, Turn.go 0, Turn.sweep 901]).w.store.limiters.lookup "1.2.3.4" =
        some { limiter := 0, lastSeen := 901 } := by
  refine ⟨?_, ?_, ?_, ?_⟩ <;> decide!

/-! ## The safe flow -/

theorem safeOutput_of_sanitized (base : WelcomeNoteV3Output) (m : ModerationResult)
    (h₁ : m.SanitizedNote ≠ "") (h₂ : m.SanitizedNote ≠ base.Note) :
    (safeOutput base (some m)).Note = m.SanitizedNote ∧
      (safeOutput base (some m)).OriginalNote = base.Note := by
  by_cases hn : m.ModerationNote ≠ "" <;> simp [safeOutput, h₁, h₂, hn]

theorem safeOutput_of_unchanged (base : WelcomeNoteV3Output) (m : ModerationResult)
    (h : m.SanitizedNote = "" ∨ m.SanitizedNote = base.Note) :
    (safeOutput base (some m)).Note = base.Note ∧
      (safeOutput base (some m)).OriginalNote = "" := by
  have hc : ¬ (m.SanitizedNote ≠ "" ∧ m.SanitizedNote ≠ base.Note) := by
    rintro ⟨h₁, h₂⟩
    rcases h with h | h
    · exact h₁ h
    · exact h₂ h
  simp only [safeOutput, hc, if_false]
  split <;> exact ⟨rfl, rfl⟩

theorem safeOutput_of_nil (base : WelcomeNoteV3Output) :
    (safeOutput base none).Note = base.Note ∧ (safeOutput base none).OriginalNote = "" :=
  ⟨rfl, rfl⟩

theorem safeOutput_Blocked (base : WelcomeNoteV3Output) (m : ModerationResult) :
    (safeOutput base (some m)).Blocked = m.Blocked := by
  by_cases hn : m.ModerationNote ≠ "" <;> simp [safeOutput, hn]

/-- C21: for every base result and every moderation result (nil included), in the safe
flow and in the smart flow: if the moderation result has a non-empty `SanitizedNote`
different from the base note then `Note = SanitizedNote` and `OriginalNote` is the base
note; otherwise `Note` is the base note and `OriginalNote` is empty; so a non-empty
`OriginalNote` occurs only with a sanitized note. The flows return this output whenever
the model calls return without error. -/
theorem originalNote_set_only_if_sanitized (base : WelcomeNoteV3Output)
    (moderated : Option ModerationResult) :
    (∀ m, moderated = some m → m.SanitizedNote ≠ "" → m.SanitizedNote ≠ base.Note →
        (safeOutput base moderated).Note = m.SanitizedNote ∧
          (safeOutput base moderated).OriginalNote = base.Note) ∧
      ((∀ m, moderated = some m → m.SanitizedNote = "" ∨ m.SanitizedNote = base.Note) →
        (safeOutput base moderated).Note = base.Note ∧
          (safeOutput base moderated).OriginalNote = "") ∧
      ((safeOutput base moderated).OriginalNote ≠ "" →
        ∃ m, moderated = some m ∧ m.SanitizedNote ≠ "" ∧ m.SanitizedNote ≠ base.Note ∧
          (safeOutput base moderated).Note = m.SanitizedNote) ∧
      (∀ moderate : String → Except String (Option ModerationResult),
        moderate base.Note = Except.ok moderated →
          RegisterWelcomeNoteFlowSafe (Except.ok base) moderate =
            Except.ok (safeOutput base moderated)) ∧
      (∀ (description : String) (input : WelcomeNoteInput)
        (generate : WelcomeNoteInput → Except String WelcomeNoteV3Output)
        (moderate : String → Except String (Option ModerationResult)),
        generate input = Except.ok base → moderate base.Note = Except.ok moderated →
          RegisterWelcomeNoteFlowSmart description (Except.ok input) generate moderate =
            Except.ok
              { SafeWelcomeNoteOutput := safeOutput base moderated
                RawDescription := description
                ParsedInput := some input }) := by
  refine ⟨?_, ?_, ?_, ?_, ?_⟩
  · intro m hm h₁ h₂
    rw [hm]
    exact safeOutput_of_sanitized base m h₁ h₂
  · intro h
    cases moderated with
    | none => exact safeOutput_of_nil base
    | some m => exact safeOutput_of_unchanged base m (h m rfl)
  · intro h
    cases moderated with
    | none => exact absurd (safeOutput_of_nil base).2 h
    | some m =>
      by_cases hc : m.SanitizedNote = "" ∨ m.SanitizedNote = base.Note
      · exact absurd (safeOutput_of_unchanged base m hc).2 h
      · have h₁ : m.SanitizedNote ≠ "" := fun e => hc (Or.inl e)
        have h₂ : m.SanitizedNote ≠ base.Note := fun e => hc (Or.inr e)
        exact ⟨m, rfl, h₁, h₂, (safeOutput_of_sanitized base m h₁ h₂).1⟩
  · intro moderate hm
    simp only [RegisterWelcomeNoteFlowSafe, hm]
  · intro description input generate moderate hg hm
    simp only [RegisterWelcomeNoteFlowSmart, hg, hm]

/-- The moderation step rewrites the sample note: the output carries the rewritten note
and the sample note as `OriginalNote`. -/
theorem originalNote_set_only_if_sanitized_witness :
    (safeOutput sampleBase
        (some { SanitizedNote := "Welcome!", Blocked := false,
                ModerationNote := "removed insult" })).Note = "Welcome!" ∧
      (safeOutput sampleBase
        (some { SanitizedNote := "Welcome!", Blocked := false,
                ModerationNote := "removed insult" })).OriginalNote =
        "You are not welcome here." :=
  (originalNote_set_only_if_sanitized sampleBase
    (some { SanitizedNote := "Welcome!", Blocked := false,
            ModerationNote := "removed insult" })).1 _ rfl (by decide) (by decide)

/-- C22 fails on the code. The moderation step blocks the sample note and, as its
prompt asks for a fully blocked note, returns an empty `SanitizedNote`: the safe flow
and the smart flow answer `Blocked = true` with the unmoderated base note as `Note`. -/
theorem blocked_output_carries_base_note :
    RegisterWelcomeNoteFlowSafe (Except.ok sampleBase)
        (fun _ => Except.ok (some { SanitizedNote := "", Blocked := true,
                                    ModerationNote := "blocked: insult" })) =
      Except.ok (safeOutput sampleBase
        (some { SanitizedNote := "", Blocked := true, ModerationNote := "blocked: insult" })) ∧
      (safeOutput sampleBase
        (some { SanitizedNote := "", Blocked := true,
                ModerationNote := "blocked: insult" })).Blocked = true ∧
      (safeOutput sampleBase
        (some { SanitizedNote := "", Blocked := true,
                ModerationNote := "blocked: insult" })).Note = sampleBase.Note ∧
      (safeOutput sampleBase
        (some { SanitizedNote := "", Blocked := true,
                ModerationNote := "blocked: insult" })).Note = "You are not welcome here." := by
  refine ⟨rfl, ?_, ?_, ?_⟩ <;> decide

/-! ## Header filtering -/

theorem sensitiveHeaders_lookup (k : String) :
    (sensitiveHeaders.lookup k).getD false = true ↔
      k ∈ ["Authorization", "Cookie", "Set-Cookie", "X-Api-Key", "X-Auth-Token",
        "X-Csrf-Token", "Proxy-Authorization"] := by
  simp only [sensitiveHeaders, List.lookup, List.mem_cons, List.mem_singleton,
    List.not_mem_nil, or_false]
  by_cases h1 : k = "Authorization"
  · simp [h1]
  by_cases h2 : k = "Cookie"
  · simp [h2]
  by_cases h3 : k = "Set-Cookie"
  · simp [h3]
  by_cases h4 : k = "X-Api-Key"
  · simp [h4]
  by_cases h5 : k = "X-Auth-Token"
  · simp [h5]
  by_cases h6 : k = "X-Csrf-Token"
  · simp [h6]
  by_cases h7 : k = "Proxy-Authorization"
  · simp [h7]
  simp only [beq_false_of_ne h1, beq_false_of_ne h2, beq_false_of_ne h3, beq_false_of_ne h4,
    beq_false_of_ne h5, beq_false_of_ne h6, beq_false_of_ne h7, h1, h2, h3, h4, h5, h6, h7,
    or_self]
  simp

theorem filterHeaders_loop_lookup (k : String) (l : List (Σ _ : String, List String)) :
    ∀ (m : AList (fun _ : String => List String)), l.NodupKeys →
      (l.foldl
          (fun filtered x =>
            if (sensitiveHeaders.lookup x.1).getD false then filtered.insert x.1 ["[REDACTED]"]
            else filtered.insert x.1 x.2)
          m).lookup k =
        match List.dlookup k l with
        | some vs =>
          some (if (sensitiveHeaders.lookup k).getD false then ["[REDACTED]"] else vs)
        | none => m.lookup k := by
  induction l with
  | nil => intro m _; rfl
  | cons x l ih =>
    intro m hnd
    have hnd' := List.nodupKeys_cons.mp hnd
    rw [List.foldl_cons, ih _ hnd'.2]
    by_cases hk : k = x.1
    · subst hk
      have hnone : List.dlookup x.1 l = none := List.dlookup_eq_none.mpr hnd'.1
      have hsome : List.dlookup x.1 (x :: l) = some x.2 := by
        cases x with
        | mk a b => exact List.dlookup_cons_eq l a b
      rw [hnone, hsome]
      by_cases hs : (sensitiveHeaders.lookup x.1).getD false = true
      · simp only [hs, if_true]
        exact AList.lookup_insert _
      · simp only [hs, if_false]
        exact AList.lookup_insert _
    · rw [List.dlookup_cons_ne l x hk]
      cases hl : List.dlookup k l with
      | some vs => rfl
      | none =>
        show AList.lookup k _ = AList.lookup k m
        by_cases hs : (sensitiveHeaders.lookup x.1).getD false = true
        · simp only [hs, if_true]
          exact AList.lookup_insert_ne hk
        · simp only [hs, if_false]
          exact AList.lookup_insert_ne hk

theorem filterHeadersIn_lookup (headers : AList (fun _ : String => List String))
    (visited : List (Σ _ : String, List String)) (hp : visited.Perm headers.entries)
    (k : String) :
    (filterHeadersIn visited).lookup k =
      (headers.lookup k).map
        (fun vs => if (sensitiveHeaders.lookup k).getD false then ["[REDACTED]"] else vs) := by
  have hnd : visited.NodupKeys := (List.perm_nodupKeys hp).mpr headers.nodupKeys
  have hd : List.dlookup k visited = headers.lookup k :=
    List.perm_dlookup k hnd headers.nodupKeys hp
  unfold filterHeadersIn
  rw [filterHeaders_loop_lookup k visited ∅ hnd, hd]
  cases headers.lookup k with
  | some vs => rfl
  | none => rfl

/-- C23: for every header map and every order in which `range` visits its entries, the
map returned by `filterHeaders` has exactly the keys of the header map; each of the keys
`Authorization`, `Cookie`, `Set-Cookie`, `X-Api-Key`, `X-Auth-Token`, `X-Csrf-Token`
and `Proxy-Authorization` that is present maps to the single value `[REDACTED]`, and
every other key maps to its original values. The header map is only read: the result is
a new map. -/
theorem filterHeaders_redacts_sensitive_values
    (headers : AList (fun _ : String => List String))
    (visited : List (Σ _ : String, List String)) (hp : visited.Perm headers.entries) :
    (∀ k : String, k ∈ filterHeadersIn visited ↔ k ∈ headers) ∧
      (∀ k : String,
        k ∈ ["Authorization", "Cookie", "Set-Cookie", "X-Api-Key", "X-Auth-Token",
          "X-Csrf-Token", "Proxy-Authorization"] →
        k ∈ headers → (filterHeadersIn visited).lookup k = some ["[REDACTED]"]) ∧
      (∀ k : String,
        k ∉ ["Authorization", "Cookie", "Set-Cookie", "X-Api-Key", "X-Auth-Token",
          "X-Csrf-Token", "Proxy-Authorization"] →
        (filterHeadersIn visited).lookup k = headers.lookup k) := by
  refine ⟨?_, ?_, ?_⟩
  · intro k
    rw [← AList.lookup_isSome, ← AList.lookup_isSome, filterHeadersIn_lookup headers visited hp k]
    cases headers.lookup k <;> simp
  · intro k hk hmem
    rw [filterHeadersIn_lookup headers visited hp k]
    have hs := (sensitiveHeaders_lookup k).mpr hk
    obtain ⟨vs, hvs⟩ := Option.isSome_iff_exists.mp (AList.lookup_isSome.mpr hmem)
    rw [hvs, hs]
    rfl
  · intro k hk
    rw [filterHeadersIn_lookup headers visited hp k]
    have hs : ¬ (sensitiveHeaders.lookup k).getD false = true :=
      fun h => hk ((sensitiveHeaders_lookup k).mp h)
    simp only [hs, if_false]
    cases headers.lookup k <;> rfl

/-- On the sample headers the cookie and the CSRF token are redacted and the `Accept`
header keeps its two values. -/
theorem filterHeaders_redacts_sensitive_values_witness :
    (filterHeaders sampleHeaders).lookup "Cookie" = some ["[REDACTED]"] ∧
      (filterHeaders sampleHeaders).lookup "X-Csrf-Token" = some ["[REDACTED]"] ∧
      (filterHeaders sampleHeaders).lookup "Accept" =
        some ["text/html", "application/json"] :=
  ⟨(filterHeaders_redacts_sensitive_values sampleHeaders sampleHeaders.entries
      (List.Perm.refl _)).2.1 "Cookie" (by decide) (by decide),
    (filterHeaders_redacts_sensitive_values sampleHeaders sampleHeaders.entries
      (List.Perm.refl _)).2.1 "X-Csrf-Token" (by decide) (by decide),
    ((filterHeaders_redacts_sensitive_values sampleHeaders sampleHeaders.entries
      (List.Perm.refl _)).2.2 "Accept" (by decide)).trans (by decide)⟩

/-! ## The tab of a path -/

theorem Split_ne_nil (sep : Char) (s : List Char) : Split sep s ≠ [] := by
  cases s with
  | nil => simp [Split]
  | cons c cs =>
    unfold Split
    by_cases h : c = sep
    · simp [h]
    · simp only [h, if_false]
      cases Split sep cs <;> simp

theorem Split_cons_sep (sep : Char) (cs : List Char) :
    Split sep (sep :: cs) = [] :: Split sep cs := by
  simp [Split]

theorem Split_cons_ne (sep c : Char) (cs p : List Char) (ps : List (List Char)) (hc : c ≠ sep)
    (h : Split sep cs = p :: ps) : Split sep (c :: cs) = (c :: p) :: ps := by
  rw [Split]
  simp only [hc, if_false, h]

/-- A piece without separator in front of a separator is the first part. -/
theorem Split_append_sep (sep : Char) (pre t : List Char) (h : sep ∉ pre) :
    Split sep (pre ++ sep :: t) = pre :: Split sep t := by
  induction pre with
  | nil => simp [Split]
  | cons c pre ih =>
    have hc : c ≠ sep := fun e => h (e ▸ List.mem_cons_self _ _)
    have hpre : sep ∉ pre := fun e => h (List.mem_cons_of_mem _ e)
    exact Split_cons_ne sep c _ _ _ hc (ih hpre)

/-- A string without separator is its only part. -/
theorem Split_of_not_mem (sep : Char) (s : List Char) (h : sep ∉ s) : Split sep s = [s] := by
  induction s with
  | nil => rfl
  | cons c s ih =>
    have hc : c ≠ sep := fun e => h (e ▸ List.mem_cons_self _ _)
    have hs : sep ∉ s := fun e => h (List.mem_cons_of_mem _ e)
    exact Split_cons_ne sep c _ _ _ hc (ih hs)

/-- The first part has no separator, and when there are more parts the string is the
first part, a separator, and a string that splits into the other parts. -/
theorem Split_cons_inv (sep : Char) :
    ∀ (s p : List Char) (ps : List (List Char)), Split sep s = p :: ps →
      sep ∉ p ∧ (ps = [] → s = p) ∧
        (ps ≠ [] → ∃ t, s = p ++ sep :: t ∧ Split sep t = ps) := by
  intro s
  induction s with
  | nil =>
    intro p ps h
    have h' : [[]] = p :: ps := h
    injection h' with h1 h2
    subst h1; subst h2
    exact ⟨List.not_mem_nil _, fun _ => rfl, fun hne => absurd rfl hne⟩
  | cons c s ih =>
    intro p ps h
    by_cases hc : c = sep
    · rw [hc, Split_cons_sep] at h
      injection h with h1 h2
      subst h1
      refine ⟨List.not_mem_nil _, ?_, ?_⟩
      · intro hps
        exact absurd (hps ▸ h2) (Split_ne_nil sep s)
      · intro _
        exact ⟨s, by rw [hc]; rfl, h2⟩
    · cases hs : Split sep s with
      | nil => exact absurd hs (Split_ne_nil sep s)
      | cons q qs =>
        rw [Split_cons_ne sep c s q qs hc hs] at h
        injection h with h1 h2
        subst h1; subst h2
        obtain ⟨i1, i2, i3⟩ := ih q qs hs
        refine ⟨?_, ?_, ?_⟩
        · intro hm
          rcases List.mem_cons.mp hm with e | e
          · exact hc e.symm
          · exact i1 e
        · intro hps
          rw [i2 hps]
        · intro hps
          obtain ⟨t, ht, hst⟩ := i3 hps
          exact ⟨t, by rw [ht]; rfl, hst⟩

theorem getTabNameFromPath_of_parts (path : String) (p₀ p₁ p₂ : List Char)
    (ps : List (List Char)) (h : Split '/' path.toList = p₀ :: p₁ :: p₂ :: ps) :
    getTabNameFromPath path = if String.mk p₁ = "api" then tabOf (String.mk p₂) else "" := by
  simp only [getTabNameFromPath, h, List.map_cons, tabOf]

theorem getTabNameFromPath_of_short (path : String)
    (h : ∀ (p₀ p₁ p₂ : List Char) (ps : List (List Char)),
      Split '/' path.toList ≠ p₀ :: p₁ :: p₂ :: ps) :
    getTabNameFromPath path = "" := by
  cases hs : Split '/' path.toList with
  | nil => simp only [getTabNameFromPath, hs, List.map_nil]
  | cons p₀ l =>
    cases l with
    | nil => simp only [getTabNameFromPath, hs, List.map_cons, List.map_nil]
    | cons p₁ l =>
      cases l with
      | nil => simp only [getTabNameFromPath, hs, List.map_cons, List.map_nil]
      | cons p₂ ps => exact absurd hs (h p₀ p₁ p₂ ps)

theorem tabOf_ne_empty (name : String) (h : tabOf name ≠ "") :
    name ∈ ["v1", "v2", "v3", "safe", "smart"] := by
  unfold tabOf at h
  by_cases h1 : name = "v1"
  · simp [h1]
  by_cases h2 : name = "v2"
  · simp [h2]
  by_cases h3 : name = "v3"
  · simp [h3]
  by_cases h4 : name = "safe"
  · simp [h4]
  by_cases h5 : name = "smart"
  · simp [h5]
  simp only [h1, h2, h3, h4, h5, if_false] at h
  exact absurd rfl h

/-- The parts of a path that has the segment `api` second and a name third. -/
theorem Split_api (pre name rest : List Char) (hpre : '/' ∉ pre) (hname : '/' ∉ name)
    (hrest : rest = [] ∨ ∃ r, rest = '/' :: r) :
    ∃ ps, Split '/' (pre ++ "/api/".toList ++ name ++ rest) =
      pre :: "api".toList :: name :: ps := by
  have hapi : '/' ∉ "api".toList := by decide
  have e : pre ++ "/api/".toList ++ name ++ rest =
      pre ++ '/' :: ("api".toList ++ '/' :: (name ++ rest)) := by
    simp
  rw [e, Split_append_sep '/' pre _ hpre, Split_append_sep '/' "api".toList _ hapi]
  rcases hrest with h | ⟨r, h⟩
  · rw [h, List.append_nil, Split_of_not_mem '/' name hname]
    exact ⟨[], rfl⟩
  · rw [h, Split_append_sep '/' name r hname]
    exact ⟨Split '/' r, rfl⟩

/-- C24 fails on the code. The comments of the function say that it extracts the part
between `/api/` and `/generate` (line 134) and defaults to the empty string if the path
does not match (line 150), but the code never looks for `/generate` nor at the part
before `/api`: the path `/api/v1/status` is not of the shape `/api/<name>/generate`, and
neither is `x/api/safe`, yet the function returns a tab for them. -/
theorem getTabNameFromPath_ignores_generate :
    getTabNameFromPath "/api/v1/status" = "v1Tab" ∧
      getTabNameFromPath "x/api/safe" = "safeTab" ∧
      getTabNameFromPath "/api/v1/status" ≠ "" := by
  refine ⟨by decide, by decide, by decide⟩

/-- What the code of `getTabNameFromPath` does: it looks at the second and the third of
the parts of the path between `/` only. It returns `v1Tab`, `v2Tab`, `v3Tab`, `safeTab`,
`smartTab` for `/api/v1/generate`, `/api/v2/generate`, `/api/v3/generate`,
`/api/safe/generate`, `/api/smart/generate`; for every path made of a first part
without `/`, then `/api/`, then a name without `/`, then nothing or `/` and anything, it
returns the tab of the name, which is empty unless the name is one of the five; and it
returns the empty string for every path not of that form. -/
theorem getTabNameFromPath_reads_second_and_third_part (path : String) :
    (getTabNameFromPath "/api/v1/generate" = "v1Tab" ∧
        getTabNameFromPath "/api/v2/generate" = "v2Tab" ∧
        getTabNameFromPath "/api/v3/generate" = "v3Tab" ∧
        getTabNameFromPath "/api/safe/generate" = "safeTab" ∧
        getTabNameFromPath "/api/smart/generate" = "smartTab") ∧
      (∀ pre name rest : List Char, '/' ∉ pre → '/' ∉ name →
        (rest = [] ∨ ∃ r, rest = '/' :: r) →
        path.toList = pre ++ "/api/".toList ++ name ++ rest →
          getTabNameFromPath path = tabOf (String.mk name)) ∧
      (getTabNameFromPath path ≠ "" →
        ∃ pre name rest : List Char, '/' ∉ pre ∧ '/' ∉ name ∧
          (rest = [] ∨ ∃ r, rest = '/' :: r) ∧
          path.toList = pre ++ "/api/".toList ++ name ++ rest ∧
          String.mk name ∈ ["v1", "v2", "v3", "safe", "smart"] ∧
          getTabNameFromPath path = tabOf (String.mk name)) := by
  refine ⟨⟨by decide, by decide, by decide, by decide, by decide⟩, ?_, ?_⟩
  · intro pre name rest hpre hname hrest hpath
    obtain ⟨ps, hps⟩ := Split_api pre name rest hpre hname hrest
    rw [← hpath] at hps
    rw [getTabNameFromPath_of_parts path _ _ _ _ hps]
    rfl
  · intro hne
    cases hs : Split '/' path.toList with
    | nil => exact absurd hs (Split_ne_nil _ _)
    | cons p₀ l =>
      cases l with
      | nil =>
        exact absurd (getTabNameFromPath_of_short path (fun a b c d e => by
          rw [hs] at e; simp at e)) hne
      | cons p₁ l =>
        cases l with
        | nil =>
          exact absurd (getTabNameFromPath_of_short path (fun a b c d e => by
            rw [hs] at e; simp at e)) hne
        | cons p₂ ps =>
          have hval := getTabNameFromPath_of_parts path p₀ p₁ p₂ ps hs
          by_cases hapi : String.mk p₁ = "api"
          · rw [if_pos hapi] at hval
            have hp₁ : p₁ = "api".toList := congrArg String.data hapi
            obtain ⟨h0, _, h0'⟩ := Split_cons_inv '/' path.toList p₀ (p₁ :: p₂ :: ps) hs
            obtain ⟨t, ht, hst⟩ := h0' (List.cons_ne_nil _ _)
            obtain ⟨_, _, h1'⟩ := Split_cons_inv '/' t p₁ (p₂ :: ps) hst
            obtain ⟨t', ht', hst'⟩ := h1' (List.cons_ne_nil _ _)
            obtain ⟨h2, h2e, h2'⟩ := Split_cons_inv '/' t' p₂ ps hst'
            have hrest : ∃ rest, t' = p₂ ++ rest ∧ (rest = [] ∨ ∃ r, rest = '/' :: r) := by
              by_cases hps : ps = []
              · exact ⟨[], by rw [h2e hps, List.append_nil], Or.inl rfl⟩
              · obtain ⟨t'', ht'', _⟩ := h2' hps
                exact ⟨'/' :: t'', ht'', Or.inr ⟨t'', rfl⟩⟩
            obtain ⟨rest, hrest1, hrest2⟩ := hrest
            refine ⟨p₀, p₂, rest, h0, h2, hrest2, ?_, ?_, hval⟩
            · rw [ht, ht', hrest1, hp₁]
              simp
            · apply tabOf_ne_empty
              rw [← hval]
              exact hne
          · rw [if_neg hapi] at hval
            exact absurd hval hne

/-- The path `/api/smart/generate/again` has the name `smart` as its third part. -/
theorem getTabNameFromPath_reads_second_and_third_part_witness :
    getTabNameFromPath "/api/smart/generate/again" = tabOf "smart" :=
  (getTabNameFromPath_reads_second_and_third_part "/api/smart/generate/again").2.1
    [] "smart".toList "/generate/again".toList (by decide) (by decide)
    (Or.inr ⟨"generate/again".toList, rfl⟩) rfl

/-! ## The trusted origins -/

theorem containsPortLoop_iff (l : List Char) :
    containsPortLoop l = true ↔ ∃ a b : List Char, l = a ++ ':' :: b ∧ '/' ∉ a := by
  induction l with
  | nil => simp [containsPortLoop]
  | cons c cs ih =>
    unfold containsPortLoop
    by_cases h1 : c = ':'
    · simp only [h1, if_true, true_iff]
      exact ⟨[], cs, rfl, List.not_mem_nil _⟩
    · simp only [h1, if_false]
      by_cases h2 : c = '/'
      · simp only [h2, if_true]
        constructor
        · intro h; exact absurd h (by simp)
        · rintro ⟨a, b, hab, ha⟩
          cases a with
          | nil =>
            injection hab with e _
            exact absurd (h2 ▸ e) h1
          | cons x a =>
            injection hab with e _
            exact absurd (e ▸ List.mem_cons_self x a) ha
      · simp only [h2, if_false]
        rw [ih]
        constructor
        · rintro ⟨a, b, hab, ha⟩
          refine ⟨c :: a, b, by rw [hab]; rfl, ?_⟩
          intro hm
          rcases List.mem_cons.mp hm with e | e
          · exact h2 e.symm
          · exact ha e
        · rintro ⟨a, b, hab, ha⟩
          cases a with
          | nil =>
            injection hab with e _
            exact absurd e h1
          | cons x a =>
            injection hab with _ e
            exact ⟨a, b, e, fun hm => ha (List.mem_cons_of_mem _ hm)⟩

theorem containsPort_iff (s : String) : containsPort s = true ↔ IncludesPort s := by
  unfold containsPort IncludesPort
  rw [containsPortLoop_iff]
  constructor
  · rintro ⟨a, b, hab, ha⟩
    refine ⟨b.reverse, a.reverse, ?_, fun hm => ha (List.mem_reverse.mp hm)⟩
    have := congrArg List.reverse hab
    rw [List.reverse_reverse] at this
    rw [this]
    simp
  · rintro ⟨pre, post, hs, hpost⟩
    refine ⟨post.reverse, pre.reverse, ?_, fun hm => hpost (List.mem_reverse.mp hm)⟩
    rw [hs]
    simp

theorem trustedOrigins_loop (port : String) (configured : List String) :
    ∀ init : List String,
      configured.foldl
          (fun trustedOrigins origin =>
            if containsPort origin then trustedOrigins ++ [origin]
            else trustedOrigins ++ [origin ++ ":" ++ port])
          init =
        init ++ configured.map
          (fun origin => if containsPort origin then origin else origin ++ ":" ++ port) := by
  induction configured with
  | nil => intro init; simp
  | cons o os ih =>
    intro init
    rw [List.foldl_cons, List.map_cons]
    by_cases h : containsPort o = true
    · simp only [h, if_true]
      rw [ih]
      simp
    · simp only [h, if_false]
      rw [ih]
      simp

/-- C25: for every port and every list of configured origins, the list of trusted
origins built by `CsrfMiddlware` is `localhost:<port>`, `127.0.0.1:<port>`, then one
element per configured origin in order: the origin itself if `containsPort` says it
includes a port, the origin followed by `:<port>` otherwise; and `containsPort` says
so exactly when the string contains a `:` with no `/` after it. -/
theorem trustedOrigins_are_local_then_configured (port : String) (configured : List String) :
    CsrfMiddlware.trustedOrigins port configured =
        ("localhost:" ++ port) :: ("127.0.0.1:" ++ port) ::
          configured.map
            (fun origin => if containsPort origin then origin else origin ++ ":" ++ port) ∧
      (CsrfMiddlware.trustedOrigins port configured).length = configured.length + 2 ∧
      (∀ s : String, containsPort s = true ↔
        ∃ pre post : List Char, s.toList = pre ++ ':' :: post ∧ '/' ∉ post) := by
  have h : CsrfMiddlware.trustedOrigins port configured =
      ("localhost:" ++ port) :: ("127.0.0.1:" ++ port) ::
        configured.map
          (fun origin => if containsPort origin then origin else origin ++ ":" ++ port) := by
    unfold CsrfMiddlware.trustedOrigins
    rw [trustedOrigins_loop]
    rfl
  refine ⟨h, ?_, fun s => containsPort_iff s⟩
  rw [h]
  simp

/-- With port 8080: a bare host gets the port, a host with a port is kept, and a URL
with a scheme gets the port although it contains a colon, as its last slash comes
after it. -/
theorem trustedOrigins_are_local_then_configured_witness :
    CsrfMiddlware.trustedOrigins "8080" ["example.com", "10.0.0.1:9000", "https://example.org"] =
      ["localhost:8080", "127.0.0.1:8080", "example.com:8080", "10.0.0.1:9000",
        "https://example.org:8080"] :=
  (trustedOrigins_are_local_then_configured "8080"
    ["example.com", "10.0.0.1:9000", "https://example.org"]).1.trans (by decide)

/-! ## Environment lists -/

/-- C26 fails on the code for values that are not ASCII. The value `a, é`, bytes
61 2C 20 C3 A9, with the separator `,` has the pieces `a` and `é`; `getEnvSlice` returns
`a` and the four bytes C3 83 C2 A9, which read `Ã©`: line 118 converts each byte from
128 on into a character of two bytes. -/
theorem getEnvSlice_garbles_bytes_above_127 :
    getEnvSlice [0x61, 0x2C, 0x20, 0xC3, 0xA9] [0x2C] =
        some [[0x61], [0xC3, 0x83, 0xC2, 0xA9]] ∧
      splitString [0xC3, 0xA9] [0x2C] = some [[0xC3, 0x83, 0xC2, 0xA9]] ∧
      getEnvSlice [0x61, 0x2C, 0x20, 0x62] [0x2C] = some [[0x61], [0x62]] := by
  refine ⟨by decide, by decide, by decide⟩

/-! ## Normalization of the flow inputs -/

theorem ValidTones_lookup_isSome (t : String) :
    (ValidTones.lookup t).isSome = true ↔
      t ∈ ["formal", "casual", "warm", "humorous", "professional", "poetic", "sarcastic",
        "insulting", "aggressive", "passive", "gloomy"] := by
  have key : ∀ (l : List (String × String)), (l.lookup t).isSome = true ↔ t ∈ l.map Prod.fst := by
    intro l
    induction l with
    | nil => simp [List.lookup]
    | cons x l ih =>
      cases x with
      | mk a b =>
        by_cases h : t = a
        · subst h
          simp [List.lookup]
        · simp only [List.lookup, beq_false_of_ne h, List.map_cons, List.mem_cons, h, false_or]
          exact ih
  exact key ValidTones

theorem normalizeLength_eq (ToLower TrimSpace : String → String) (x : String) :
    normalizeLength ToLower TrimSpace x =
      if ToLower (TrimSpace x) ∈ ["short", "medium", "long"] then ToLower (TrimSpace x)
      else "short" := by
  unfold normalizeLength
  simp only [List.mem_cons, List.mem_singleton, List.not_mem_nil, or_false]

theorem normalizeTone_eq (ToLower TrimSpace : String → String) (x : String) :
    normalizeTone ToLower TrimSpace x =
      if ToLower (TrimSpace x) ∈ ["formal", "casual", "warm", "humorous", "professional",
          "poetic", "sarcastic", "insulting", "aggressive", "passive", "gloomy"] then
        ToLower (TrimSpace x)
      else "warm" := by
  unfold normalizeTone
  have h := ValidTones_lookup_isSome (ToLower (TrimSpace x))
  cases hl : ValidTones.lookup (ToLower (TrimSpace x)) with
  | none =>
    rw [hl] at h
    have hn : ¬ ToLower (TrimSpace x) ∈ ["formal", "casual", "warm", "humorous", "professional",
        "poetic", "sarcastic", "insulting", "aggressive", "passive", "gloomy"] :=
      fun hm => Bool.noConfusion (h.mpr hm)
    rw [if_neg hn]
    simp only [hl]
  | some d =>
    rw [hl] at h
    rw [if_pos (h.mp rfl)]
    simp only [hl]

/-- C27: for every input string, `normalizeLength` returns the trimmed, lower-cased
input when that is one of `short`, `medium`, `long` and `short` otherwise, and
`normalizeTone` returns the trimmed, lower-cased input when that is a key of
`ValidTones` and `warm` otherwise; the results lie in the valid sets; and, as trimming
and lower-casing leave the valid names as they are, both functions are idempotent. -/
theorem normalize_gives_valid_value_or_default (ToLower TrimSpace : String → String)
    (hfix : ∀ v ∈ ["short", "medium", "long", "formal", "casual", "warm", "humorous",
      "professional", "poetic", "sarcastic", "insulting", "aggressive", "passive", "gloomy"],
      ToLower (TrimSpace v) = v)
    (x : String) :
    (normalizeLength ToLower TrimSpace x =
        if ToLower (TrimSpace x) ∈ ["short", "medium", "long"] then ToLower (TrimSpace x)
        else "short") ∧
      (normalizeTone ToLower TrimSpace x =
        if (ValidTones.lookup (ToLower (TrimSpace x))).isSome then ToLower (TrimSpace x)
        else "warm") ∧
      normalizeLength ToLower TrimSpace x ∈ ["short", "medium", "long"] ∧
      (ValidTones.lookup (normalizeTone ToLower TrimSpace x)).isSome = true ∧
      normalizeLength ToLower TrimSpace (normalizeLength ToLower TrimSpace x) =
        normalizeLength ToLower TrimSpace x ∧
      normalizeTone ToLower TrimSpace (normalizeTone ToLower TrimSpace x) =
        normalizeTone ToLower TrimSpace x := by
  have hL : normalizeLength ToLower TrimSpace x ∈ ["short", "medium", "long"] := by
    rw [normalizeLength_eq]
    by_cases h : ToLower (TrimSpace x) ∈ ["short", "medium", "long"]
    · rw [if_pos h]; exact h
    · rw [if_neg h]; decide
  have hT : normalizeTone ToLower TrimSpace x ∈ ["formal", "casual", "warm", "humorous",
      "professional", "poetic", "sarcastic", "insulting", "aggressive", "passive",
      "gloomy"] := by
    rw [normalizeTone_eq]
    by_cases h : ToLower (TrimSpace x) ∈ ["formal", "casual", "warm", "humorous",
        "professional", "poetic", "sarcastic", "insulting", "aggressive", "passive", "gloomy"]
    · rw [if_pos h]; exact h
    · rw [if_neg h]; decide
  refine ⟨normalizeLength_eq ToLower TrimSpace x, ?_, hL,
    (ValidTones_lookup_isSome _).mpr hT, ?_, ?_⟩
  · rw [normalizeTone_eq]
    by_cases h : ToLower (TrimSpace x) ∈ ["formal", "casual", "warm", "humorous",
        "professional", "poetic", "sarcastic", "insulting", "aggressive", "passive", "gloomy"]
    · rw [if_pos h, if_pos ((ValidTones_lookup_isSome _).mpr h)]
    · have h' : ¬ (ValidTones.lookup (ToLower (TrimSpace x))).isSome = true :=
        fun e => h ((ValidTones_lookup_isSome _).mp e)
      rw [if_neg h, if_neg h']
  · have hf : ToLower (TrimSpace (normalizeLength ToLower TrimSpace x)) =
        normalizeLength ToLower TrimSpace x := by
      apply hfix
      simp only [List.mem_cons, List.mem_singleton, List.not_mem_nil, or_false] at hL ⊢
      rcases hL with h | h | h <;> simp [h]
    rw [normalizeLength_eq ToLower TrimSpace (normalizeLength ToLower TrimSpace x), hf, if_pos hL]
  · have hf : ToLower (TrimSpace (normalizeTone ToLower TrimSpace x)) =
        normalizeTone ToLower TrimSpace x := by
      apply hfix
      simp only [List.mem_cons, List.mem_singleton, List.not_mem_nil, or_false] at hT ⊢
      rcases hT with h | h | h | h | h | h | h | h | h | h | h <;> simp [h]
    rw [normalizeTone_eq ToLower TrimSpace (normalizeTone ToLower TrimSpace x), hf, if_pos hT]

/-- With ASCII trimming and lower-casing, ` MEDIUM ` becomes `medium`, `Poetic`
becomes `poetic`, and `huge` and `angry` become the defaults. -/
theorem normalize_gives_valid_value_or_default_witness :
    normalizeLength asciiToLower asciiTrimSpace " MEDIUM " = "medium" ∧
      normalizeTone asciiToLower asciiTrimSpace "Poetic" = "poetic" ∧
      normalizeLength asciiToLower asciiTrimSpace "huge" = "short" ∧
      normalizeTone asciiToLower asciiTrimSpace "angry" = "warm" ∧
      normalizeLength asciiToLower asciiTrimSpace
          (normalizeLength asciiToLower asciiTrimSpace " MEDIUM ") =
        normalizeLength asciiToLower asciiTrimSpace " MEDIUM " :=
  ⟨by decide, by decide, by decide, by decide,
    (normalize_gives_valid_value_or_default asciiToLower asciiTrimSpace (by decide)
      " MEDIUM ").2.2.2.2.1⟩

/-! ## A burst size that is not positive -/

theorem Limiter.Allow_of_burst_le_zero (b : Limiter) (t : Time) (h : b.burst ≤ 0) :
    (b.Allow t).2 = false := by
  have h1 : b.refill t ≤ (b.burst : ℚ) := b.refill_le_burst t
  have h2 : (b.burst : ℚ) ≤ 0 := by exact_mod_cast h
  rw [Limiter.Allow_of_lt b t (by linarith)]

theorem step_burstSize (w : State) (ev : Event) :
    (step w ev).store.burstSize = w.store.burstSize := by
  cases ev with
  | check k t => exact (RateLimit_config w k t t).2.1
  | sweep t => rfl

theorem run_burstSize (es : List Event) :
    ∀ w : State, (run w es).store.burstSize = w.store.burstSize := by
  induction es with
  | nil => intro w; rfl
  | cons ev es ih =>
    intro w
    rw [run_cons, ih, step_burstSize]

theorem RateLimit_of_burst_le_zero (w : State) (ht : Tuned w) (hb : w.store.burstSize ≤ 0)
    (k : String) (t₁ t₂ : Time) : (RateLimit w k t₁ t₂).2 = false := by
  cases h : w.store.limiters.lookup k with
  | none =>
    rw [RateLimit_of_none w k t₁ t₂ h]
    exact Limiter.Allow_of_burst_le_zero _ t₂ hb
  | some e =>
    cases hp : w.heap[e.limiter]? with
    | none => rw [RateLimit_of_dangling w k t₁ t₂ e h hp]
    | some b =>
      rw [RateLimit_of_some w k t₁ t₂ e b h hp]
      have hbm := ht b (List.getElem?_mem hp)
      exact Limiter.Allow_of_burst_le_zero b t₂ (by rw [hbm.2.1]; exact hb)

/-- C28: for every store configured with `burstSize ≤ 0`, after any checks and sweeps,
every admission check for every key at every time is denied, whatever
`requestsPerMinute` is and however long the key has been idle. -/
theorem nonpositive_burst_denies_everything (cfg : RateLimitConfig) (hb : cfg.BurstSize ≤ 0)
    (es : List Event) (k : String) (tSeen tAllow : Time) :
    (RateLimit (run (initState cfg) es) k tSeen tAllow).2 = false ∧
      ∀ b ∈ (answersOf k (initState cfg) es), b = false := by
  have hall : ∀ (es : List Event) (k : String) (t₁ t₂ : Time),
      (RateLimit (run (initState cfg) es) k t₁ t₂).2 = false := by
    intro es k t₁ t₂
    apply RateLimit_of_burst_le_zero _ (Tuned_run es _ (Tuned_initState cfg))
    rw [run_burstSize]
    exact hb
  refine ⟨hall es k tSeen tAllow, ?_⟩
  have hgen : ∀ (es : List Event) (w : State), Tuned w → w.store.burstSize ≤ 0 →
      ∀ b ∈ answersOf k w es, b = false := by
    intro es
    induction es with
    | nil => intro w _ _ b hb'; exact absurd hb' (List.not_mem_nil b)
    | cons ev es ih =>
      intro w hw hbw b hb'
      cases ev with
      | check k' t =>
        have hw' : Tuned (allow w k' t).1 := Tuned_RateLimit w hw k' t t
        have hbw' : (allow w k' t).1.store.burstSize ≤ 0 := by
          rw [show (allow w k' t).1.store.burstSize = w.store.burstSize from
            (RateLimit_config w k' t t).2.1]
          exact hbw
        by_cases hk : k' = k
        · have e : answersOf k w (Event.check k' t :: es) =
              (allow w k' t).2 :: answersOf k (allow w k' t).1 es := by
            simp only [answersOf, hk, if_true]
          rw [e] at hb'
          rcases List.mem_cons.mp hb' with h1 | h1
          · rw [h1]; exact RateLimit_of_burst_le_zero w hw hbw k' t t
          · exact ih _ hw' hbw' b h1
        · have e : answersOf k w (Event.check k' t :: es) =
              answersOf k (allow w k' t).1 es := by
            simp only [answersOf, if_neg hk]
          rw [e] at hb'
          exact ih _ hw' hbw' b hb'
      | sweep t =>
        exact ih (cleanup w t) (Tuned_cleanup w hw t) hbw b hb'
  exact hgen es (initState cfg) (Tuned_initState cfg) hb

/-- With burst size 0 and 600 requests per minute, a key checked at instant 0, swept
away at 1000 s and checked again a million seconds later is still denied. -/
theorem nonpositive_burst_denies_everything_witness :
    (RateLimit (run (initState zeroBurstConfig)
        [Event.check "1.2.3.4" 0, Event.sweep 1000]) "1.2.3.4" 1000000 1000000).2 = false :=
  (nonpositive_burst_denies_everything zeroBurstConfig (by decide)
    [Event.check "1.2.3.4" 0, Event.sweep 1000] "1.2.3.4" 1000000 1000000).1

/-- With a separator that is not empty the loop of `splitString` ends within as many
passes as there are bytes left, and one more. -/
theorem splitStringLoop_isSome (sep : List Nat) (hsep : sep ≠ []) :
    ∀ (fuel : Nat) (rest current : List Nat) (result : List (List Nat)),
      rest.length < fuel → (splitStringLoop sep fuel rest current result).isSome = true := by
  have hk : 1 ≤ sep.length := List.length_pos.mpr hsep
  intro fuel
  induction fuel with
  | zero => intro rest _ _ h; exact absurd h (Nat.not_lt_zero _)
  | succ fuel ih =>
    intro rest current result h
    cases rest with
    | nil => rfl
    | cons c rest =>
      have hlen : rest.length < fuel := by
        simp only [List.length_cons] at h
        omega
      unfold splitStringLoop
      by_cases hm : (c :: rest).take sep.length = sep
      · simp only [hm, if_true]
        apply ih
        simp only [List.length_drop, List.length_cons]
        omega
      · simp only [hm, if_false]
        exact ih _ _ _ hlen

theorem getEnvSlice_returns (value separator : List Nat) (hsep : separator ≠ []) :
    ∃ parts, getEnvSlice value separator = some parts := by
  unfold getEnvSlice
  by_cases hv : value = []
  · exact ⟨[], by rw [if_pos hv]⟩
  · rw [if_neg hv]
    have h := splitStringLoop_isSome separator hsep (value.length + 1) value [] []
      (Nat.lt_succ_self _)
    obtain ⟨pieces, hp⟩ := Option.isSome_iff_exists.mp h
    refine ⟨((pieces.map trimSpace).filter (fun t => t ≠ [])).filter (fun part => part ≠ []), ?_⟩
    simp only [splitAndTrim, splitString, hv, if_false, hp, Option.map_some']

theorem trimSpace_ends (q : List Nat) :
    (∀ c, (trimSpace q).head? = some c → isSpace c = false) ∧
      (∀ c, (trimSpace q).getLast? = some c → isSpace c = false) := by
  constructor
  · intro c hc
    obtain ⟨r, hr⟩ : trimSpace q <+: q.dropWhile isSpace :=
      List.rdropWhile_prefix isSpace (q.dropWhile isSpace)
    cases ht : trimSpace q with
    | nil => rw [ht] at hc; exact absurd hc (by simp)
    | cons x xs =>
      rw [ht] at hc hr
      have hx : x = c := by simpa using hc
      have hd : q.dropWhile isSpace = x :: (xs ++ r) := hr.symm
      have w : q.dropWhile isSpace ≠ [] := by rw [hd]; exact List.cons_ne_nil _ _
      have key : ∀ (d : List Nat) (w : d ≠ []), d = x :: (xs ++ r) → d.head w = x := by
        intro d w e; subst e; rfl
      have h1 := List.head_dropWhile_not isSpace q w
      rw [key _ w hd, hx] at h1
      exact h1
  · intro c hc
    have hne : trimSpace q ≠ [] := by
      intro e; rw [e] at hc; exact absurd hc (by simp)
    have hl := List.rdropWhile_last_not isSpace (q.dropWhile isSpace) hne
    have hc' : (trimSpace q).getLast hne = c := by
      rw [List.getLast?_eq_getLast _ hne] at hc
      exact Option.some.inj hc
    have hl' : ¬ isSpace ((trimSpace q).getLast hne) = true := hl
    rw [hc'] at hl'
    simpa using hl'

/-- What holds of `getEnvSlice` for every value: an empty or unset value gives the
empty list, and no element returned is empty or begins or ends with a space, tab,
newline or carriage return. -/
theorem getEnvSlice_parts_trimmed (value separator : List Nat) (parts : List (List Nat))
    (h : getEnvSlice value separator = some parts) :
    (value = [] → parts = []) ∧
      ∀ p ∈ parts, p ≠ [] ∧ (∀ c, p.head? = some c → isSpace c = false) ∧
        (∀ c, p.getLast? = some c → isSpace c = false) := by
  unfold getEnvSlice at h
  by_cases hv : value = []
  · rw [if_pos hv] at h
    have hp : parts = [] := (Option.some.inj h).symm
    refine ⟨fun _ => hp, ?_⟩
    intro p hp'
    rw [hp] at hp'
    exact absurd hp' (List.not_mem_nil p)
  · rw [if_neg hv] at h
    refine ⟨fun e => absurd e hv, ?_⟩
    intro p hp
    cases hs : splitString value separator with
    | none => simp [splitAndTrim, hs] at h
    | some pieces =>
      simp only [splitAndTrim, hs, Option.map_some', Option.some.injEq] at h
      rw [← h] at hp
      have h1 := List.mem_filter.mp hp
      have h2 := List.mem_filter.mp h1.1
      obtain ⟨q, _, hq⟩ := List.mem_map.mp h2.1
      have hne : p ≠ [] := by simpa using h1.2
      rw [← hq]
      rw [← hq] at hne
      exact ⟨hne, trimSpace_ends q⟩

theorem intercalate_append_pair (sep a b : List Nat) :
    ∀ r : List (List Nat),
      List.intercalate sep (r ++ [a, b]) = List.intercalate sep (r ++ [a ++ sep ++ b]) := by
  intro r
  induction r with
  | nil => simp [List.intercalate, List.intersperse]
  | cons x r ih =>
    cases r with
    | nil => simp [List.intercalate, List.intersperse]
    | cons y r =>
      have e1 : List.intercalate sep (x :: y :: r ++ [a, b]) =
          x ++ sep ++ List.intercalate sep (y :: r ++ [a, b]) := by
        simp [List.intercalate, List.intersperse]
      have e2 : List.intercalate sep (x :: y :: r ++ [a ++ sep ++ b]) =
          x ++ sep ++ List.intercalate sep (y :: r ++ [a ++ sep ++ b]) := by
        simp [List.intercalate, List.intersperse]
      rw [e1, e2, ih]

/-- On bytes below 128 the loop of `splitString` cuts the string at separators: the
pieces joined by the separator are the string. -/
theorem splitStringLoop_intercalate (sep : List Nat) :
    ∀ (fuel : Nat) (rest current : List Nat) (result ps : List (List Nat)),
      (∀ b ∈ rest, b < 128) → splitStringLoop sep fuel rest current result = some ps →
      List.intercalate sep ps = List.intercalate sep (result ++ [current ++ rest]) := by
  intro fuel
  induction fuel with
  | zero => intro rest current result ps _ h; simp [splitStringLoop] at h
  | succ fuel ih =>
    intro rest current result ps hascii h
    cases rest with
    | nil =>
      simp only [splitStringLoop, Option.some.injEq] at h
      rw [← h, List.append_nil]
    | cons c rest =>
      unfold splitStringLoop at h
      by_cases hm : (c :: rest).take sep.length = sep
      · simp only [hm, if_true] at h
        have hd : ∀ b ∈ (c :: rest).drop sep.length, b < 128 :=
          fun b hb => hascii b (List.mem_of_mem_drop hb)
        have h1 := ih _ _ _ _ hd h
        have hsplit : c :: rest = sep ++ (c :: rest).drop sep.length := by
          conv_lhs => rw [← List.take_append_drop sep.length (c :: rest), hm]
        rw [h1, List.nil_append, List.append_assoc]
        show List.intercalate sep (result ++ [current, List.drop sep.length (c :: rest)]) = _
        rw [intercalate_append_pair]
        conv_rhs => rw [hsplit]
        simp
      · simp only [hm, if_false] at h
        have hr : ∀ b ∈ rest, b < 128 := fun b hb => hascii b (List.mem_cons_of_mem _ hb)
        have hc : byteToString c = [c] := by
          unfold byteToString
          rw [if_pos (hascii c (List.mem_cons_self _ _))]
        have h1 := ih _ _ _ _ hr h
        rw [h1, hc]
        simp

theorem splitString_intercalate_of_ascii (s sep : List Nat) (pieces : List (List Nat))
    (hascii : ∀ b ∈ s, b < 128) (h : splitString s sep = some pieces) :
    List.intercalate sep pieces = s := by
  unfold splitString at h
  by_cases hs : s = []
  · rw [if_pos hs] at h
    rw [← Option.some.inj h, hs]
    rfl
  · rw [if_neg hs] at h
    rw [splitStringLoop_intercalate sep _ s [] [] pieces hascii h]
    simp [List.intercalate, List.intersperse]

end Middleware
